import Mathlib

/-!
# bytestorage: a sharded byte-keyed byte-value store

Shallow embedding of `storage.go` (package `bytestorage`) and of the hash-injecting
helpers `colSet` / `colGet` / `colDel` / `colHas` of `storage_test.go`.

Modelling conventions
* `[]byte` contents are `List (Fin 256)`; a slab buffer additionally records its capacity.
  `bytes.Clone` is given capacity = length (the Go runtime may round the capacity up; both
  branches of every capacity test store the same bytes).
* A destination buffer is an `Option Bytes`, `none` being the `nil` slice.
* `uint64` fields are `Nat` with explicit reduction modulo `2 ^ 64`.
* Go maps are association lists with at most one entry per key.
* A run-time panic (index out of range, or the explicit `panic` of `del`) is the result `none`.
* Locks and atomics are erased: every bucket method runs as one sequential step.
-/

namespace Bytestorage

/-! ## Constants and machine arithmetic -/

/-- Number of buckets in storage. -/
abbrev bucketsCount : Nat := 512

/-- Byte length of key/value to pre-allocate in a bucket. -/
abbrev entriesSize : Nat := 8

/-- Number of elements in each bucket to pre-allocate. -/
abbrev entriesCount : Nat := 16

/-- Number of deleted elements to pre-allocate in a bucket. -/
abbrev freeSize : Nat := 2

/-- Contents of a byte slice. -/
abbrev Bytes := List (Fin 256)

/-- Conversion to `uint64`. -/
def u64 (n : Nat) : Nat := n % 2 ^ 64

/-- The `uint64` difference `uint64(a) - uint64(b)`. -/
def sub64 (a b : Nat) : Nat := (u64 a + 2 ^ 64 - u64 b) % 2 ^ 64

/-- The `uint64` negation `-uint64(a)`. -/
def neg64 (a : Nat) : Nat := (2 ^ 64 - u64 a) % 2 ^ 64

/-! ## Byte buffers -/

/-- A slab buffer: its contents and its capacity. -/
structure Buf where
  data : Bytes
  cap : Nat
deriving DecidableEq

/-- The result of `bytes.Clone(x)`. -/
def clone (x : Bytes) : Buf := { data := x, cap := x.length }

/-- The buffer reuse rule of `set`: copy in place when the capacity suffices,
otherwise replace the buffer by a clone. -/
def writeBuf (buf : Buf) (x : Bytes) : Buf :=
  if buf.cap ≥ x.length then { data := x, cap := buf.cap } else clone x

/-- The reslicing `buf[0:0]`: length zero, capacity kept. -/
def clearBuf (buf : Buf) : Buf := { data := [], cap := buf.cap }

/-- Go's `append(dst, v...)` on a destination that may be `nil`. -/
def goAppend (dst : Option Bytes) (v : Bytes) : Option Bytes :=
  match dst, v with
  | none, [] => none
  | none, x :: xs => some (x :: xs)
  | some d, v => some (d ++ v)

/-- The bytes of a possibly-nil slice. -/
def bytesOf (dst : Option Bytes) : Bytes := dst.getD []

/-- One element of `kv`: the key buffer `[0]` and the value buffer `[1]`. -/
structure Slot where
  key : Buf
  val : Buf
deriving DecidableEq

/-! ## Go maps keyed by `uint64` -/

namespace GoMap

/-- The lookup `x, found = m[h]`. -/
def lookup {α : Type} (h : Nat) : List (Nat × α) → Option α
  | [] => none
  | (h', x) :: rest => if h' = h then some x else lookup h rest

/-- The statement `delete(m, h)`. -/
def delete {α : Type} (h : Nat) (m : List (Nat × α)) : List (Nat × α) :=
  m.filter (fun e => decide (e.1 ≠ h))

/-- The assignment `m[h] = x`. -/
def store {α : Type} (h : Nat) (x : α) (m : List (Nat × α)) : List (Nat × α) :=
  (h, x) :: delete h m

end GoMap

/-! ## Buckets -/

/-- The fields of `bucket` (the lock is erased). -/
structure bucket where
  size : Nat
  m : List (Nat × Nat)
  col : List (Nat × List Nat)
  kv : List Slot
  free : List Nat
  offset : Nat
  getCalls : Nat
  setCalls : Nat
  misses : Nat
  collisions : Nat
deriving DecidableEq

/-- The zero value of `bucket`. -/
def bucket.zero : bucket :=
  { size := 0, m := [], col := [], kv := [], free := [], offset := 0,
    getCalls := 0, setCalls := 0, misses := 0, collisions := 0 }

/-- Go `bucket.init`. -/
def bucket.init (b : bucket) : bucket :=
  { b with
    m := []
    kv := List.replicate entriesCount
      { key := { data := [], cap := entriesSize }, val := { data := [], cap := entriesSize } }
    col := []
    free := [] }

/-- Go `bucket.reset`; `clear` on a slice zeroes its elements and keeps its length. -/
def bucket.reset (b : bucket) : bucket :=
  { b with
    size := 0
    m := []
    col := []
    kv := b.kv.map (fun _ => { key := { data := [], cap := 0 }, val := { data := [], cap := 0 } })
    free := b.free.map (fun _ => 0)
    offset := 0
    getCalls := 0
    setCalls := 0
    misses := 0
    collisions := 0 }

/-- Go `bucket.getEntriesCount`. -/
def bucket.getEntriesCount (b : bucket) : Nat :=
  b.col.foldl (fun size e => u64 (size + u64 e.2.length)) (u64 (0 + u64 b.m.length))

/-- The loop `for pos, idx = range idxs` shared by `get`, `has`, `set` and `del`: the first
position whose slot stores key `k`, with the slot index and the slot. The outer `none` is an
index-out-of-range panic on `b.kv[idx]`. -/
def scan (kv : List Slot) (k : Bytes) : Nat → List Nat → Option (Option (Nat × Nat × Slot))
  | _, [] => some none
  | pos, idx :: rest =>
    match kv[idx]? with
    | none => none
    | some s => if s.key.data = k then some (some (pos, idx, s)) else scan kv k (pos + 1) rest

/-- The part of `bucket.get` from label `mcheck` on. -/
def bucket.get_mcheck (b : bucket) (dst : Option Bytes) (k : Bytes) (h : Nat) :
    Option (bucket × Option Bytes × Bool) :=
  match GoMap.lookup h b.m with
  | some idx =>
    match b.kv[idx]? with
    | none => none
    | some s =>
      if s.key.data = k then some (b, goAppend dst s.val.data, true)
      else some ({ b with collisions := u64 (b.collisions + 1), misses := u64 (b.misses + 1) },
                 dst, true)
  | none => some ({ b with misses := u64 (b.misses + 1) }, dst, false)

/-- Go `bucket.get`: the bucket after the call, the returned slice and the returned flag. -/
def bucket.get (b : bucket) (dst : Option Bytes) (k : Bytes) (h : Nat) :
    Option (bucket × Option Bytes × Bool) :=
  let b := { b with getCalls := u64 (b.getCalls + 1) }
  if b.collisions ≠ 0 then
    match GoMap.lookup h b.col with
    | some idxs =>
      let b := { b with collisions := u64 (b.collisions + 1) }
      match scan b.kv k 0 idxs with
      | none => none
      | some (some (_, _, s)) => some (b, goAppend dst s.val.data, true)
      | some none => some ({ b with misses := u64 (b.misses + 1) }, dst, true)
    | none => b.get_mcheck dst k h
  else b.get_mcheck dst k h

/-- The part of `bucket.has` from label `mcheck` on. -/
def bucket.has_mcheck (b : bucket) (k : Bytes) (h : Nat) : Option (bucket × Bool) :=
  match GoMap.lookup h b.m with
  | some idx =>
    match b.kv[idx]? with
    | none => none
    | some s =>
      if s.key.data = k then some (b, true)
      else some ({ b with collisions := u64 (b.collisions + 1), misses := u64 (b.misses + 1) },
                 false)
  | none => some ({ b with misses := u64 (b.misses + 1) }, false)

/-- Go `bucket.has`. -/
def bucket.has (b : bucket) (k : Bytes) (h : Nat) : Option (bucket × Bool) :=
  let b := { b with getCalls := u64 (b.getCalls + 1) }
  if b.collisions ≠ 0 then
    match GoMap.lookup h b.col with
    | some idxs =>
      let b := { b with collisions := u64 (b.collisions + 1) }
      match scan b.kv k 0 idxs with
      | none => none
      | some (some _) => some (b, true)
      | some none => some ({ b with misses := u64 (b.misses + 1) }, false)
    | none => b.has_mcheck k h
  else b.has_mcheck k h

/-- The value update of `set` on a slot `s = b.kv[idx]` whose key matched
(the same statements on the collision path and on the `mcheck` path). -/
def bucket.set_value (b : bucket) (idx : Nat) (s : Slot) (v : Bytes) : bucket :=
  if s.val.data = v then b
  else
    { b with
      size := u64 (b.size + sub64 v.length s.val.data.length)
      kv := b.kv.set idx { s with val := writeBuf s.val v } }

/-- The part of `bucket.set` from label `add` on. -/
def bucket.set_add (b : bucket) (k v : Bytes) : bucket :=
  let kv :=
    if hlt : b.offset < b.kv.length then
      b.kv.set b.offset
        { key := writeBuf (b.kv[b.offset]).key k, val := writeBuf (b.kv[b.offset]).val v }
    else b.kv ++ [{ key := clone k, val := clone v }]
  { b with
    kv := kv
    offset := u64 (b.offset + 1)
    size := u64 (b.size + u64 (v.length + k.length)) }

/-- The part of `bucket.set` from label `mcheck` on. -/
def bucket.set_mcheck (b : bucket) (k v : Bytes) (h : Nat) : Option bucket :=
  match GoMap.lookup h b.m with
  | some idx =>
    match b.kv[idx]? with
    | none => none
    | some s =>
      if s.key.data ≠ k then
        let b := { b with collisions := u64 (b.collisions + 1) }
        let b := { b with col := GoMap.store h [idx, b.offset] b.col }
        let b := { b with m := GoMap.delete h b.m }
        some (b.set_add k v)
      else some (b.set_value idx s v)
  | none =>
    match b.free.getLast? with
    | some idx =>
      match b.kv[idx]? with
      | none => none
      | some s =>
        some { b with
          size := u64 (b.size + u64 (v.length + k.length))
          kv := b.kv.set idx { key := writeBuf s.key k, val := writeBuf s.val v }
          free := b.free.dropLast
          m := GoMap.store h idx b.m }
    | none => some ({ b with m := GoMap.store h b.offset b.m }.set_add k v)

/-- Go `bucket.set`. -/
def bucket.set (b : bucket) (k v : Bytes) (h : Nat) : Option bucket :=
  let b := { b with setCalls := u64 (b.setCalls + 1) }
  if b.collisions ≠ 0 then
    match GoMap.lookup h b.col with
    | some idxs =>
      let b := { b with collisions := u64 (b.collisions + 1) }
      match scan b.kv k 0 idxs with
      | none => none
      | some (some (_, idx, s)) => some (b.set_value idx s v)
      | some none => some ({ b with col := GoMap.store h (idxs ++ [b.offset]) b.col }.set_add k v)
    | none => b.set_mcheck k v h
  else b.set_mcheck k v h

/-- The statements of `del` that vacate slot `s = b.kv[idx]` and push `idx` on the free list. -/
def bucket.del_slot (b : bucket) (idx : Nat) (s : Slot) : bucket :=
  { b with
    size := u64 (b.size + neg64 (s.key.data.length + s.val.data.length))
    kv := b.kv.set idx { key := clearBuf s.key, val := clearBuf s.val }
    free := b.free ++ [idx] }

/-- The part of `bucket.del` from label `mcheck` on. -/
def bucket.del_mcheck (b : bucket) (k : Bytes) (h : Nat) : Option bucket :=
  match GoMap.lookup h b.m with
  | none => some b
  | some idx =>
    match b.kv[idx]? with
    | none => none
    | some s =>
      if s.key.data = k then some { b.del_slot idx s with m := GoMap.delete h b.m }
      else some { b with collisions := u64 (b.collisions + 1) }

/-- Go `bucket.del`. -/
def bucket.del (b : bucket) (k : Bytes) (h : Nat) : Option bucket :=
  if b.collisions ≠ 0 then
    match GoMap.lookup h b.col with
    | some idxs =>
      let b := { b with collisions := u64 (b.collisions + 1) }
      match scan b.kv k 0 idxs with
      | none => none
      | some (some (pos, idx, s)) =>
        let b := b.del_slot idx s
        match idxs.getLast? with
        | none => none
        | some last =>
          let idxs := (idxs.set pos last).dropLast
          if idxs.length ≥ 2 then some { b with col := GoMap.store h idxs b.col }
          else
            match idxs with
            | [i] => some { b with m := GoMap.store h i b.m, col := GoMap.delete h b.col }
            | _ => none
      | some none => some { b with misses := u64 (b.misses + 1) }
    | none => b.del_mcheck k h
  else b.del_mcheck k h

/-! ## Statistics -/

/-- Go `Stats`. -/
structure Stats where
  GetCalls : Nat
  SetCalls : Nat
  Misses : Nat
  Collisions : Nat
  EntriesCount : Nat
  BytesSize : Nat
deriving DecidableEq

/-- Go `Stats.Reset`. -/
def Stats.Reset (_ : Stats) : Stats :=
  { GetCalls := 0, SetCalls := 0, Misses := 0, Collisions := 0, EntriesCount := 0, BytesSize := 0 }

/-- Go `bucket.updateStats`. -/
def bucket.updateStats (b : bucket) (s : Stats) : Stats :=
  let s := { s with GetCalls := u64 (s.GetCalls + b.getCalls) }
  let s := { s with SetCalls := u64 (s.SetCalls + b.setCalls) }
  let s := { s with Misses := u64 (s.Misses + b.misses) }
  let s := { s with Collisions := u64 (s.Collisions + b.collisions) }
  let s := { s with BytesSize := u64 (s.BytesSize + b.size) }
  let s := { s with EntriesCount := u64 (s.EntriesCount + u64 b.kv.length) }
  b.col.foldl (fun s e => { s with EntriesCount := u64 (s.EntriesCount + u64 e.2.length) }) s

/-! ## The storage: an array of `bucketsCount` buckets -/

/-- Go `Storage`. -/
structure Storage where
  buckets : Fin bucketsCount → bucket

/-- The bucket index `h % bucketsCount`. -/
def bucketIdx (h : Nat) : Fin bucketsCount := ⟨h % bucketsCount, Nat.mod_lt _ (by decide)⟩

/-- The storage with bucket `i` replaced by `b`. -/
def Storage.put (s : Storage) (i : Fin bucketsCount) (b : bucket) : Storage :=
  { buckets := Function.update s.buckets i b }

/-- Go `New`. -/
def New : Storage := { buckets := fun _ => bucket.zero.init }

/-- Go `Storage.Reset`. -/
def Storage.Reset (s : Storage) : Storage := { buckets := fun i => (s.buckets i).reset.init }

/-- Go `Storage.UpdateStats`. -/
def Storage.UpdateStats (s : Storage) (stats : Stats) : Stats :=
  (List.finRange bucketsCount).foldl (fun st i => (s.buckets i).updateStats st) stats

/-- The test helper `colSet`: `set` on bucket `h % bucketsCount` with the hash given. -/
def Storage.colSet (s : Storage) (k v : Bytes) (h : Nat) : Option Storage :=
  ((s.buckets (bucketIdx h)).set k v h).map (fun b => s.put (bucketIdx h) b)

/-- The body shared by `Get`, `HasGet` and `colGet`: `get` on bucket `h % bucketsCount`. -/
def Storage.getAt (s : Storage) (dst : Option Bytes) (k : Bytes) (h : Nat) :
    Option (Storage × Option Bytes × Bool) :=
  ((s.buckets (bucketIdx h)).get dst k h).map (fun r => (s.put (bucketIdx h) r.1, r.2.1, r.2.2))

/-- The test helper `colGet`: the flag returned by `bucket.get` is dropped. -/
def Storage.colGet (s : Storage) (dst : Option Bytes) (k : Bytes) (h : Nat) :
    Option (Storage × Option Bytes) :=
  (s.getAt dst k h).map (fun r => (r.1, r.2.1))

/-- The test helper `colDel`. -/
def Storage.colDel (s : Storage) (k : Bytes) (h : Nat) : Option Storage :=
  ((s.buckets (bucketIdx h)).del k h).map (fun b => s.put (bucketIdx h) b)

/-- The test helper `colHas`. -/
def Storage.colHas (s : Storage) (k : Bytes) (h : Nat) : Option (Storage × Bool) :=
  ((s.buckets (bucketIdx h)).has k h).map (fun r => (s.put (bucketIdx h) r.1, r.2))

/-- Go `Storage.Set`, for a hash function `hash` in place of `xxh3.Hash`. -/
def Storage.Set (hash : Bytes → Nat) (s : Storage) (k v : Bytes) : Option Storage :=
  s.colSet k v (hash k)

/-- Go `Storage.Get`. -/
def Storage.Get (hash : Bytes → Nat) (s : Storage) (dst : Option Bytes) (k : Bytes) :
    Option (Storage × Option Bytes) :=
  s.colGet dst k (hash k)

/-- Go `Storage.HasGet`. -/
def Storage.HasGet (hash : Bytes → Nat) (s : Storage) (dst : Option Bytes) (k : Bytes) :
    Option (Storage × Option Bytes × Bool) :=
  s.getAt dst k (hash k)

/-- Go `Storage.Has`. -/
def Storage.Has (hash : Bytes → Nat) (s : Storage) (k : Bytes) : Option (Storage × Bool) :=
  s.colHas k (hash k)

/-- Go `Storage.Del`. -/
def Storage.Del (hash : Bytes → Nat) (s : Storage) (k : Bytes) : Option Storage :=
  s.colDel k (hash k)

/-- Go `Storage.Size`. -/
def Storage.Size (s : Storage) : Nat :=
  (List.finRange bucketsCount).foldl (fun size i => u64 (size + (s.buckets i).size)) 0

/-- Go `Storage.Collision`. -/
def Storage.Collision (s : Storage) : Nat :=
  (List.finRange bucketsCount).foldl (fun col i => u64 (col + (s.buckets i).collisions)) 0

/-- Go `Storage.EntriesCount`. -/
def Storage.EntriesCount (s : Storage) : Nat :=
  (List.finRange bucketsCount).foldl (fun c i => u64 (c + (s.buckets i).getEntriesCount)) 0

/-! ## Operation sequences -/

/-- A state-changing call on the storage, with the hash given as by `colSet` and friends
(`Set`, `Get`, `HasGet`, `Has` and `Del` are the case `h = hash k`). -/
inductive Op where
  | set (k v : Bytes) (h : Nat)
  | get (dst : Option Bytes) (k : Bytes) (h : Nat)
  | has (k : Bytes) (h : Nat)
  | del (k : Bytes) (h : Nat)
  | reset
deriving DecidableEq

/-- The storage after one call. -/
def Storage.step (s : Storage) : Op → Option Storage
  | .set k v h => s.colSet k v h
  | .get dst k h => (s.getAt dst k h).map (fun r => r.1)
  | .has k h => (s.colHas k h).map (fun r => r.1)
  | .del k h => s.colDel k h
  | .reset => some s.Reset

/-- The storage after a sequence of calls. -/
def Storage.run (s : Storage) : List Op → Option Storage
  | [] => some s
  | op :: ops => (s.step op).bind (fun s1 => s1.run ops)

/-! ## Reachable states -/

/-- The storage `s` is the result of the call sequence `ops` on a new storage, and `ops`
has fewer than `2 ^ 63` calls. Every call adds at most one to the 64-bit collision counter
and to the 64-bit append cursor of a bucket, so within this bound neither wraps: a wrapped
collision counter would read zero, and the calls skip the CollisionIndex while it is zero. -/
def ReachedBy (ops : List Op) (s : Storage) : Prop :=
  ops.length < 2 ^ 63 ∧ New.run ops = some s

/-- The states reachable from `New()`: the results of call sequences of fewer than `2 ^ 63`
set, get, has, del and reset calls. -/
def Reachable (s : Storage) : Prop := ∃ ops, ReachedBy ops s

/-! ## Reading the data structure -/

/-- The slot `kv[i]`, and an empty slot beyond the slab. -/
def slotAt (kv : List Slot) (i : Nat) : Slot :=
  kv.getD i { key := { data := [], cap := 0 }, val := { data := [], cap := 0 } }

/-- The key bytes of slot `i`. -/
def keyAt (kv : List Slot) (i : Nat) : Bytes := (slotAt kv i).key.data

/-- The value bytes of slot `i`. -/
def valAt (kv : List Slot) (i : Nat) : Bytes := (slotAt kv i).val.data

/-- The quantity `len(key) + len(value)` of slot `i`. -/
def slotLen (kv : List Slot) (i : Nat) : Nat := (keyAt kv i).length + (valAt kv i).length

/-- The slot indices referenced by the PrimaryIndex `m` and by the CollisionIndex `col`:
one per live entry. -/
def bucket.liveRefs (b : bucket) : List Nat := b.m.map Prod.snd ++ b.col.flatMap Prod.snd

/-- The slot indices referenced by an index or held in the free list. -/
def bucket.refs (b : bucket) : List Nat := b.liveRefs ++ b.free

/-- The sum of `len(key) + len(value)` over the live entries of a bucket. -/
def bucket.liveBytes (b : bucket) : Nat := (b.liveRefs.map (slotLen b.kv)).sum

/-- The number of live entries of a bucket. -/
def bucket.liveCount (b : bucket) : Nat := b.liveRefs.length

/-- The sum of `len(key) + len(value)` over the live entries of the storage. -/
def Storage.liveBytes (s : Storage) : Nat := ∑ i, (s.buckets i).liveBytes

/-- The number of live entries of the storage. -/
def Storage.liveCount (s : Storage) : Nat := ∑ i, (s.buckets i).liveCount

/-- The slot holding the entry of key `k` under hash `h`, if there is one: the first slot of
`col[h]` whose key is `k`, or else the slot `m[h]` when its key is `k`. -/
def bucket.slotOf (b : bucket) (h : Nat) (k : Bytes) : Option Nat :=
  match GoMap.lookup h b.col with
  | some idxs => idxs.find? (fun i => decide (keyAt b.kv i = k))
  | none =>
    match GoMap.lookup h b.m with
    | some i => if keyAt b.kv i = k then some i else none
    | none => none

/-- The value stored for key `k` under hash `h`, if the entry exists. -/
def bucket.entry (b : bucket) (h : Nat) (k : Bytes) : Option Bytes :=
  (b.slotOf h k).map (valAt b.kv)

/-- The value stored in the storage for key `k` under hash `h`. -/
def Storage.entry (s : Storage) (h : Nat) (k : Bytes) : Option Bytes :=
  (s.buckets (bucketIdx h)).entry h k

/-- Hash `h` is a key of the PrimaryIndex or of the CollisionIndex. -/
def bucket.hasHash (b : bucket) (h : Nat) : Bool :=
  (GoMap.lookup h b.col).isSome || (GoMap.lookup h b.m).isSome

/-- Two buckets with the same indices, slab, free list, cursor and byte size. -/
def bucket.sameContents (b b' : bucket) : Prop :=
  b'.m = b.m ∧ b'.col = b.col ∧ b'.kv = b.kv ∧ b'.free = b.free ∧ b'.offset = b.offset ∧
    b'.size = b.size

/-- Slot `i` is referenced under hash `h`: it is `m[h]` or a member of `col[h]`. -/
def bucket.owns (b : bucket) (h i : Nat) : Prop :=
  GoMap.lookup h b.m = some i ∨ ∃ idxs, GoMap.lookup h b.col = some idxs ∧ i ∈ idxs

/-- The structural invariant of a bucket. -/
structure BInv (b : bucket) : Prop where
  mKeys : (b.m.map Prod.fst).Nodup
  colKeys : (b.col.map Prod.fst).Nodup
  disj : ∀ h, GoMap.lookup h b.col ≠ none → GoMap.lookup h b.m = none
  perm : List.Perm b.refs (List.range b.offset)
  off : b.offset ≤ b.kv.length
  colLen : ∀ e ∈ b.col, 2 ≤ e.2.length
  colKeysDistinct : ∀ e ∈ b.col, (e.2.map (keyAt b.kv)).Nodup
  freeEmpty : ∀ i ∈ b.free, keyAt b.kv i = [] ∧ valAt b.kv i = []
  latch : b.col ≠ [] → b.collisions ≠ 0
  size : b.size = ((List.range b.offset).map (slotLen b.kv)).sum % 2 ^ 64

/-- The invariant of the storage after at most `n` calls: every bucket satisfies the
structural invariant, no collision counter or append cursor exceeds `n`, and there are at
most `n` live entries. -/
structure SInv (n : Nat) (s : Storage) : Prop where
  inv : ∀ i, BInv (s.buckets i)
  colBound : ∀ i, (s.buckets i).collisions ≤ n
  offBound : ∀ i, (s.buckets i).offset ≤ n
  count : s.liveCount ≤ n

/-! ## The store as a finite map: the reading of the specification -/

/-- The contents the specification assigns to a store: a value for each (hash, key) pair
that has an entry. -/
abbrev SpecStore := Nat → Bytes → Option Bytes

/-- The effect of one call on the contents, in the specification's words: `set` upserts,
`del` removes, `reset` empties, `get` and `has` change nothing. -/
def specStep (σ : SpecStore) : Op → SpecStore
  | .set k v h => fun h' k' => if h' = h ∧ k' = k then some v else σ h' k'
  | .get _ _ _ => σ
  | .has _ _ => σ
  | .del k h => fun h' k' => if h' = h ∧ k' = k then none else σ h' k'
  | .reset => fun _ _ => none

/-- The contents the specification assigns after a sequence of calls on a new store. -/
def specRun (ops : List Op) : SpecStore := ops.foldl specStep (fun _ _ => none)

/-! ## The effect of a read on the counters -/

/-- A read of `(h, k)` adds one to the collision counter when `h` is a key of the
CollisionIndex, or a key of the PrimaryIndex whose slot stores another key. -/
def bucket.readBumps (b : bucket) (h : Nat) (k : Bytes) : Bool :=
  (GoMap.lookup h b.col).isSome ||
    (match GoMap.lookup h b.m with
     | some idx => decide (keyAt b.kv idx ≠ k)
     | none => false)

/-- The bucket after a read of `(h, k)`: one more get call, one more miss when the entry
does not exist, and one more collision under `readBumps`. -/
def bucket.afterRead (b : bucket) (h : Nat) (k : Bytes) : bucket :=
  { b with
    getCalls := u64 (b.getCalls + 1)
    collisions := if b.readBumps h k then u64 (b.collisions + 1) else b.collisions
    misses := if b.entry h k = none then u64 (b.misses + 1) else b.misses }

/-- The slice a read of `(h, k)` returns for the destination `dst`. -/
def bucket.readOut (b : bucket) (dst : Option Bytes) (h : Nat) (k : Bytes) : Option Bytes :=
  match b.entry h k with
  | some v => goAppend dst v
  | none => dst

/-! ## The effect of a write -/

/-- The bytes `len(key) + len(value)` the entry of `(h, k)` accounts for, zero when there is
no such entry. -/
def bucket.entryBytes (b : bucket) (h : Nat) (k : Bytes) : Nat :=
  match b.entry h k with
  | some v => k.length + v.length
  | none => 0

/-- What a `set` of `(h, k, v)` establishes, from the bucket `b` (after the set-call counter
has been incremented) to the bucket `b'`. -/
structure SetPost (b b' : bucket) (h : Nat) (k v : Bytes) : Prop where
  inv : BInv b'
  entry : ∀ h' k', b'.entry h' k' = if h' = h ∧ k' = k then some v else b.entry h' k'
  count : b'.liveCount = b.liveCount + (if b.entry h k = none then 1 else 0)
  bytes : b'.liveBytes + b.entryBytes h k = b.liveBytes + (k.length + v.length)
  offset_le : b'.offset ≤ b.offset + 1
  col_ge : b.collisions ≤ b'.collisions
  col_le : b'.collisions ≤ b.collisions + 1
  getCalls : b'.getCalls = b.getCalls
  setCalls : b'.setCalls = b.setCalls
  misses : b'.misses = b.misses
  same : b.entry h k = some v → b.sameContents b'

/-- What a `del` of `(h, k)` establishes, from the bucket `b` to the bucket `b'`. -/
structure DelPost (b b' : bucket) (h : Nat) (k : Bytes) : Prop where
  inv : BInv b'
  entry : ∀ h' k', b'.entry h' k' = if h' = h ∧ k' = k then none else b.entry h' k'
  count : b'.liveCount + (if b.entry h k = none then 0 else 1) = b.liveCount
  bytes : b'.liveBytes + b.entryBytes h k = b.liveBytes
  offset : b'.offset = b.offset
  col_ge : b.collisions ≤ b'.collisions
  col_le : b'.collisions ≤ b.collisions + 1
  getCalls : b'.getCalls = b.getCalls
  setCalls : b'.setCalls = b.setCalls
  same : b.entry h k = none → b.sameContents b'

/-! ## Call sequences as states -/

/-- The storage after the call sequence `ops` on a new storage (a new storage when a call
panics, which `run_total` excludes). -/
def afterOps (ops : List Op) : Storage := (New.run ops).getD New

/-- The bytes `len(key) + len(value)` a call hands to the storage. -/
def opBytes : Op → Nat
  | .set k v _ => k.length + v.length
  | _ => 0

/-- The bytes handed to the storage by a call sequence. -/
def opsBytes (ops : List Op) : Nat := (ops.map opBytes).sum

/-! ## Live entries and call counts of a call sequence: the reading of the specification -/

/-- The live (hash, key) pairs after one more call, in the specification's words: a `set` of
a pair that is not live adds it, a `del` removes the pair, `reset` removes all pairs, and
`get` and `has` change nothing. -/
def specLiveStep (l : List (Nat × Bytes)) : Op → List (Nat × Bytes)
  | .set k _ h => if (h, k) ∈ l then l else (h, k) :: l
  | .get _ _ _ => l
  | .has _ _ => l
  | .del k h => l.erase (h, k)
  | .reset => []

/-- The distinct (hash, key) pairs that have been set and not deleted since, after a sequence
of calls on a new store. -/
def specLive (ops : List Op) : List (Nat × Bytes) := ops.foldl specLiveStep []

/-- The number of `get`, `HasGet` and `has` calls counted after one more call; `reset` starts
the count again. -/
def specGetCallsStep (n : Nat) : Op → Nat
  | .set _ _ _ => n
  | .get _ _ _ => n + 1
  | .has _ _ => n + 1
  | .del _ _ => n
  | .reset => 0

/-- The number of `get`, `HasGet` and `has` calls of a call sequence since its last `reset`. -/
def specGetCalls (ops : List Op) : Nat := ops.foldl specGetCallsStep 0

/-- The number of `set` calls counted after one more call; `reset` starts the count again. -/
def specSetCallsStep (n : Nat) : Op → Nat
  | .set _ _ _ => n + 1
  | .get _ _ _ => n
  | .has _ _ => n
  | .del _ _ => n
  | .reset => 0

/-- The number of `set` calls of a call sequence since its last `reset`. -/
def specSetCalls (ops : List Op) : Nat := ops.foldl specSetCallsStep 0

/-- The (hash, key) pair a call presents to the storage; `reset` presents none. -/
def Op.target : Op → Option (Nat × Bytes)
  | .set k _ h => some (h, k)
  | .get _ k h => some (h, k)
  | .has k h => some (h, k)
  | .del k h => some (h, k)
  | .reset => none

/-- The (hash, key) pairs presented by the calls of a sequence. -/
def targets (ops : List Op) : List (Nat × Bytes) := ops.filterMap Op.target

/-- No two distinct keys presented to a call of the sequence have the same hash. -/
def HashDeterminesKey (ops : List Op) : Prop :=
  ∀ p ∈ targets ops, ∀ q ∈ targets ops, p.1 = q.1 → p.2 = q.2

/-- The `Stats` value with every field zero, as `Stats.Reset` leaves it. -/
def Stats.zero : Stats :=
  { GetCalls := 0, SetCalls := 0, Misses := 0, Collisions := 0, EntriesCount := 0, BytesSize := 0 }

/-! ## Call sequences on one bucket -/

/-- One call on a bucket, with any hash (not only a hash that the storage routes to this
bucket). The call `reset` is `reset()` followed by `init()`, the pair of calls `Storage.Reset`
makes on every bucket; no other place in the repository calls `reset()`. -/
def bucket.step (b : bucket) : Op → Option bucket
  | .set k v h => b.set k v h
  | .get dst k h => (b.get dst k h).map (fun r => r.1)
  | .has k h => (b.has k h).map (fun r => r.1)
  | .del k h => b.del k h
  | .reset => some b.reset.init

/-- The bucket after a sequence of calls. -/
def bucket.run (b : bucket) : List Op → Option bucket
  | [] => some b
  | op :: ops => (b.step op).bind (fun b1 => b1.run ops)

/-- The bucket `b` is the result of the call sequence `ops` on a fresh bucket, and `ops` has
fewer than `2 ^ 63` calls (the bound of `ReachedBy`, for the same reason). -/
def bucket.Reached (ops : List Op) (b : bucket) : Prop :=
  ops.length < 2 ^ 63 ∧ bucket.zero.init.run ops = some b

/-- The bucket states reachable from a fresh bucket by set, get, has, del and reset calls
with arbitrary hashes. -/
def bucket.Reachable (b : bucket) : Prop := ∃ ops, bucket.Reached ops b

/-- The bucket after the call sequence `ops` on a fresh bucket (a fresh bucket when a call
panics). -/
def bucket.afterOps (ops : List Op) : bucket := (bucket.zero.init.run ops).getD bucket.zero.init

/-! ## The operations without the test of the collision counter -/

/-- The variant of `bucket.get` that ignores the collision counter: the test
`b.collisions != 0` is removed and the CollisionIndex is always consulted first. -/
def bucket.get_ungated (b : bucket) (dst : Option Bytes) (k : Bytes) (h : Nat) :
    Option (bucket × Option Bytes × Bool) :=
  let b := { b with getCalls := u64 (b.getCalls + 1) }
  match GoMap.lookup h b.col with
  | some idxs =>
    let b := { b with collisions := u64 (b.collisions + 1) }
    match scan b.kv k 0 idxs with
    | none => none
    | some (some (_, _, s)) => some (b, goAppend dst s.val.data, true)
    | some none => some ({ b with misses := u64 (b.misses + 1) }, dst, true)
  | none => b.get_mcheck dst k h

/-- The variant of `bucket.has` that ignores the collision counter. -/
def bucket.has_ungated (b : bucket) (k : Bytes) (h : Nat) : Option (bucket × Bool) :=
  let b := { b with getCalls := u64 (b.getCalls + 1) }
  match GoMap.lookup h b.col with
  | some idxs =>
    let b := { b with collisions := u64 (b.collisions + 1) }
    match scan b.kv k 0 idxs with
    | none => none
    | some (some _) => some (b, true)
    | some none => some ({ b with misses := u64 (b.misses + 1) }, false)
  | none => b.has_mcheck k h

/-- The variant of `bucket.set` that ignores the collision counter. -/
def bucket.set_ungated (b : bucket) (k v : Bytes) (h : Nat) : Option bucket :=
  let b := { b with setCalls := u64 (b.setCalls + 1) }
  match GoMap.lookup h b.col with
  | some idxs =>
    let b := { b with collisions := u64 (b.collisions + 1) }
    match scan b.kv k 0 idxs with
    | none => none
    | some (some (_, idx, s)) => some (b.set_value idx s v)
    | some none => some ({ b with col := GoMap.store h (idxs ++ [b.offset]) b.col }.set_add k v)
  | none => b.set_mcheck k v h

/-- The variant of `bucket.del` that ignores the collision counter. -/
def bucket.del_ungated (b : bucket) (k : Bytes) (h : Nat) : Option bucket :=
  match GoMap.lookup h b.col with
  | some idxs =>
    let b := { b with collisions := u64 (b.collisions + 1) }
    match scan b.kv k 0 idxs with
    | none => none
    | some (some (pos, idx, s)) =>
      let b := b.del_slot idx s
      match idxs.getLast? with
      | none => none
      | some last =>
        let idxs := (idxs.set pos last).dropLast
        if idxs.length ≥ 2 then some { b with col := GoMap.store h idxs b.col }
        else
          match idxs with
          | [i] => some { b with m := GoMap.store h i b.m, col := GoMap.delete h b.col }
          | _ => none
    | some none => some { b with misses := u64 (b.misses + 1) }
  | none => b.del_mcheck k h

/-! ## Facts about Go maps -/

namespace GoMap

variable {α : Type}

theorem delete_cons (h a : Nat) (x : α) (m : List (Nat × α)) :
    delete h ((a, x) :: m) = if a = h then delete h m else (a, x) :: delete h m := by
  by_cases ha : a = h <;> simp [delete, List.filter_cons, ha]

theorem lookup_delete (h h' : Nat) (m : List (Nat × α)) :
    lookup h' (delete h m) = if h' = h then none else lookup h' m := by
  induction m with
  | nil => simp [delete, lookup]
  | cons e m ih =>
    obtain ⟨a, x⟩ := e
    rw [delete_cons]
    by_cases hah : a = h
    · rw [if_pos hah, ih]
      by_cases hh : h' = h
      · simp [hh]
      · have hne : ¬ a = h' := fun e => hh (e.symm.trans hah)
        simp [hh, lookup, hne]
    · rw [if_neg hah]
      by_cases ha : a = h'
      · have hh : ¬ h' = h := fun e => hah (ha.trans e)
        simp [lookup, ha, hh]
      · simp only [lookup, ha, if_false]
        exact ih

theorem lookup_store (h h' : Nat) (x : α) (m : List (Nat × α)) :
    lookup h' (store h x m) = if h' = h then some x else lookup h' m := by
  by_cases hh : h' = h
  · subst hh
    simp [store, lookup]
  · have hne : ¬ h = h' := fun e => hh e.symm
    simp [store, lookup, hne, hh, lookup_delete]

theorem mem_delete {h : Nat} {m : List (Nat × α)} {e : Nat × α} :
    e ∈ delete h m ↔ e ∈ m ∧ e.1 ≠ h := by
  simp [delete, List.mem_filter]

theorem mem_of_lookup {h : Nat} {m : List (Nat × α)} {x : α} (hl : lookup h m = some x) :
    (h, x) ∈ m := by
  induction m with
  | nil => simp [lookup] at hl
  | cons e m ih =>
    obtain ⟨a, y⟩ := e
    by_cases ha : a = h
    · subst ha
      simp [lookup] at hl
      simp [hl]
    · simp only [lookup, ha, if_false] at hl
      exact List.mem_cons_of_mem _ (ih hl)

theorem lookup_eq_none_iff {h : Nat} {m : List (Nat × α)} :
    lookup h m = none ↔ ∀ e ∈ m, e.1 ≠ h := by
  induction m with
  | nil => simp [lookup]
  | cons e m ih =>
    obtain ⟨a, y⟩ := e
    by_cases ha : a = h
    · simp [lookup, ha]
    · simp [lookup, ha, ih]

theorem lookup_of_mem {h : Nat} {m : List (Nat × α)} {x : α}
    (nd : (m.map Prod.fst).Nodup) (hm : (h, x) ∈ m) : lookup h m = some x := by
  induction m with
  | nil => simp at hm
  | cons e m ih =>
    obtain ⟨a, y⟩ := e
    simp only [List.map_cons, List.nodup_cons, List.mem_map, not_exists, not_and] at nd
    rcases List.mem_cons.1 hm with heq | hin
    · cases heq
      simp [lookup]
    · have ha : a ≠ h := fun e => nd.1 (h, x) hin (by simp [e])
      simp only [lookup, ha, if_false]
      exact ih nd.2 hin

theorem delete_eq_self {h : Nat} {m : List (Nat × α)} (hl : lookup h m = none) :
    delete h m = m := by
  rw [lookup_eq_none_iff] at hl
  simp only [delete, List.filter_eq_self]
  intro e he
  simpa using hl e he

theorem keys_delete {h : Nat} {m : List (Nat × α)} (nd : (m.map Prod.fst).Nodup) :
    ((delete h m).map Prod.fst).Nodup :=
  nd.sublist ((List.filter_sublist m).map Prod.fst)

theorem keys_store {h : Nat} {x : α} {m : List (Nat × α)} (nd : (m.map Prod.fst).Nodup) :
    ((store h x m).map Prod.fst).Nodup := by
  simp only [store, List.map_cons, List.nodup_cons, List.mem_map, not_exists, not_and]
  refine ⟨?_, keys_delete nd⟩
  intro e he heq
  exact (mem_delete.1 he).2 heq

theorem perm_delete {h : Nat} {m : List (Nat × α)} {x : α}
    (nd : (m.map Prod.fst).Nodup) (hl : lookup h m = some x) :
    List.Perm m ((h, x) :: delete h m) := by
  induction m with
  | nil => simp [lookup] at hl
  | cons e m ih =>
    obtain ⟨a, y⟩ := e
    simp only [List.map_cons, List.nodup_cons, List.mem_map, not_exists, not_and] at nd
    by_cases ha : a = h
    · subst ha
      simp only [lookup, if_true, Option.some.injEq] at hl
      subst hl
      have hnone : lookup a m = none := by
        rw [lookup_eq_none_iff]
        intro e he heq
        exact nd.1 e he heq
      have hd : delete a ((a, y) :: m) = m := by
        have := delete_eq_self hnone
        simpa [delete, List.filter_cons] using this
      rw [hd]
    · simp only [lookup, ha, if_false] at hl
      have hd : delete h ((a, y) :: m) = (a, y) :: delete h m := by
        simp [delete, List.filter_cons, ha]
      rw [hd]
      exact ((ih nd.2 hl).cons (a, y)).trans (List.Perm.swap _ _ _)

theorem length_delete {h : Nat} {m : List (Nat × α)} {x : α}
    (nd : (m.map Prod.fst).Nodup) (hl : lookup h m = some x) :
    (delete h m).length + 1 = m.length := by
  simpa using (perm_delete nd hl).length_eq.symm

end GoMap
/-! ## Reading slots -/

theorem slotAt_of_getElem? {kv : List Slot} {i : Nat} {s : Slot} (hs : kv[i]? = some s) :
    slotAt kv i = s := by
  simp [slotAt, List.getD, hs]

theorem getElem?_eq_slotAt {kv : List Slot} {i : Nat} (hi : i < kv.length) :
    kv[i]? = some (slotAt kv i) := by
  simp [slotAt, List.getD, List.getElem?_eq_getElem hi]

theorem slotAt_set_self {kv : List Slot} {i : Nat} (s : Slot) (hi : i < kv.length) :
    slotAt (kv.set i s) i = s := by
  simp [slotAt, List.getD, hi]

theorem slotAt_set_ne {kv : List Slot} {i j : Nat} (s : Slot) (hij : i ≠ j) :
    slotAt (kv.set i s) j = slotAt kv j := by
  simp [slotAt, List.getD, List.getElem?_set_ne hij]

theorem slotAt_append_left {kv : List Slot} {i : Nat} (s : Slot) (hi : i < kv.length) :
    slotAt (kv ++ [s]) i = slotAt kv i := by
  simp [slotAt, List.getD, List.getElem?_append_left hi]

theorem slotAt_append_self (kv : List Slot) (s : Slot) :
    slotAt (kv ++ [s]) kv.length = s := by
  simp [slotAt, List.getD]

/-- The loop `scan` on in-range indices never panics and finds the first slot with key `k`. -/
theorem scan_spec (kv : List Slot) (k : Bytes) (idxs : List Nat)
    (hb : ∀ i ∈ idxs, i < kv.length) (pos : Nat) :
    ∃ r, scan kv k pos idxs = some r ∧
      r.map (fun x => x.2.1) = idxs.find? (fun i => decide (keyAt kv i = k)) ∧
      (r = none → ∀ i ∈ idxs, keyAt kv i ≠ k) ∧
      ∀ p i s, r = some (p, i, s) →
        pos ≤ p ∧ idxs[p - pos]? = some i ∧ kv[i]? = some s ∧ s.key.data = k ∧
          ∀ j ∈ idxs.take (p - pos), keyAt kv j ≠ k := by
  induction idxs generalizing pos with
  | nil => exact ⟨none, by simp [scan]⟩
  | cons a rest ih =>
    have ha : a < kv.length := hb a (List.mem_cons_self _ _)
    have hget := getElem?_eq_slotAt ha
    by_cases hk : (slotAt kv a).key.data = k
    · refine ⟨some (pos, a, slotAt kv a), ?_, ?_, ?_, ?_⟩
      · simp [scan, hget, hk]
      · simp [List.find?_cons, keyAt, hk]
      · intro h; cases h
      · intro p i s h
        cases h
        simp [hget, hk]
    · obtain ⟨r, hr, hfind, hnone, hsome⟩ :=
        ih (fun i hi => hb i (List.mem_cons_of_mem _ hi)) (pos + 1)
      refine ⟨r, ?_, ?_, ?_, ?_⟩
      · simp [scan, hget, hk, hr]
      · simp [List.find?_cons, keyAt, hk, hfind]
      · intro h i hi
        rcases List.mem_cons.1 hi with rfl | hi
        · exact hk
        · exact hnone h i hi
      · intro p i s h
        obtain ⟨h1, h2, h3, h4, h5⟩ := hsome p i s h
        have hp : p - pos = (p - (pos + 1)) + 1 := by omega
        refine ⟨by omega, ?_, h3, h4, ?_⟩
        · rw [hp]; simpa using h2
        · rw [hp]
          intro j hj
          simp only [List.take_succ_cons, List.mem_cons] at hj
          rcases hj with rfl | hj
          · exact hk
          · exact h5 j hj

/-! ## Consequences of the structural invariant -/

theorem owns_mem_liveRefs {b : bucket} {h i : Nat} (ho : b.owns h i) : i ∈ b.liveRefs := by
  rcases ho with hm | ⟨idxs, hc, hi⟩
  · exact List.mem_append_left _ (List.mem_map.2 ⟨(h, i), GoMap.mem_of_lookup hm, rfl⟩)
  · exact List.mem_append_right _ (List.mem_flatMap.2 ⟨(h, idxs), GoMap.mem_of_lookup hc, hi⟩)

theorem mem_liveRefs_owns {b : bucket} (hm : (b.m.map Prod.fst).Nodup)
    (hc : (b.col.map Prod.fst).Nodup) {i : Nat} (hi : i ∈ b.liveRefs) : ∃ h, b.owns h i := by
  rcases List.mem_append.1 hi with h1 | h1
  · obtain ⟨e, he, rfl⟩ := List.mem_map.1 h1
    exact ⟨e.1, Or.inl (GoMap.lookup_of_mem hm he)⟩
  · obtain ⟨e, he, hie⟩ := List.mem_flatMap.1 h1
    exact ⟨e.1, Or.inr ⟨e.2, GoMap.lookup_of_mem hc he, hie⟩⟩

namespace BInv

variable {b : bucket}

theorem refs_nodup (hb : BInv b) : b.refs.Nodup :=
  hb.perm.nodup_iff.2 (List.nodup_range _)

theorem live_nodup (hb : BInv b) : b.liveRefs.Nodup :=
  List.Nodup.of_append_left hb.refs_nodup

theorem free_nodup (hb : BInv b) : b.free.Nodup :=
  List.Nodup.of_append_right hb.refs_nodup

theorem lt_of_mem_refs (hb : BInv b) {i : Nat} (hi : i ∈ b.refs) : i < b.offset :=
  List.mem_range.1 (hb.perm.mem_iff.1 hi)

theorem mem_refs_of_lt (hb : BInv b) {i : Nat} (hi : i < b.offset) : i ∈ b.refs :=
  hb.perm.mem_iff.2 (List.mem_range.2 hi)

theorem live_lt (hb : BInv b) {i : Nat} (hi : i ∈ b.liveRefs) : i < b.offset :=
  hb.lt_of_mem_refs (List.mem_append_left _ hi)

theorem free_lt (hb : BInv b) {i : Nat} (hi : i ∈ b.free) : i < b.offset :=
  hb.lt_of_mem_refs (List.mem_append_right _ hi)

theorem live_not_free (hb : BInv b) {i : Nat} (hi : i ∈ b.liveRefs) : i ∉ b.free :=
  fun hf => List.disjoint_of_nodup_append hb.refs_nodup hi hf

theorem owns_lt (hb : BInv b) {h i : Nat} (ho : b.owns h i) : i < b.offset :=
  hb.live_lt (owns_mem_liveRefs ho)

theorem owns_lt_length (hb : BInv b) {h i : Nat} (ho : b.owns h i) : i < b.kv.length :=
  lt_of_lt_of_le (hb.owns_lt ho) hb.off

theorem owns_not_free (hb : BInv b) {h i : Nat} (ho : b.owns h i) : i ∉ b.free :=
  hb.live_not_free (owns_mem_liveRefs ho)

theorem offset_not_mem_refs (hb : BInv b) : b.offset ∉ b.refs :=
  fun hi => lt_irrefl _ (hb.lt_of_mem_refs hi)

/-- No slot is referenced under two hashes. -/
theorem owner_unique (hb : BInv b) {h h' i : Nat} (ho : b.owns h i) (ho' : b.owns h' i) :
    h = h' := by
  have hnd := hb.live_nodup
  unfold bucket.liveRefs at hnd
  have hndm := List.Nodup.of_append_left hnd
  have hndc := List.Nodup.of_append_right hnd
  have hdisj := List.disjoint_of_nodup_append hnd
  rcases ho with hm | ⟨idxs, hc, hi⟩
  · rcases ho' with hm' | ⟨idxs', hc', hi'⟩
    · have := List.inj_on_of_nodup_map hndm (GoMap.mem_of_lookup hm) (GoMap.mem_of_lookup hm') rfl
      exact congrArg Prod.fst this
    · exact absurd (List.mem_flatMap.2 ⟨(h', idxs'), GoMap.mem_of_lookup hc', hi'⟩)
        (fun hx => hdisj (List.mem_map.2 ⟨(h, i), GoMap.mem_of_lookup hm, rfl⟩) hx)
  · rcases ho' with hm' | ⟨idxs', hc', hi'⟩
    · exact absurd (List.mem_flatMap.2 ⟨(h, idxs), GoMap.mem_of_lookup hc, hi⟩)
        (fun hx => hdisj (List.mem_map.2 ⟨(h', i), GoMap.mem_of_lookup hm', rfl⟩) hx)
    · by_contra hne
      have hpw := (List.nodup_flatMap.1 hndc).2
      have hsymm : Symmetric (fun (a c : Nat × List Nat) => List.Disjoint a.2 c.2) :=
        fun a c hac => hac.symm
      have hd := List.Pairwise.forall hsymm hpw (GoMap.mem_of_lookup hc) (GoMap.mem_of_lookup hc')
        (fun e => hne (congrArg Prod.fst e))
      exact hd hi hi'

/-- Under one hash no two slots store the same key. -/
theorem slot_unique (hb : BInv b) {h i j : Nat} (ho : b.owns h i) (ho' : b.owns h j)
    (hk : keyAt b.kv i = keyAt b.kv j) : i = j := by
  rcases ho with hm | ⟨idxs, hc, hi⟩
  · rcases ho' with hm' | ⟨idxs', hc', _⟩
    · rw [hm] at hm'; exact Option.some.inj hm'
    · have := hb.disj h (by rw [hc']; simp)
      rw [hm] at this; cases this
  · rcases ho' with hm' | ⟨idxs', hc', hj⟩
    · have := hb.disj h (by rw [hc]; simp)
      rw [hm'] at this; cases this
    · rw [hc] at hc'
      cases hc'
      exact List.inj_on_of_nodup_map (hb.colKeysDistinct _ (GoMap.mem_of_lookup hc)) hi hj hk

/-- The CollisionIndex is empty while the collision counter is zero. -/
theorem col_nil (hb : BInv b) (hc : b.collisions = 0) : b.col = [] := by
  by_contra hne
  exact hb.latch hne hc

theorem lookup_col_none (hb : BInv b) (hc : b.collisions = 0) (h : Nat) :
    GoMap.lookup h b.col = none := by
  rw [hb.col_nil hc]; rfl

/-- A slot index is live, free, or not below the cursor. -/
theorem length_refs (hb : BInv b) : b.liveCount + b.free.length = b.offset := by
  have := hb.perm.length_eq
  simpa [bucket.refs, bucket.liveCount] using this

end BInv

/-- Under the invariant, `slotOf` finds slot `i` exactly when `i` is referenced under the hash
and stores the key. -/
theorem slotOf_eq_some_iff {b : bucket} (hb : BInv b) {h i : Nat} {k : Bytes} :
    b.slotOf h k = some i ↔ b.owns h i ∧ keyAt b.kv i = k := by
  unfold bucket.slotOf
  constructor
  · intro hs
    cases hc : GoMap.lookup h b.col with
    | some idxs =>
      rw [hc] at hs
      simp only at hs
      have h1 := List.find?_some hs
      have h2 := List.mem_of_find?_eq_some hs
      exact ⟨Or.inr ⟨idxs, hc, h2⟩, by simpa using h1⟩
    | none =>
      rw [hc] at hs
      simp only at hs
      cases hm : GoMap.lookup h b.m with
      | some j =>
        rw [hm] at hs
        simp only at hs
        by_cases hk : keyAt b.kv j = k
        · simp only [hk, if_true, Option.some.injEq] at hs
          subst hs
          exact ⟨Or.inl hm, hk⟩
        · simp [hk] at hs
      | none => rw [hm] at hs; simp at hs
  · rintro ⟨ho, hk⟩
    cases hc : GoMap.lookup h b.col with
    | some idxs =>
      simp only
      rcases ho with hm | ⟨idxs', hc', hi⟩
      · have := hb.disj h (by rw [hc]; simp)
        rw [hm] at this; cases this
      · rw [hc] at hc'; cases hc'
        cases hf : idxs.find? (fun i => decide (keyAt b.kv i = k)) with
        | none =>
          rw [List.find?_eq_none] at hf
          exact absurd hk (by simpa using hf i hi)
        | some j =>
          have h1 := List.find?_some hf
          have h2 := List.mem_of_find?_eq_some hf
          have hj : keyAt b.kv j = k := by simpa using h1
          have : j = i := hb.slot_unique (Or.inr ⟨idxs, hc, h2⟩) (Or.inr ⟨idxs, hc, hi⟩)
            (hj.trans hk.symm)
          rw [this]
    | none =>
      simp only
      rcases ho with hm | ⟨idxs', hc', hi⟩
      · rw [hm]; simp [hk]
      · rw [hc] at hc'; cases hc'

theorem slotOf_eq_none_iff {b : bucket} (hb : BInv b) {h : Nat} {k : Bytes} :
    b.slotOf h k = none ↔ ∀ i, b.owns h i → keyAt b.kv i ≠ k := by
  constructor
  · intro hn i ho hk
    have := (slotOf_eq_some_iff hb).2 ⟨ho, hk⟩
    rw [hn] at this; cases this
  · intro hall
    cases hs : b.slotOf h k with
    | none => rfl
    | some i =>
      have := (slotOf_eq_some_iff hb).1 hs
      exact absurd this.2 (hall i this.1)

/-- Under the invariant, the entry of `(h, k)` has value `v` exactly when some slot referenced
under `h` stores `(k, v)`. -/
theorem entry_eq_some_iff {b : bucket} (hb : BInv b) {h : Nat} {k v : Bytes} :
    b.entry h k = some v ↔ ∃ i, b.owns h i ∧ keyAt b.kv i = k ∧ valAt b.kv i = v := by
  unfold bucket.entry
  constructor
  · intro he
    cases hs : b.slotOf h k with
    | none => rw [hs] at he; simp at he
    | some i =>
      rw [hs] at he
      simp only [Option.map_some', Option.some.injEq] at he
      obtain ⟨ho, hk⟩ := (slotOf_eq_some_iff hb).1 hs
      exact ⟨i, ho, hk, he⟩
  · rintro ⟨i, ho, hk, hv⟩
    rw [(slotOf_eq_some_iff hb).2 ⟨ho, hk⟩]
    simp [hv]

theorem entry_eq_none_iff {b : bucket} (hb : BInv b) {h : Nat} {k : Bytes} :
    b.entry h k = none ↔ ∀ i, b.owns h i → keyAt b.kv i ≠ k := by
  unfold bucket.entry
  rw [Option.map_eq_none', slotOf_eq_none_iff hb]

/-! ## How the three kinds of update change the entries -/

theorem keyAt_congr {kv kv' : List Slot} {i : Nat} (h : slotAt kv' i = slotAt kv i) :
    keyAt kv' i = keyAt kv i := by
  simp [keyAt, h]

theorem valAt_congr {kv kv' : List Slot} {i : Nat} (h : slotAt kv' i = slotAt kv i) :
    valAt kv' i = valAt kv i := by
  simp [valAt, h]

/-- A new slot `j` referenced under `h` and storing `(k, v)`. -/
theorem entry_add {b b' : bucket} (hb : BInv b) (hb' : BInv b') {h j : Nat} {k v : Bytes}
    (howns : ∀ h' i, b'.owns h' i ↔ b.owns h' i ∨ (h' = h ∧ i = j))
    (hj : ∀ h', ¬ b.owns h' j)
    (hkv : ∀ i, i ≠ j → slotAt b'.kv i = slotAt b.kv i)
    (hkey : keyAt b'.kv j = k) (hval : valAt b'.kv j = v)
    (hnew : b.entry h k = none) (h' : Nat) (k' : Bytes) :
    b'.entry h' k' = if h' = h ∧ k' = k then some v else b.entry h' k' := by
  rw [entry_eq_none_iff hb] at hnew
  apply Option.ext
  intro w
  simp only [Option.mem_def]
  rw [entry_eq_some_iff hb']
  by_cases hc : h' = h ∧ k' = k
  · obtain ⟨rfl, rfl⟩ := hc
    simp only [and_self, if_true, Option.some.injEq]
    constructor
    · rintro ⟨i, ho, hk, hv⟩
      rcases (howns _ _).1 ho with ho1 | ⟨_, rfl⟩
      · have hij : i ≠ j := fun e => hj _ (e ▸ ho1)
        exact absurd (by rw [← keyAt_congr (hkv i hij)]; exact hk) (hnew i ho1)
      · rw [← hval, hv]
    · rintro rfl
      exact ⟨j, (howns _ _).2 (Or.inr ⟨rfl, rfl⟩), hkey, hval⟩
  · rw [if_neg hc, entry_eq_some_iff hb]
    constructor
    · rintro ⟨i, ho, hk, hv⟩
      rcases (howns _ _).1 ho with ho1 | ⟨rfl, rfl⟩
      · have hij : i ≠ j := fun e => hj _ (e ▸ ho1)
        exact ⟨i, ho1, by rw [← keyAt_congr (hkv i hij)]; exact hk,
          by rw [← valAt_congr (hkv i hij)]; exact hv⟩
      · exact absurd ⟨rfl, (hk.symm.trans hkey)⟩ hc
    · rintro ⟨i, ho, hk, hv⟩
      have hij : i ≠ j := fun e => hj _ (e ▸ ho)
      exact ⟨i, (howns _ _).2 (Or.inl ho), by rw [keyAt_congr (hkv i hij)]; exact hk,
        by rw [valAt_congr (hkv i hij)]; exact hv⟩

/-- The value of the slot `idx` that stores key `k` under `h` is replaced by `v`. -/
theorem entry_val {b b' : bucket} (hb : BInv b) (hb' : BInv b') {h idx : Nat} {k v : Bytes}
    (howns : ∀ h' i, b'.owns h' i ↔ b.owns h' i)
    (hkeys : ∀ i, keyAt b'.kv i = keyAt b.kv i)
    (hvals : ∀ i, i ≠ idx → valAt b'.kv i = valAt b.kv i)
    (hval : valAt b'.kv idx = v)
    (ho : b.owns h idx) (hk : keyAt b.kv idx = k) (h' : Nat) (k' : Bytes) :
    b'.entry h' k' = if h' = h ∧ k' = k then some v else b.entry h' k' := by
  apply Option.ext
  intro w
  simp only [Option.mem_def]
  rw [entry_eq_some_iff hb']
  by_cases hc : h' = h ∧ k' = k
  · obtain ⟨rfl, rfl⟩ := hc
    simp only [and_self, if_true, Option.some.injEq]
    constructor
    · rintro ⟨i, hoi, hki, hvi⟩
      have : i = idx := hb.slot_unique ((howns _ _).1 hoi) ho (by rw [← hkeys i, hki, hk])
      subst this
      rw [← hval, hvi]
    · rintro rfl
      exact ⟨idx, (howns _ _).2 ho, by rw [hkeys]; exact hk, hval⟩
  · rw [if_neg hc, entry_eq_some_iff hb]
    have hne : ∀ i, b.owns h' i → keyAt b.kv i = k' → i ≠ idx := by
      rintro i hoi hki rfl
      exact hc ⟨hb.owner_unique hoi ho, hki.symm.trans hk⟩
    constructor
    · rintro ⟨i, hoi, hki, hvi⟩
      have hoi' := (howns _ _).1 hoi
      have hki' : keyAt b.kv i = k' := by rw [← hkeys i, hki]
      exact ⟨i, hoi', hki', by rw [← hvals i (hne i hoi' hki')]; exact hvi⟩
    · rintro ⟨i, hoi, hki, hvi⟩
      exact ⟨i, (howns _ _).2 hoi, by rw [hkeys i, hki],
        by rw [hvals i (hne i hoi hki)]; exact hvi⟩

/-- The slot `idx` that stores key `k` under `h` is no longer referenced. -/
theorem entry_del {b b' : bucket} (hb : BInv b) (hb' : BInv b') {h idx : Nat} {k : Bytes}
    (howns : ∀ h' i, b'.owns h' i ↔ b.owns h' i ∧ i ≠ idx)
    (hkv : ∀ i, i ≠ idx → slotAt b'.kv i = slotAt b.kv i)
    (ho : b.owns h idx) (hk : keyAt b.kv idx = k) (h' : Nat) (k' : Bytes) :
    b'.entry h' k' = if h' = h ∧ k' = k then none else b.entry h' k' := by
  apply Option.ext
  intro w
  simp only [Option.mem_def]
  rw [entry_eq_some_iff hb']
  by_cases hc : h' = h ∧ k' = k
  · obtain ⟨rfl, rfl⟩ := hc
    simp only [and_self, if_true]
    constructor
    · rintro ⟨i, hoi, hki, _⟩
      obtain ⟨hoi1, hne⟩ := (howns _ _).1 hoi
      exact absurd (hb.slot_unique hoi1 ho (by rw [← keyAt_congr (hkv i hne), hki, hk])) hne
    · intro hx; cases hx
  · rw [if_neg hc, entry_eq_some_iff hb]
    constructor
    · rintro ⟨i, hoi, hki, hvi⟩
      obtain ⟨hoi1, hne⟩ := (howns _ _).1 hoi
      exact ⟨i, hoi1, by rw [← keyAt_congr (hkv i hne)]; exact hki,
        by rw [← valAt_congr (hkv i hne)]; exact hvi⟩
    · rintro ⟨i, hoi, hki, hvi⟩
      have hne : i ≠ idx := by
        rintro rfl
        exact hc ⟨hb.owner_unique hoi ho, hki.symm.trans hk⟩
      exact ⟨i, (howns _ _).2 ⟨hoi, hne⟩, by rw [keyAt_congr (hkv i hne)]; exact hki,
        by rw [valAt_congr (hkv i hne)]; exact hvi⟩

/-- Buckets with the same indices and slab have the same entries. -/
theorem entry_sameContents {b b' : bucket} (hs : b.sameContents b') (h : Nat) (k : Bytes) :
    b'.entry h k = b.entry h k := by
  obtain ⟨h1, h2, h3, _⟩ := hs
  simp [bucket.entry, bucket.slotOf, h1, h2, h3]

/-- The invariant depends on the counters only through the latch. -/
theorem BInv.sameContents {b b' : bucket} (hb : BInv b) (hs : b.sameContents b')
    (hl : b'.col ≠ [] → b'.collisions ≠ 0) : BInv b' := by
  obtain ⟨h1, h2, h3, h4, h5, h6⟩ := hs
  have hr : b'.refs = b.refs := by simp [bucket.refs, bucket.liveRefs, h1, h2, h4]
  exact
    { mKeys := by rw [h1]; exact hb.mKeys
      colKeys := by rw [h2]; exact hb.colKeys
      disj := by rw [h1, h2]; exact hb.disj
      perm := by rw [hr, h5]; exact hb.perm
      off := by rw [h5, h3]; exact hb.off
      colLen := by rw [h2]; exact hb.colLen
      colKeysDistinct := by rw [h2, h3]; exact hb.colKeysDistinct
      freeEmpty := by rw [h4, h3]; exact hb.freeEmpty
      latch := hl
      size := by rw [h6, h5, h3]; exact hb.size }

/-! ## Byte-size arithmetic -/

theorem u64_of_lt {n : Nat} (h : n < 2 ^ 64) : u64 n = n := Nat.mod_eq_of_lt h

theorem u64_succ_ne_zero {n : Nat} (h : n + 1 < 2 ^ 64) : u64 (n + 1) ≠ 0 := by
  rw [u64_of_lt h]; omega

theorem size_val {size S S' a o n : Nat} (hs : size = S % 2 ^ 64)
    (hS : S' + (a + o) = S + (a + n)) : u64 (size + sub64 n o) = S' % 2 ^ 64 := by
  unfold u64 sub64 u64
  omega

theorem size_add {size S lk lv : Nat} (hs : size = S % 2 ^ 64) :
    u64 (size + u64 (lv + lk)) = (S + (lk + lv)) % 2 ^ 64 := by
  unfold u64
  omega

theorem size_del {size S S' x : Nat} (hs : size = S % 2 ^ 64) (hS : S' + x = S) :
    u64 (size + neg64 x) = S' % 2 ^ 64 := by
  unfold u64 neg64 u64
  omega

/-! ## Sums over slots -/

theorem sum_map_congr_of_not_mem {f g : Nat → Nat} {j : Nat} (l : List Nat)
    (hfg : ∀ i, i ≠ j → g i = f i) (hj : j ∉ l) : (l.map g).sum = (l.map f).sum := by
  congr 1
  apply List.map_congr_left
  intro i hi
  exact hfg i (fun e => hj (e ▸ hi))

theorem sum_map_update {f g : Nat → Nat} {j : Nat} (l : List Nat)
    (hfg : ∀ i, i ≠ j → g i = f i) (hnd : l.Nodup) (hj : j ∈ l) :
    (l.map g).sum + f j = (l.map f).sum + g j := by
  induction l with
  | nil => simp at hj
  | cons a l ih =>
    rw [List.nodup_cons] at hnd
    simp only [List.map_cons, List.sum_cons]
    rcases List.mem_cons.1 hj with rfl | hjl
    · have := sum_map_congr_of_not_mem l hfg hnd.1
      omega
    · have ha : a ≠ j := fun e => hnd.1 (e ▸ hjl)
      have := ih hnd.2 hjl
      have := hfg a ha
      omega

/-- The sum of `len(key) + len(value)` over the slots below `n`. -/
theorem slab_update {kv kv' : List Slot} {j n : Nat} (hj : j < n)
    (hkv : ∀ i, i ≠ j → slotAt kv' i = slotAt kv i) :
    ((List.range n).map (slotLen kv')).sum + slotLen kv j =
      ((List.range n).map (slotLen kv)).sum + slotLen kv' j :=
  sum_map_update (List.range n) (fun i hi => by simp [slotLen, keyAt, valAt, hkv i hi])
    (List.nodup_range n) (List.mem_range.2 hj)

theorem slab_congr {kv kv' : List Slot} {j n : Nat} (hj : n ≤ j)
    (hkv : ∀ i, i ≠ j → slotAt kv' i = slotAt kv i) :
    ((List.range n).map (slotLen kv')).sum = ((List.range n).map (slotLen kv)).sum :=
  sum_map_congr_of_not_mem (List.range n) (fun i hi => by simp [slotLen, keyAt, valAt, hkv i hi])
    (fun h => absurd (List.mem_range.1 h) (Nat.not_lt.2 hj))

theorem slab_succ (kv : List Slot) (n : Nat) :
    ((List.range (n + 1)).map (slotLen kv)).sum =
      ((List.range n).map (slotLen kv)).sum + slotLen kv n := by
  simp [List.range_succ]

/-- Under the invariant the live entries account for all bytes below the cursor:
free slots are empty. -/
theorem BInv.liveBytes_eq {b : bucket} (hb : BInv b) :
    b.liveBytes = ((List.range b.offset).map (slotLen b.kv)).sum := by
  have hp := (hb.perm.map (slotLen b.kv)).sum_eq
  have hfree : (b.free.map (slotLen b.kv)).sum = 0 := by
    apply List.sum_eq_zero
    intro x hx
    obtain ⟨i, hi, rfl⟩ := List.mem_map.1 hx
    obtain ⟨h1, h2⟩ := hb.freeEmpty i hi
    simp [slotLen, h1, h2]
  rw [← hp]
  simp [bucket.refs, bucket.liveBytes, hfree]

theorem BInv.size_eq {b : bucket} (hb : BInv b) : b.size = b.liveBytes % 2 ^ 64 := by
  rw [hb.liveBytes_eq]; exact hb.size

/-! ## Reads -/

theorem BInv.getElem?_of_owns {b : bucket} (hb : BInv b) {h i : Nat} (ho : b.owns h i) :
    b.kv[i]? = some (slotAt b.kv i) :=
  getElem?_eq_slotAt (hb.owns_lt_length ho)

/-- The read from label `mcheck` on, when `h` is not a key of the CollisionIndex. -/
theorem get_mcheck_eq {b : bucket} (hb : BInv b) (dst : Option Bytes) (k : Bytes) (h : Nat)
    (hcol : GoMap.lookup h b.col = none) (g : Nat) :
    bucket.get_mcheck { b with getCalls := g } dst k h =
      some ({ b.afterRead h k with getCalls := g }, b.readOut dst h k, b.hasHash h) := by
  unfold bucket.get_mcheck
  cases hm : GoMap.lookup h b.m with
  | none =>
    simp [hm, bucket.afterRead, bucket.readOut, bucket.entry, bucket.slotOf, hcol,
      bucket.hasHash, bucket.readBumps]
  | some idx =>
    have hget := hb.getElem?_of_owns (Or.inl hm)
    by_cases hk : keyAt b.kv idx = k
    · have hk' : (slotAt b.kv idx).key.data = k := hk
      simp [hm, hget, hk', hk, bucket.afterRead, bucket.readOut, bucket.entry, bucket.slotOf,
        hcol, bucket.hasHash, bucket.readBumps, valAt]
    · have hk' : ¬ (slotAt b.kv idx).key.data = k := hk
      simp [hm, hget, hk', hk, bucket.afterRead, bucket.readOut, bucket.entry, bucket.slotOf,
        hcol, bucket.hasHash, bucket.readBumps]

/-- The effect of `bucket.get` on a bucket that satisfies the invariant: it does not
panic, returns `dst` extended by the stored value, and reports whether the hash is known. -/
theorem get_eq {b : bucket} (hb : BInv b) (dst : Option Bytes) (k : Bytes) (h : Nat) :
    b.get dst k h = some (b.afterRead h k, b.readOut dst h k, b.hasHash h) := by
  unfold bucket.get
  by_cases hc0 : b.collisions = 0
  · have hcol := hb.lookup_col_none hc0 h
    dsimp only
    rw [if_neg (not_not.2 hc0), get_mcheck_eq hb dst k h hcol]
    simp [bucket.afterRead]
  · dsimp only
    rw [if_pos hc0]
    cases hcol : GoMap.lookup h b.col with
    | none =>
      dsimp only
      rw [get_mcheck_eq hb dst k h hcol]
      simp [bucket.afterRead]
    | some idxs =>
      dsimp only
      obtain ⟨r, hr, hfind, hnone, hsome⟩ := scan_spec b.kv k idxs
        (fun i hi => hb.owns_lt_length (Or.inr ⟨idxs, hcol, hi⟩)) 0
      rw [hr]
      cases r with
      | none =>
        have hf : idxs.find? (fun i => decide (keyAt b.kv i = k)) = none := by
          rw [← hfind]; rfl
        simp [bucket.afterRead, bucket.readOut, bucket.entry, bucket.slotOf, hcol, hf,
          bucket.hasHash, bucket.readBumps]
      | some x =>
        obtain ⟨p, i, s⟩ := x
        have hf : idxs.find? (fun i => decide (keyAt b.kv i = k)) = some i := by
          rw [← hfind]; rfl
        obtain ⟨_, _, hs, _, _⟩ := hsome p i s rfl
        have hsv : valAt b.kv i = s.val.data := by
          simp [valAt, slotAt_of_getElem? hs]
        simp [bucket.afterRead, bucket.readOut, bucket.entry, bucket.slotOf, hcol, hf,
          bucket.hasHash, bucket.readBumps, hsv]

/-- The membership test from label `mcheck` on, when `h` is not a key of the CollisionIndex. -/
theorem has_mcheck_eq {b : bucket} (hb : BInv b) (k : Bytes) (h : Nat)
    (hcol : GoMap.lookup h b.col = none) (g : Nat) :
    bucket.has_mcheck { b with getCalls := g } k h =
      some ({ b.afterRead h k with getCalls := g }, (b.entry h k).isSome) := by
  unfold bucket.has_mcheck
  cases hm : GoMap.lookup h b.m with
  | none =>
    simp [hm, bucket.afterRead, bucket.entry, bucket.slotOf, hcol, bucket.readBumps]
  | some idx =>
    have hget := hb.getElem?_of_owns (Or.inl hm)
    by_cases hk : keyAt b.kv idx = k
    · have hk' : (slotAt b.kv idx).key.data = k := hk
      simp [hm, hget, hk', hk, bucket.afterRead, bucket.entry, bucket.slotOf,
        hcol, bucket.readBumps]
    · have hk' : ¬ (slotAt b.kv idx).key.data = k := hk
      simp [hm, hget, hk', hk, bucket.afterRead, bucket.entry, bucket.slotOf,
        hcol, bucket.readBumps]

/-- The effect of `bucket.has` on a bucket that satisfies the invariant: it does not
panic and reports whether the entry exists. -/
theorem has_eq {b : bucket} (hb : BInv b) (k : Bytes) (h : Nat) :
    b.has k h = some (b.afterRead h k, (b.entry h k).isSome) := by
  unfold bucket.has
  by_cases hc0 : b.collisions = 0
  · have hcol := hb.lookup_col_none hc0 h
    dsimp only
    rw [if_neg (not_not.2 hc0), has_mcheck_eq hb k h hcol]
    simp [bucket.afterRead]
  · dsimp only
    rw [if_pos hc0]
    cases hcol : GoMap.lookup h b.col with
    | none =>
      dsimp only
      rw [has_mcheck_eq hb k h hcol]
      simp [bucket.afterRead]
    | some idxs =>
      dsimp only
      obtain ⟨r, hr, hfind, hnone, hsome⟩ := scan_spec b.kv k idxs
        (fun i hi => hb.owns_lt_length (Or.inr ⟨idxs, hcol, hi⟩)) 0
      rw [hr]
      cases r with
      | none =>
        have hf : idxs.find? (fun i => decide (keyAt b.kv i = k)) = none := by
          rw [← hfind]; rfl
        simp [bucket.afterRead, bucket.entry, bucket.slotOf, hcol, hf, bucket.readBumps]
      | some x =>
        obtain ⟨p, i, s⟩ := x
        have hf : idxs.find? (fun i => decide (keyAt b.kv i = k)) = some i := by
          rw [← hfind]; rfl
        simp [bucket.afterRead, bucket.entry, bucket.slotOf, hcol, hf, bucket.readBumps]

theorem afterRead_sameContents (b : bucket) (h : Nat) (k : Bytes) :
    b.sameContents (b.afterRead h k) := by
  simp [bucket.sameContents, bucket.afterRead]

theorem afterRead_collisions_le (b : bucket) (h : Nat) (k : Bytes)
    (hc : b.collisions + 1 < 2 ^ 64) :
    b.collisions ≤ (b.afterRead h k).collisions ∧
      (b.afterRead h k).collisions ≤ b.collisions + 1 := by
  simp only [bucket.afterRead]
  split
  · rw [u64_of_lt hc]; omega
  · omega

/-- A read keeps the invariant as long as the collision counter does not wrap. -/
theorem BInv.afterRead {b : bucket} (hb : BInv b) (hc : b.collisions + 1 < 2 ^ 64)
    (h : Nat) (k : Bytes) : BInv (b.afterRead h k) := by
  apply hb.sameContents (afterRead_sameContents b h k)
  intro hcol
  have h0 : b.collisions ≠ 0 := hb.latch (by simpa [bucket.afterRead] using hcol)
  have := (afterRead_collisions_le b h k hc).1
  omega

/-! ## Writes: replacing the value of an existing entry -/

theorem writeBuf_data (buf : Buf) (x : Bytes) : (writeBuf buf x).data = x := by
  unfold writeBuf clone
  split <;> rfl

theorem owns_congr {b b' : bucket} (hm : b'.m = b.m) (hc : b'.col = b.col) (h i : Nat) :
    b'.owns h i ↔ b.owns h i := by
  simp [bucket.owns, hm, hc]

/-- The facts about `set_value` on the slot `idx` referenced under `h`. -/
theorem set_value_spec {b : bucket} (hb : BInv b) {h idx : Nat} (ho : b.owns h idx)
    (v : Bytes) :
    let b' := b.set_value idx (slotAt b.kv idx) v
    BInv b' ∧ b'.m = b.m ∧ b'.col = b.col ∧ b'.free = b.free ∧ b'.offset = b.offset ∧
      b'.collisions = b.collisions ∧ b'.getCalls = b.getCalls ∧ b'.setCalls = b.setCalls ∧
      b'.misses = b.misses ∧
      (∀ i, keyAt b'.kv i = keyAt b.kv i) ∧ (∀ i, i ≠ idx → valAt b'.kv i = valAt b.kv i) ∧
      valAt b'.kv idx = v := by
  intro b'
  have hlt := hb.owns_lt_length ho
  by_cases hsame : (slotAt b.kv idx).val.data = v
  · have hb' : b' = b := by simp [b', bucket.set_value, hsame]
    rw [hb']
    exact ⟨hb, rfl, rfl, rfl, rfl, rfl, rfl, rfl, rfl, fun _ => rfl, fun _ _ => rfl, hsame⟩
  · have hb' : b' = { b with
        size := u64 (b.size + sub64 v.length (slotAt b.kv idx).val.data.length)
        kv := b.kv.set idx { slotAt b.kv idx with val := writeBuf (slotAt b.kv idx).val v } } := by
      simp [b', bucket.set_value, hsame]
    have hslot : ∀ i, i ≠ idx → slotAt b'.kv i = slotAt b.kv i := by
      intro i hi
      rw [hb']
      exact slotAt_set_ne _ (Ne.symm hi)
    have hself : slotAt b'.kv idx =
        { slotAt b.kv idx with val := writeBuf (slotAt b.kv idx).val v } := by
      rw [hb']
      exact slotAt_set_self _ hlt
    have hkeys : ∀ i, keyAt b'.kv i = keyAt b.kv i := by
      intro i
      by_cases hi : i = idx
      · subst hi; simp [keyAt, hself]
      · exact keyAt_congr (hslot i hi)
    have hval : valAt b'.kv idx = v := by simp [valAt, hself, writeBuf_data]
    have hm : b'.m = b.m := by rw [hb']
    have hc : b'.col = b.col := by rw [hb']
    have hf : b'.free = b.free := by rw [hb']
    have hoff : b'.offset = b.offset := by rw [hb']
    have hcl : b'.collisions = b.collisions := by rw [hb']
    have hsz : b'.size = u64 (b.size + sub64 v.length (slotAt b.kv idx).val.data.length) := by
      rw [hb']
    have hr : b'.refs = b.refs := by simp [bucket.refs, bucket.liveRefs, hm, hc, hf]
    refine ⟨?_, hm, hc, hf, hoff, hcl, by rw [hb'], by rw [hb'], by rw [hb'], hkeys,
      fun i hi => valAt_congr (hslot i hi), hval⟩
    exact
      { mKeys := by rw [hm]; exact hb.mKeys
        colKeys := by rw [hc]; exact hb.colKeys
        disj := by rw [hm, hc]; exact hb.disj
        perm := by rw [hr, hoff]; exact hb.perm
        off := by rw [hoff, hb']; simpa using hb.off
        colLen := by rw [hc]; exact hb.colLen
        colKeysDistinct := by
          rw [hc]
          intro e he
          have : e.2.map (keyAt b'.kv) = e.2.map (keyAt b.kv) :=
            List.map_congr_left (fun i _ => hkeys i)
          rw [this]
          exact hb.colKeysDistinct e he
        freeEmpty := by
          rw [hf]
          intro i hi
          have hne : i ≠ idx := fun e => hb.owns_not_free ho (e ▸ hi)
          rw [keyAt_congr (hslot i hne), valAt_congr (hslot i hne)]
          exact hb.freeEmpty i hi
        latch := by rw [hc, hcl]; exact hb.latch
        size := by
          rw [hsz, hoff]
          have hupd := slab_update (hb.owns_lt ho) hslot
          have h1 : slotLen b.kv idx = (keyAt b.kv idx).length +
              (slotAt b.kv idx).val.data.length := rfl
          have h2 : slotLen b'.kv idx = (keyAt b.kv idx).length + v.length := by
            simp [slotLen, hkeys, hval]
          rw [h1, h2] at hupd
          exact size_val hb.size hupd }

/-! ## Writes: appending a new slot at the cursor -/

/-- The fields of `b.set_add k v` when the cursor is within the slab and does not wrap. -/
theorem set_add_props (b : bucket) (k v : Bytes) (hoff : b.offset ≤ b.kv.length)
    (hw : b.offset + 1 < 2 ^ 64) :
    let b' := b.set_add k v
    (∀ i, i ≠ b.offset → slotAt b'.kv i = slotAt b.kv i) ∧
      keyAt b'.kv b.offset = k ∧ valAt b'.kv b.offset = v ∧ b.offset < b'.kv.length ∧
      b'.offset = b.offset + 1 ∧ b'.free = b.free ∧ b'.m = b.m ∧ b'.col = b.col ∧
      b'.size = u64 (b.size + u64 (v.length + k.length)) ∧
      b'.collisions = b.collisions ∧ b'.getCalls = b.getCalls ∧ b'.setCalls = b.setCalls ∧
      b'.misses = b.misses := by
  intro b'
  have hoffset : b'.offset = b.offset + 1 := by
    simp only [b', bucket.set_add]
    exact u64_of_lt hw
  refine ⟨?_, ?_, ?_, ?_, hoffset, rfl, rfl, rfl, rfl, rfl, rfl, rfl, rfl⟩
  · intro i hi
    simp only [b', bucket.set_add]
    split
    · exact slotAt_set_ne _ (Ne.symm hi)
    · rename_i hge
      have hlen : b.kv.length = b.offset := by omega
      rcases Nat.lt_or_gt_of_ne hi with hlt | hgt
      · exact slotAt_append_left _ (by omega)
      · simp [slotAt, List.getD, List.getElem?_eq_none_iff.2 (show b.kv.length ≤ i by omega),
          List.getElem?_eq_none_iff.2 (show (b.kv ++ [_]).length ≤ i by simp; omega)]
  · simp only [b', bucket.set_add]
    split
    · rename_i hlt
      simp [keyAt, slotAt_set_self _ hlt, writeBuf_data]
    · rename_i hge
      have hlen : b.offset = b.kv.length := by omega
      rw [hlen]
      simp [keyAt, slotAt_append_self, clone]
  · simp only [b', bucket.set_add]
    split
    · rename_i hlt
      simp [valAt, slotAt_set_self _ hlt, writeBuf_data]
    · rename_i hge
      have hlen : b.offset = b.kv.length := by omega
      rw [hlen]
      simp [valAt, slotAt_append_self, clone]
  · simp only [b', bucket.set_add]
    split
    · rename_i hlt
      simpa using hlt
    · simp; omega

/-- The invariant after a new slot at the cursor has been written and linked into an index. -/
theorem BInv.of_add {b b' : bucket} (hb : BInv b) {k v : Bytes}
    (hslot : ∀ i, i ≠ b.offset → slotAt b'.kv i = slotAt b.kv i)
    (hkey : keyAt b'.kv b.offset = k) (hval : valAt b'.kv b.offset = v)
    (hlen : b.offset < b'.kv.length)
    (hoff : b'.offset = b.offset + 1)
    (hfree : b'.free = b.free)
    (hsize : b'.size = u64 (b.size + u64 (v.length + k.length)))
    (hmk : (b'.m.map Prod.fst).Nodup) (hck : (b'.col.map Prod.fst).Nodup)
    (hdisj : ∀ h, GoMap.lookup h b'.col ≠ none → GoMap.lookup h b'.m = none)
    (hperm : List.Perm b'.liveRefs (b.offset :: b.liveRefs))
    (hcl : ∀ e ∈ b'.col, 2 ≤ e.2.length)
    (hdist : ∀ e ∈ b'.col, (e.2.map (keyAt b'.kv)).Nodup)
    (hlatch : b'.col ≠ [] → b'.collisions ≠ 0) : BInv b' :=
  { mKeys := hmk
    colKeys := hck
    disj := hdisj
    perm := by
      rw [hoff, List.range_succ]
      have h1 : List.Perm b'.refs (b.offset :: b.refs) := by
        unfold bucket.refs
        rw [hfree]
        exact hperm.append_right b.free
      exact h1.trans ((hb.perm.cons b.offset).trans
        (List.perm_append_singleton b.offset (List.range b.offset)).symm)
    off := by rw [hoff]; omega
    colLen := hcl
    colKeysDistinct := hdist
    freeEmpty := by
      rw [hfree]
      intro i hi
      have hne : i ≠ b.offset := Nat.ne_of_lt (hb.free_lt hi)
      rw [keyAt_congr (hslot i hne), valAt_congr (hslot i hne)]
      exact hb.freeEmpty i hi
    latch := hlatch
    size := by
      rw [hsize, hoff, slab_succ, slab_congr (le_refl _) hslot]
      have : slotLen b'.kv b.offset = k.length + v.length := by simp [slotLen, hkey, hval]
      rw [this]
      exact size_add hb.size }

/-- A new entry `(h, k, v)` written at the cursor: the invariant, the entries and the number
of live entries afterwards. `b0` is `b` with the index already updated. -/
theorem add_spec {b : bucket} (b0 : bucket) (hb : BInv b) (hw : b.offset + 1 < 2 ^ 64) {h : Nat}
    {k v : Bytes}
    (hkv : b0.kv = b.kv) (hfree : b0.free = b.free) (hoffs : b0.offset = b.offset)
    (hsize : b0.size = b.size)
    (hmk : (b0.m.map Prod.fst).Nodup) (hck : (b0.col.map Prod.fst).Nodup)
    (hdisj : ∀ h, GoMap.lookup h b0.col ≠ none → GoMap.lookup h b0.m = none)
    (hperm : List.Perm b0.liveRefs (b.offset :: b.liveRefs))
    (hcl : ∀ e ∈ b0.col, 2 ≤ e.2.length)
    (hdist : ∀ e ∈ b0.col, (e.2.map (fun i => if i = b.offset then k else keyAt b.kv i)).Nodup)
    (hlatch : b0.col ≠ [] → b0.collisions ≠ 0)
    (howns : ∀ h' i, b0.owns h' i ↔ b.owns h' i ∨ (h' = h ∧ i = b.offset))
    (hnew : b.entry h k = none) :
    BInv (b0.set_add k v) ∧
      (∀ h' k', (b0.set_add k v).entry h' k' =
        if h' = h ∧ k' = k then some v else b.entry h' k') ∧
      (b0.set_add k v).liveCount = b.liveCount + 1 ∧
      (b0.set_add k v).liveBytes = b.liveBytes + (k.length + v.length) := by
  have hoff0 : b0.offset ≤ b0.kv.length := by rw [hoffs, hkv]; exact hb.off
  have hw0 : b0.offset + 1 < 2 ^ 64 := by rw [hoffs]; exact hw
  obtain ⟨p1, p2, p3, p4, p5, p6, p7, p8, p9, p10, _, _, _⟩ := set_add_props b0 k v hoff0 hw0
  rw [hoffs] at p1 p2 p3 p4 p5
  rw [hkv] at p1
  have hkeys : ∀ i, keyAt (b0.set_add k v).kv i = if i = b.offset then k else keyAt b.kv i := by
    intro i
    by_cases hi : i = b.offset
    · rw [if_pos hi, hi]; exact p2
    · rw [if_neg hi]; exact keyAt_congr (p1 i hi)
  have hinv : BInv (b0.set_add k v) := by
    apply hb.of_add p1 p2 p3 p4 p5 (p6.trans hfree) (by rw [p9, hsize])
    · rw [p7]; exact hmk
    · rw [p8]; exact hck
    · rw [p7, p8]; exact hdisj
    · unfold bucket.liveRefs
      rw [p7, p8]
      exact hperm
    · rw [p8]; exact hcl
    · rw [p8]
      intro e he
      have : e.2.map (keyAt (b0.set_add k v).kv) =
          e.2.map (fun i => if i = b.offset then k else keyAt b.kv i) :=
        List.map_congr_left (fun i _ => hkeys i)
      rw [this]
      exact hdist e he
    · rw [p8, p10]; exact hlatch
  refine ⟨hinv, ?_, ?_, ?_⟩
  · apply entry_add hb hinv (j := b.offset) _ (fun h' ho => lt_irrefl _ (hb.owns_lt ho))
      p1 p2 p3 hnew
    intro h' i
    rw [owns_congr p7 p8]
    exact howns h' i
  · have h1 := hinv.length_refs
    have h2 := hb.length_refs
    rw [p5, p6, hfree] at h1
    omega
  · rw [hinv.liveBytes_eq, hb.liveBytes_eq, p5, slab_succ, slab_congr (le_refl _) p1]
    simp [slotLen, p2, p3]

theorem lookup_ne_none_of_eq {α : Type} {h : Nat} {m : List (Nat × α)} {x : α}
    (hl : GoMap.lookup h m = some x) : GoMap.lookup h m ≠ none := by
  rw [hl]; simp

/-- No entry exists under a hash that is a key of neither index. -/
theorem entry_none_of_lookup {b : bucket} {h : Nat} (k : Bytes)
    (hm : GoMap.lookup h b.m = none) (hc : GoMap.lookup h b.col = none) :
    b.entry h k = none := by
  simp [bucket.entry, bucket.slotOf, hm, hc]

theorem not_owns_of_lookup {b : bucket} {h : Nat} (i : Nat)
    (hm : GoMap.lookup h b.m = none) (hc : GoMap.lookup h b.col = none) : ¬ b.owns h i := by
  rintro (h1 | ⟨idxs, h1, _⟩)
  · rw [hm] at h1; cases h1
  · rw [hc] at h1; cases h1

/-- Path `m[h] = b.offset; goto add`: the hash is a key of neither index and the free list
is empty. -/
theorem set_new_spec {b : bucket} (hb : BInv b) (hw : b.offset + 1 < 2 ^ 64) {h : Nat}
    (k v : Bytes) (hm : GoMap.lookup h b.m = none) (hc : GoMap.lookup h b.col = none) :
    let b' := ({ b with m := GoMap.store h b.offset b.m }).set_add k v
    BInv b' ∧ (∀ h' k', b'.entry h' k' = if h' = h ∧ k' = k then some v else b.entry h' k') ∧
      b'.liveCount = b.liveCount + 1 ∧
      b'.liveBytes = b.liveBytes + (k.length + v.length) := by
  intro b'
  apply add_spec { b with m := GoMap.store h b.offset b.m } hb hw rfl rfl rfl rfl
  · exact GoMap.keys_store hb.mKeys
  · exact hb.colKeys
  · intro h' hh'
    show GoMap.lookup h' (GoMap.store h b.offset b.m) = none
    rw [GoMap.lookup_store]
    by_cases e : h' = h
    · subst e; exact absurd hc hh'
    · rw [if_neg e]; exact hb.disj h' hh'
  · show List.Perm ((GoMap.store h b.offset b.m).map Prod.snd ++ b.col.flatMap Prod.snd) _
    simp only [GoMap.store, GoMap.delete_eq_self hm, List.map_cons, List.cons_append]
    exact List.Perm.refl _
  · exact hb.colLen
  · intro e he
    have : e.2.map (fun i => if i = b.offset then k else keyAt b.kv i) =
        e.2.map (keyAt b.kv) := by
      apply List.map_congr_left
      intro i hi
      have hlt := hb.owns_lt (Or.inr ⟨e.2, GoMap.lookup_of_mem hb.colKeys he, hi⟩)
      rw [if_neg (Nat.ne_of_lt hlt)]
    rw [this]
    exact hb.colKeysDistinct e he
  · exact hb.latch
  · intro h' i
    simp only [bucket.owns, GoMap.lookup_store]
    by_cases e : h' = h
    · subst e
      simp [hm, hc, eq_comm]
    · simp [e]
  · exact entry_none_of_lookup k hm hc

theorem map_keys_below {b : bucket} (hb : BInv b) {h : Nat} {idxs : List Nat} (k : Bytes)
    (hidx : ∀ i ∈ idxs, b.owns h i) :
    idxs.map (fun i => if i = b.offset then k else keyAt b.kv i) = idxs.map (keyAt b.kv) := by
  apply List.map_congr_left
  intro i hi
  rw [if_neg (Nat.ne_of_lt (hb.owns_lt (hidx i hi)))]

theorem mem_store_iff {α : Type} {h : Nat} {x : α} {m : List (Nat × α)} {e : Nat × α} :
    e ∈ GoMap.store h x m ↔ e = (h, x) ∨ (e ∈ m ∧ e.1 ≠ h) := by
  simp [GoMap.store, GoMap.mem_delete]

/-- Path "found a new pair of keys that has the same hash": the hash moves from the
PrimaryIndex to a two-element list of the CollisionIndex. -/
theorem set_first_collision_spec {b : bucket} (b0 : bucket) (hb : BInv b)
    (hw : b.offset + 1 < 2 ^ 64) {h idx : Nat} {k : Bytes} (v : Bytes)
    (hm : GoMap.lookup h b.m = some idx) (hc : GoMap.lookup h b.col = none)
    (hk : keyAt b.kv idx ≠ k)
    (e1 : b0.kv = b.kv) (e2 : b0.free = b.free) (e3 : b0.offset = b.offset)
    (e4 : b0.size = b.size) (e5 : b0.m = GoMap.delete h b.m)
    (e6 : b0.col = GoMap.store h [idx, b.offset] b.col) (e7 : b0.collisions ≠ 0) :
    BInv (b0.set_add k v) ∧
      (∀ h' k', (b0.set_add k v).entry h' k' =
        if h' = h ∧ k' = k then some v else b.entry h' k') ∧
      (b0.set_add k v).liveCount = b.liveCount + 1 ∧
      (b0.set_add k v).liveBytes = b.liveBytes + (k.length + v.length) := by
  have hidx : b.owns h idx := Or.inl hm
  apply add_spec b0 hb hw e1 e2 e3 e4
  · rw [e5]; exact GoMap.keys_delete hb.mKeys
  · rw [e6]; exact GoMap.keys_store hb.colKeys
  · intro h' hh'
    rw [e5, GoMap.lookup_delete]
    rw [e6, GoMap.lookup_store] at hh'
    by_cases e : h' = h
    · rw [if_pos e]
    · rw [if_neg e] at hh' ⊢
      exact hb.disj h' hh'
  · unfold bucket.liveRefs
    rw [e5, e6]
    have hp := (GoMap.perm_delete hb.mKeys hm).map Prod.snd
    simp only [GoMap.store, GoMap.delete_eq_self hc, List.flatMap_cons]
    rw [List.perm_iff_count] at hp ⊢
    intro a
    have := hp a
    simp only [List.map_cons, List.count_cons, List.count_append, List.count_nil] at this ⊢
    omega
  · intro e he
    rw [e6, mem_store_iff] at he
    rcases he with rfl | ⟨he, _⟩
    · simp
    · exact hb.colLen e he
  · intro e he
    rw [e6, mem_store_iff] at he
    rcases he with rfl | ⟨he, _⟩
    · have hne : idx ≠ b.offset := Nat.ne_of_lt (hb.owns_lt hidx)
      simp [hne, hk]
    · rw [map_keys_below hb k
        (fun i hi => Or.inr ⟨e.2, GoMap.lookup_of_mem hb.colKeys he, hi⟩)]
      exact hb.colKeysDistinct e he
  · intro _; exact e7
  · intro h' i
    simp only [bucket.owns, e5, e6, GoMap.lookup_store, GoMap.lookup_delete]
    by_cases e : h' = h
    · subst e
      simp [hm, hc, eq_comm]
    · simp [e]
  · rw [entry_eq_none_iff hb]
    rintro i (h1 | ⟨idxs, h1, _⟩)
    · rw [hm] at h1; cases h1; exact hk
    · rw [hc] at h1; cases h1

/-- Path "new key has same hash, add new key": the hash is a key of the CollisionIndex and
none of its slots stores the key. -/
theorem set_col_append_spec {b : bucket} (b0 : bucket) (hb : BInv b)
    (hw : b.offset + 1 < 2 ^ 64) {h : Nat} {idxs : List Nat} {k : Bytes} (v : Bytes)
    (hc : GoMap.lookup h b.col = some idxs) (hk : ∀ i ∈ idxs, keyAt b.kv i ≠ k)
    (e1 : b0.kv = b.kv) (e2 : b0.free = b.free) (e3 : b0.offset = b.offset)
    (e4 : b0.size = b.size) (e5 : b0.m = b.m)
    (e6 : b0.col = GoMap.store h (idxs ++ [b.offset]) b.col) (e7 : b0.collisions ≠ 0) :
    BInv (b0.set_add k v) ∧
      (∀ h' k', (b0.set_add k v).entry h' k' =
        if h' = h ∧ k' = k then some v else b.entry h' k') ∧
      (b0.set_add k v).liveCount = b.liveCount + 1 ∧
      (b0.set_add k v).liveBytes = b.liveBytes + (k.length + v.length) := by
  have hmem := GoMap.mem_of_lookup hc
  have hmn : GoMap.lookup h b.m = none := hb.disj h (lookup_ne_none_of_eq hc)
  apply add_spec b0 hb hw e1 e2 e3 e4
  · rw [e5]; exact hb.mKeys
  · rw [e6]; exact GoMap.keys_store hb.colKeys
  · intro h' hh'
    rw [e5]
    rw [e6, GoMap.lookup_store] at hh'
    by_cases e : h' = h
    · rw [e]; exact hmn
    · rw [if_neg e] at hh'
      exact hb.disj h' hh'
  · unfold bucket.liveRefs
    rw [e5, e6]
    have hp := (GoMap.perm_delete hb.colKeys hc).flatMap_right Prod.snd
    simp only [GoMap.store, List.flatMap_cons]
    rw [List.perm_iff_count] at hp ⊢
    intro a
    have := hp a
    simp only [List.flatMap_cons, List.count_cons, List.count_append, List.count_nil] at this ⊢
    omega
  · intro e he
    rw [e6, mem_store_iff] at he
    rcases he with rfl | ⟨he, _⟩
    · have := hb.colLen _ hmem
      simp at this ⊢
      omega
    · exact hb.colLen e he
  · intro e he
    rw [e6, mem_store_iff] at he
    rcases he with rfl | ⟨he, _⟩
    · have hmap := map_keys_below hb k (fun i hi => Or.inr ⟨idxs, hc, hi⟩)
      simp only [List.map_append, hmap, List.map_cons, List.map_nil, if_true]
      rw [List.nodup_append]
      refine ⟨hb.colKeysDistinct _ hmem, List.nodup_singleton _, ?_⟩
      intro x hx hx'
      obtain ⟨i, hi, rfl⟩ := List.mem_map.1 hx
      simp only [List.mem_singleton] at hx'
      exact hk i hi hx'
    · rw [map_keys_below hb k
        (fun i hi => Or.inr ⟨e.2, GoMap.lookup_of_mem hb.colKeys he, hi⟩)]
      exact hb.colKeysDistinct e he
  · intro _; exact e7
  · intro h' i
    simp only [bucket.owns, e5, e6, GoMap.lookup_store]
    by_cases e : h' = h
    · subst e
      simp [hmn, hc]
    · simp [e]
  · rw [entry_eq_none_iff hb]
    rintro i (h1 | ⟨idxs', h1, hi⟩)
    · rw [hmn] at h1; cases h1
    · rw [hc] at h1; cases h1; exact hk i hi

/-! ## Writes: reusing a free slot -/

/-- Path "check if free space exist": the hash is a key of neither index and the last
element `idx` of the free list is reused. -/
theorem set_free_spec {b : bucket} (hb : BInv b) {h idx : Nat} (k v : Bytes)
    (hm : GoMap.lookup h b.m = none) (hc : GoMap.lookup h b.col = none)
    (hf : b.free.getLast? = some idx) :
    let b' : bucket :=
      { b with
        size := u64 (b.size + u64 (v.length + k.length))
        kv := b.kv.set idx
          { key := writeBuf (slotAt b.kv idx).key k, val := writeBuf (slotAt b.kv idx).val v }
        free := b.free.dropLast
        m := GoMap.store h idx b.m }
    BInv b' ∧ (∀ h' k', b'.entry h' k' = if h' = h ∧ k' = k then some v else b.entry h' k') ∧
      b'.liveCount = b.liveCount + 1 ∧
      b'.liveBytes = b.liveBytes + (k.length + v.length) := by
  intro b'
  have hfree : b.free.dropLast ++ [idx] = b.free := List.dropLast_append_getLast? idx hf
  have hmemf : idx ∈ b.free := by rw [← hfree]; simp
  have hlt := hb.free_lt hmemf
  have hltlen : idx < b.kv.length := lt_of_lt_of_le hlt hb.off
  have hnd : (b.free.dropLast ++ [idx]).Nodup := by rw [hfree]; exact hb.free_nodup
  have hnotin : idx ∉ b.free.dropLast := by
    intro hin
    exact (List.disjoint_of_nodup_append hnd) hin (List.mem_singleton_self _)
  have hnotlive : ∀ h', ¬ b.owns h' idx := fun h' ho => hb.owns_not_free ho hmemf
  have hslot : ∀ i, i ≠ idx → slotAt b'.kv i = slotAt b.kv i :=
    fun i hi => slotAt_set_ne _ (Ne.symm hi)
  have hself : slotAt b'.kv idx =
      { key := writeBuf (slotAt b.kv idx).key k, val := writeBuf (slotAt b.kv idx).val v } :=
    slotAt_set_self _ hltlen
  have hkey : keyAt b'.kv idx = k := by simp [keyAt, hself, writeBuf_data]
  have hval : valAt b'.kv idx = v := by simp [valAt, hself, writeBuf_data]
  have hkeys : ∀ h' l, GoMap.lookup h' b.col = some l →
      l.map (keyAt b'.kv) = l.map (keyAt b.kv) := by
    intro h' l hl
    apply List.map_congr_left
    intro i hi
    exact keyAt_congr (hslot i (fun e => hnotlive h' (e ▸ Or.inr ⟨l, hl, hi⟩)))
  have howns : ∀ h' i, b'.owns h' i ↔ b.owns h' i ∨ (h' = h ∧ i = idx) := by
    intro h' i
    show (GoMap.lookup h' (GoMap.store h idx b.m) = some i ∨ _) ↔ _
    simp only [bucket.owns, GoMap.lookup_store]
    by_cases e : h' = h
    · subst e
      simp [hm, hc, eq_comm]
    · simp [e]
  have hinv : BInv b' :=
    { mKeys := GoMap.keys_store hb.mKeys
      colKeys := hb.colKeys
      disj := by
        intro h' hh'
        show GoMap.lookup h' (GoMap.store h idx b.m) = none
        rw [GoMap.lookup_store]
        by_cases e : h' = h
        · subst e; exact absurd hc hh'
        · rw [if_neg e]; exact hb.disj h' hh'
      perm := by
        refine List.Perm.trans ?_ hb.perm
        show List.Perm (((GoMap.store h idx b.m).map Prod.snd ++ b.col.flatMap Prod.snd) ++
          b.free.dropLast) ((b.m.map Prod.snd ++ b.col.flatMap Prod.snd) ++ b.free)
        rw [← hfree]
        simp only [GoMap.store, GoMap.delete_eq_self hm, List.map_cons]
        rw [List.perm_iff_count]
        intro a
        simp only [List.count_cons, List.count_append, List.count_nil, List.dropLast_concat]
        omega
      off := by
        show b.offset ≤ (b.kv.set idx _).length
        simpa using hb.off
      colLen := hb.colLen
      colKeysDistinct := by
        intro e he
        show (e.2.map (keyAt b'.kv)).Nodup
        rw [hkeys e.1 e.2 (GoMap.lookup_of_mem hb.colKeys he)]
        exact hb.colKeysDistinct e he
      freeEmpty := by
        intro i hi
        have hi' : i ∈ b.free.dropLast := hi
        have hne : i ≠ idx := fun e => hnotin (e ▸ hi')
        rw [keyAt_congr (hslot i hne), valAt_congr (hslot i hne)]
        exact hb.freeEmpty i (by rw [← hfree]; exact List.mem_append_left _ hi')
      latch := hb.latch
      size := by
        show u64 (b.size + u64 (v.length + k.length)) =
          ((List.range b.offset).map (slotLen b'.kv)).sum % 2 ^ 64
        have hupd := slab_update hlt hslot
        have h0 : slotLen b.kv idx = 0 := by
          obtain ⟨h1, h2⟩ := hb.freeEmpty idx hmemf
          simp [slotLen, h1, h2]
        have h1 : slotLen b'.kv idx = k.length + v.length := by simp [slotLen, hkey, hval]
        rw [h0, h1] at hupd
        have := @size_add b.size _ k.length v.length hb.size
        rw [this]
        congr 1
        omega }
  refine ⟨hinv, ?_, ?_, ?_⟩
  · exact entry_add hb hinv howns hnotlive hslot hkey hval (entry_none_of_lookup k hm hc)
  · have h1 := hinv.length_refs
    have h2 := hb.length_refs
    have h3 : b'.free.length + 1 = b.free.length := by
      show b.free.dropLast.length + 1 = b.free.length
      rw [← hfree]; simp
    have h4 : b'.offset = b.offset := rfl
    omega
  · rw [hinv.liveBytes_eq, hb.liveBytes_eq]
    have hupd : ((List.range b.offset).map (slotLen b'.kv)).sum + slotLen b.kv idx =
        ((List.range b.offset).map (slotLen b.kv)).sum + slotLen b'.kv idx :=
      slab_update hlt hslot
    have h0 : slotLen b.kv idx = 0 := by
      obtain ⟨h1, h2⟩ := hb.freeEmpty idx hmemf
      simp [slotLen, h1, h2]
    have h1 : slotLen b'.kv idx = k.length + v.length := by simp [slotLen, hkey, hval]
    rw [h0, h1] at hupd
    exact hupd

/-! ## The effect of `set` -/

theorem sameContents_refl (b : bucket) : b.sameContents b :=
  ⟨rfl, rfl, rfl, rfl, rfl, rfl⟩

theorem entry_ne_none_of_owns {b : bucket} (hb : BInv b) {h idx : Nat} (ho : b.owns h idx) :
    b.entry h (keyAt b.kv idx) ≠ none := by
  have := (entry_eq_some_iff hb).2 ⟨idx, ho, rfl, rfl⟩
  rw [this]; simp

/-- The postcondition of `set` on the paths that replace the value of an existing entry. -/
theorem SetPost.of_value {b : bucket} (hb : BInv b) {h idx : Nat} {k : Bytes}
    (ho : b.owns h idx) (hk : keyAt b.kv idx = k) (v : Bytes) :
    SetPost b (b.set_value idx (slotAt b.kv idx) v) h k v := by
  obtain ⟨hinv, hm, hc, hf, hoff, hcl, hg, hs, hmi, hkeys, hvals, hval⟩ :=
    set_value_spec hb ho v
  have hne : b.entry h k ≠ none := hk ▸ entry_ne_none_of_owns hb ho
  exact
    { inv := hinv
      entry := entry_val hb hinv (owns_congr hm hc) hkeys hvals hval ho hk
      count := by
        have h1 := hinv.length_refs
        have h2 := hb.length_refs
        rw [hf, hoff] at h1
        rw [if_neg hne]
        omega
      bytes := by
        have hfg : ∀ i, i ≠ idx → slotLen (b.set_value idx (slotAt b.kv idx) v).kv i =
            slotLen b.kv i := by
          intro i hi
          simp [slotLen, hkeys i, hvals i hi]
        have hupd := sum_map_update (List.range b.offset) hfg (List.nodup_range _)
          (List.mem_range.2 (hb.owns_lt ho))
        have he : b.entry h k = some (valAt b.kv idx) :=
          (entry_eq_some_iff hb).2 ⟨idx, ho, hk, rfl⟩
        rw [hinv.liveBytes_eq, hb.liveBytes_eq, hoff]
        simp only [bucket.entryBytes, he]
        have h1 : slotLen b.kv idx = k.length + (valAt b.kv idx).length := by
          simp [slotLen, hk]
        have h2 : slotLen (b.set_value idx (slotAt b.kv idx) v).kv idx =
            k.length + v.length := by
          simp [slotLen, hkeys idx, hk, hval]
        rw [h1, h2] at hupd
        exact hupd
      offset_le := by rw [hoff]; omega
      col_ge := by rw [hcl]
      col_le := by rw [hcl]; omega
      getCalls := hg
      setCalls := hs
      misses := hmi
      same := by
        intro he
        obtain ⟨i, hoi, hki, hvi⟩ := (entry_eq_some_iff hb).1 he
        have : i = idx := hb.slot_unique hoi ho (hki.trans hk.symm)
        subst this
        have hv : (slotAt b.kv i).val.data = v := hvi
        simp only [bucket.set_value, hv, if_true]
        exact sameContents_refl b }

/-- The postcondition of `set` on the paths that create a new entry. -/
theorem SetPost.of_new {b b' : bucket} {h : Nat} {k v : Bytes}
    (hnew : b.entry h k = none)
    (hspec : BInv b' ∧
      (∀ h' k', b'.entry h' k' = if h' = h ∧ k' = k then some v else b.entry h' k') ∧
      b'.liveCount = b.liveCount + 1 ∧
      b'.liveBytes = b.liveBytes + (k.length + v.length))
    (hoff : b'.offset ≤ b.offset + 1) (hc1 : b.collisions ≤ b'.collisions)
    (hc2 : b'.collisions ≤ b.collisions + 1) (hg : b'.getCalls = b.getCalls)
    (hs : b'.setCalls = b.setCalls) (hm : b'.misses = b.misses) : SetPost b b' h k v :=
  { inv := hspec.1
    entry := hspec.2.1
    count := by rw [if_pos hnew]; exact hspec.2.2.1
    bytes := by simp only [bucket.entryBytes, hnew]; exact hspec.2.2.2
    offset_le := hoff
    col_ge := hc1
    col_le := hc2
    getCalls := hg
    setCalls := hs
    misses := hm
    same := by intro he; rw [hnew] at he; cases he }

theorem set_add_counters (b : bucket) (k v : Bytes) (hw : b.offset + 1 < 2 ^ 64) :
    (b.set_add k v).offset = b.offset + 1 ∧ (b.set_add k v).collisions = b.collisions ∧
      (b.set_add k v).getCalls = b.getCalls ∧ (b.set_add k v).setCalls = b.setCalls ∧
      (b.set_add k v).misses = b.misses :=
  ⟨by simp only [bucket.set_add]; exact u64_of_lt hw, rfl, rfl, rfl, rfl⟩

/-- The part of `set` from label `mcheck` on, when `h` is not a key of the CollisionIndex. -/
theorem set_mcheck_spec {b : bucket} (hb : BInv b) (hw : b.offset + 1 < 2 ^ 64)
    (hcw : b.collisions + 1 < 2 ^ 64) (k v : Bytes) {h : Nat}
    (hc : GoMap.lookup h b.col = none) :
    ∃ b', b.set_mcheck k v h = some b' ∧ SetPost b b' h k v := by
  cases hm : GoMap.lookup h b.m with
  | some idx =>
    have ho : b.owns h idx := Or.inl hm
    have hget := hb.getElem?_of_owns ho
    by_cases hk : (slotAt b.kv idx).key.data = k
    · refine ⟨b.set_value idx (slotAt b.kv idx) v, ?_, SetPost.of_value hb ho hk v⟩
      simp [bucket.set_mcheck, hm, hget, hk]
    · let b0 : bucket :=
        { b with
          collisions := u64 (b.collisions + 1)
          col := GoMap.store h [idx, b.offset] b.col
          m := GoMap.delete h b.m }
      have hcnt := set_add_counters b0 k v hw
      refine ⟨b0.set_add k v, ?_, ?_⟩
      · simp [bucket.set_mcheck, hm, hget, hk, b0]
      · have hnew : b.entry h k = none := by
          rw [entry_eq_none_iff hb]
          rintro i (h1 | ⟨idxs, h1, _⟩)
          · rw [hm] at h1; cases h1; exact hk
          · rw [hc] at h1; cases h1
        apply SetPost.of_new hnew
          (set_first_collision_spec b0 hb hw v hm hc hk rfl rfl rfl rfl rfl rfl
            (u64_succ_ne_zero hcw))
        · rw [hcnt.1]
        · rw [hcnt.2.1]; show b.collisions ≤ u64 (b.collisions + 1)
          rw [u64_of_lt hcw]; omega
        · rw [hcnt.2.1]; show u64 (b.collisions + 1) ≤ b.collisions + 1
          rw [u64_of_lt hcw]
        · exact hcnt.2.2.1
        · exact hcnt.2.2.2.1
        · exact hcnt.2.2.2.2
  | none =>
    have hnew : b.entry h k = none := entry_none_of_lookup k hm hc
    cases hfl : b.free.getLast? with
    | some idx =>
      have hfree : b.free.dropLast ++ [idx] = b.free := List.dropLast_append_getLast? idx hfl
      have hmemf : idx ∈ b.free := by rw [← hfree]; simp
      have hget := getElem?_eq_slotAt (lt_of_lt_of_le (hb.free_lt hmemf) hb.off)
      refine ⟨_, ?_, SetPost.of_new hnew (set_free_spec hb k v hm hc hfl) ?_ ?_ ?_ ?_ ?_ ?_⟩
      · simp [bucket.set_mcheck, hm, hfl, hget]
      · show b.offset ≤ b.offset + 1; omega
      · exact le_refl _
      · show b.collisions ≤ b.collisions + 1; omega
      · rfl
      · rfl
      · rfl
    | none =>
      have hcnt := set_add_counters { b with m := GoMap.store h b.offset b.m } k v hw
      refine ⟨_, ?_, SetPost.of_new hnew (set_new_spec hb hw k v hm hc) ?_ ?_ ?_ ?_ ?_ ?_⟩
      · simp [bucket.set_mcheck, hm, hfl]
      · rw [hcnt.1]
      · rw [hcnt.2.1]
      · rw [hcnt.2.1]; show b.collisions ≤ b.collisions + 1; omega
      · exact hcnt.2.2.1
      · exact hcnt.2.2.2.1
      · exact hcnt.2.2.2.2

/-- Incrementing the set-call counter and the collision counter keeps the invariant. -/
theorem BInv.bump {b : bucket} (hb : BInv b) (hcw : b.collisions + 1 < 2 ^ 64) (s g m : Nat) :
    BInv { b with setCalls := s, getCalls := g, misses := m,
                  collisions := u64 (b.collisions + 1) } :=
  hb.sameContents ⟨rfl, rfl, rfl, rfl, rfl, rfl⟩ (fun _ => u64_succ_ne_zero hcw)

theorem BInv.setCalls {b : bucket} (hb : BInv b) (s : Nat) : BInv { b with setCalls := s } :=
  hb.sameContents ⟨rfl, rfl, rfl, rfl, rfl, rfl⟩ hb.latch

/-- The postcondition carried over a change of counters before the write. -/
theorem SetPost.of_counters {b b1 b' : bucket} {h : Nat} {k v : Bytes}
    (hp : SetPost b1 b' h k v) (hs : b.sameContents b1)
    (hc1 : b.collisions ≤ b1.collisions) (hc2 : b'.collisions ≤ b.collisions + 1)
    (hg : b1.getCalls = b.getCalls) (hsc : b1.setCalls = b.setCalls)
    (hm : b1.misses = b.misses) : SetPost b b' h k v := by
  have he : ∀ h' k', b1.entry h' k' = b.entry h' k' := entry_sameContents hs
  have hl : b1.liveCount = b.liveCount := by
    obtain ⟨h1, h2, _⟩ := hs
    simp [bucket.liveCount, bucket.liveRefs, h1, h2]
  have hlb : b1.liveBytes = b.liveBytes := by
    obtain ⟨h1, h2, h3, _⟩ := hs
    simp [bucket.liveBytes, bucket.liveRefs, h1, h2, h3]
  have heb : b1.entryBytes h k = b.entryBytes h k := by
    simp [bucket.entryBytes, he]
  exact
    { inv := hp.inv
      entry := by intro h' k'; rw [hp.entry, he]
      count := by rw [hp.count, he, hl]
      bytes := by rw [← hlb, ← heb]; exact hp.bytes
      offset_le := by rw [← hs.2.2.2.2.1]; exact hp.offset_le
      col_ge := le_trans hc1 hp.col_ge
      col_le := hc2
      getCalls := hp.getCalls.trans hg
      setCalls := hp.setCalls.trans hsc
      misses := hp.misses.trans hm
      same := by
        intro hv
        rw [← he] at hv
        obtain ⟨a1, a2, a3, a4, a5, a6⟩ := hp.same hv
        obtain ⟨c1, c2, c3, c4, c5, c6⟩ := hs
        exact ⟨a1.trans c1, a2.trans c2, a3.trans c3, a4.trans c4, a5.trans c5, a6.trans c6⟩ }

/-- The effect of `bucket.set` on a bucket that satisfies the invariant, as long as neither
the cursor nor the collision counter wraps: it does not panic, and afterwards the entry of
`(h, k)` is `v` and every other entry is as before. -/
theorem set_spec {b : bucket} (hb : BInv b) (hw : b.offset + 1 < 2 ^ 64)
    (hcw : b.collisions + 1 < 2 ^ 64) (k v : Bytes) (h : Nat) :
    ∃ b', b.set k v h = some b' ∧
      SetPost { b with setCalls := u64 (b.setCalls + 1) } b' h k v := by
  have hb1 : BInv { b with setCalls := u64 (b.setCalls + 1) } := hb.setCalls _
  unfold bucket.set
  dsimp only
  by_cases hc0 : b.collisions = 0
  · rw [if_neg (not_not.2 hc0)]
    exact set_mcheck_spec hb1 hw hcw k v (hb.lookup_col_none hc0 h)
  · rw [if_pos hc0]
    cases hcol : GoMap.lookup h b.col with
    | none =>
      dsimp only
      exact set_mcheck_spec hb1 hw hcw k v hcol
    | some idxs =>
      dsimp only
      have hb2 := hb.bump hcw (u64 (b.setCalls + 1)) b.getCalls b.misses
      have hc2 : u64 (b.collisions + 1) = b.collisions + 1 := u64_of_lt hcw
      obtain ⟨r, hr, hfind, hnone, hsome⟩ := scan_spec b.kv k idxs
        (fun i hi => hb.owns_lt_length (Or.inr ⟨idxs, hcol, hi⟩)) 0
      rw [hr]
      cases r with
      | some x =>
        obtain ⟨p, idx, s⟩ := x
        obtain ⟨_, hp, hs, hk, _⟩ := hsome p idx s rfl
        have hs' : s = slotAt b.kv idx := (slotAt_of_getElem? hs).symm
        subst hs'
        have ho := (show bucket.owns _ h idx from Or.inr ⟨idxs, hcol, List.getElem?_mem hp⟩)
        refine ⟨_, rfl, ?_⟩
        have hpost := SetPost.of_value hb2 ho hk v
        have hcl := (set_value_spec hb2 ho v).2.2.2.2.2.1
        refine hpost.of_counters ⟨rfl, rfl, rfl, rfl, rfl, rfl⟩ ?_ ?_ rfl rfl rfl
        · show b.collisions ≤ u64 (b.collisions + 1)
          rw [hc2]; omega
        · rw [hcl]
          show u64 (b.collisions + 1) ≤ b.collisions + 1
          rw [hc2]
      | none =>
        have hk := hnone rfl
        let b0 : bucket :=
          { b with
            setCalls := u64 (b.setCalls + 1)
            collisions := u64 (b.collisions + 1)
            col := GoMap.store h (idxs ++ [b.offset]) b.col }
        have hcnt := set_add_counters b0 k v hw
        refine ⟨b0.set_add k v, rfl, ?_⟩
        have hnew : bucket.entry { b with setCalls := u64 (b.setCalls + 1) } h k = none := by
          rw [entry_eq_none_iff hb1]
          rintro i (h1 | ⟨idxs', h1, hi⟩)
          · have h2 : GoMap.lookup h b.m = none := hb.disj h (lookup_ne_none_of_eq hcol)
            have h1' : GoMap.lookup h b.m = some i := h1
            rw [h2] at h1'; cases h1'
          · have h1' : GoMap.lookup h b.col = some idxs' := h1
            rw [hcol] at h1'; cases h1'; exact hk i hi
        apply SetPost.of_new hnew
          (set_col_append_spec b0 hb1 hw v hcol hk rfl rfl rfl rfl rfl rfl
            (by show u64 (b.collisions + 1) ≠ 0; exact u64_succ_ne_zero hcw))
        · rw [hcnt.1]
        · rw [hcnt.2.1]; show b.collisions ≤ u64 (b.collisions + 1)
          rw [hc2]; omega
        · rw [hcnt.2.1]; show u64 (b.collisions + 1) ≤ b.collisions + 1
          rw [hc2]
        · exact hcnt.2.2.1
        · exact hcnt.2.2.2.1
        · exact hcnt.2.2.2.2

/-! ## Deletes -/

theorem perm_set_cons (l : List Nat) (p x y : Nat) (hy : l[p]? = some y) :
    List.Perm (x :: l) (y :: l.set p x) := by
  induction l generalizing p with
  | nil => simp at hy
  | cons a l ih =>
    cases p with
    | zero =>
      simp at hy
      subst hy
      exact List.Perm.swap _ _ _
    | succ p =>
      simp at hy
      simp only [List.set_cons_succ]
      exact (List.Perm.swap a x l).trans (((ih p hy).cons a).trans (List.Perm.swap y a _))

/-- The removal `idxs[pos] = idxs[len(idxs)-1]; idxs = idxs[:len(idxs)-1]` of `del` removes
exactly the element at `pos`. -/
theorem swap_remove_perm {idxs : List Nat} {pos idx last : Nat} (hp : idxs[pos]? = some idx)
    (hl : idxs.getLast? = some last) :
    List.Perm idxs (idx :: (idxs.set pos last).dropLast) := by
  have hfr : idxs.dropLast ++ [last] = idxs := List.dropLast_append_getLast? last hl
  generalize idxs.dropLast = fr at hfr
  subst hfr
  by_cases hlt : pos < fr.length
  · rw [List.getElem?_append_left hlt] at hp
    rw [List.set_append_left _ _ hlt, List.dropLast_concat]
    exact (List.perm_append_singleton last fr).trans (perm_set_cons fr pos last idx hp)
  · have hge : fr.length ≤ pos := Nat.le_of_not_lt hlt
    rw [List.getElem?_append_right hge] at hp
    have hpos : pos - fr.length = 0 := by
      by_contra hne
      have : 1 ≤ pos - fr.length := Nat.one_le_iff_ne_zero.2 hne
      rw [List.getElem?_eq_none_iff.2 (by simpa using this)] at hp
      cases hp
    rw [hpos] at hp
    simp at hp
    subst hp
    rw [List.set_append_right _ _ hge, hpos]
    simp only [List.set_cons_zero, List.dropLast_concat]
    exact List.perm_append_singleton last fr

theorem clearBuf_data (buf : Buf) : (clearBuf buf).data = [] := rfl

/-- The invariant after slot `idx` has been vacated, pushed on the free list and unlinked
from the index. -/
theorem BInv.of_del {b b' : bucket} (hb : BInv b) {h idx : Nat} (ho : b.owns h idx)
    (hkv : b'.kv = b.kv.set idx
      { key := clearBuf (slotAt b.kv idx).key, val := clearBuf (slotAt b.kv idx).val })
    (hoff : b'.offset = b.offset)
    (hfree : b'.free = b.free ++ [idx])
    (hsize : b'.size = u64 (b.size +
      neg64 ((slotAt b.kv idx).key.data.length + (slotAt b.kv idx).val.data.length)))
    (hmk : (b'.m.map Prod.fst).Nodup) (hck : (b'.col.map Prod.fst).Nodup)
    (hdisj : ∀ h, GoMap.lookup h b'.col ≠ none → GoMap.lookup h b'.m = none)
    (hperm : List.Perm (idx :: b'.liveRefs) b.liveRefs)
    (hcl : ∀ e ∈ b'.col, 2 ≤ e.2.length)
    (hdist : ∀ e ∈ b'.col, (e.2.map (keyAt b.kv)).Nodup)
    (hlatch : b'.col ≠ [] → b'.collisions ≠ 0) :
    BInv b' ∧ (∀ i, i ≠ idx → slotAt b'.kv i = slotAt b.kv i) ∧
      b'.liveCount + 1 = b.liveCount ∧ b'.liveBytes + slotLen b.kv idx = b.liveBytes := by
  have hlt := hb.owns_lt ho
  have hltlen := hb.owns_lt_length ho
  have hslot : ∀ i, i ≠ idx → slotAt b'.kv i = slotAt b.kv i := by
    intro i hi
    rw [hkv]
    exact slotAt_set_ne _ (Ne.symm hi)
  have hself : slotAt b'.kv idx =
      { key := clearBuf (slotAt b.kv idx).key, val := clearBuf (slotAt b.kv idx).val } := by
    rw [hkv]
    exact slotAt_set_self _ hltlen
  have hnd : (idx :: b'.liveRefs).Nodup := hperm.nodup_iff.2 hb.live_nodup
  have hnotin : idx ∉ b'.liveRefs := (List.nodup_cons.1 hnd).1
  have hsub : ∀ i, i ∈ b'.liveRefs → i ∈ b.liveRefs :=
    fun i hi => hperm.subset (List.mem_cons_of_mem _ hi)
  have hinv : BInv b' :=
    { mKeys := hmk
      colKeys := hck
      disj := hdisj
      perm := by
        rw [hoff]
        refine List.Perm.trans ?_ hb.perm
        unfold bucket.refs
        rw [hfree]
        have h1 : List.Perm (b'.liveRefs ++ (b.free ++ [idx])) ((idx :: b'.liveRefs) ++ b.free) := by
          rw [List.perm_iff_count]
          intro a
          simp only [List.count_cons, List.count_append, List.count_nil]
          omega
        exact h1.trans (hperm.append_right b.free)
      off := by rw [hoff, hkv]; simpa using hb.off
      colLen := hcl
      colKeysDistinct := by
        intro e he
        have : e.2.map (keyAt b'.kv) = e.2.map (keyAt b.kv) := by
          apply List.map_congr_left
          intro i hi
          have hlive : i ∈ b'.liveRefs :=
            List.mem_append_right _ (List.mem_flatMap.2 ⟨e, he, hi⟩)
          exact keyAt_congr (hslot i (fun e => hnotin (e ▸ hlive)))
        rw [this]
        exact hdist e he
      freeEmpty := by
        rw [hfree]
        intro i hi
        rcases List.mem_append.1 hi with hi | hi
        · have hne : i ≠ idx := fun e => hb.owns_not_free ho (e ▸ hi)
          rw [keyAt_congr (hslot i hne), valAt_congr (hslot i hne)]
          exact hb.freeEmpty i hi
        · rw [List.mem_singleton.1 hi]
          simp [keyAt, valAt, hself, clearBuf_data]
      latch := hlatch
      size := by
        rw [hsize, hoff]
        have hupd := slab_update hlt hslot
        have h1 : slotLen b'.kv idx = 0 := by simp [slotLen, keyAt, valAt, hself, clearBuf_data]
        rw [h1] at hupd
        exact size_del hb.size (by simpa [slotLen, keyAt, valAt] using hupd) }
  refine ⟨hinv, hslot, ?_, ?_⟩
  · have := hperm.length_eq
    simpa [bucket.liveCount] using this
  · rw [hinv.liveBytes_eq, hb.liveBytes_eq, hoff]
    have hupd := slab_update hlt hslot
    have h1 : slotLen b'.kv idx = 0 := by simp [slotLen, keyAt, valAt, hself, clearBuf_data]
    rw [h1] at hupd
    exact hupd

/-- The postcondition of `del` on the paths that remove an entry. -/
theorem DelPost.of_unlink {b b' : bucket} (hb : BInv b) {h idx : Nat} {k : Bytes}
    (ho : b.owns h idx) (hk : keyAt b.kv idx = k)
    (hkv : b'.kv = b.kv.set idx
      { key := clearBuf (slotAt b.kv idx).key, val := clearBuf (slotAt b.kv idx).val })
    (hoff : b'.offset = b.offset)
    (hfree : b'.free = b.free ++ [idx])
    (hsize : b'.size = u64 (b.size +
      neg64 ((slotAt b.kv idx).key.data.length + (slotAt b.kv idx).val.data.length)))
    (hmk : (b'.m.map Prod.fst).Nodup) (hck : (b'.col.map Prod.fst).Nodup)
    (hdisj : ∀ h, GoMap.lookup h b'.col ≠ none → GoMap.lookup h b'.m = none)
    (hperm : List.Perm (idx :: b'.liveRefs) b.liveRefs)
    (hcl : ∀ e ∈ b'.col, 2 ≤ e.2.length)
    (hdist : ∀ e ∈ b'.col, (e.2.map (keyAt b.kv)).Nodup)
    (hlatch : b'.col ≠ [] → b'.collisions ≠ 0)
    (howns : ∀ h' i, b'.owns h' i ↔ b.owns h' i ∧ i ≠ idx)
    (hc : b'.collisions = b.collisions) (hg : b'.getCalls = b.getCalls)
    (hs : b'.setCalls = b.setCalls) : DelPost b b' h k := by
  obtain ⟨hinv, hslot, hcount, hbytes⟩ :=
    hb.of_del ho hkv hoff hfree hsize hmk hck hdisj hperm hcl hdist hlatch
  have hne : b.entry h k ≠ none := hk ▸ entry_ne_none_of_owns hb ho
  have he : b.entry h k = some (valAt b.kv idx) :=
    (entry_eq_some_iff hb).2 ⟨idx, ho, hk, rfl⟩
  exact
    { inv := hinv
      entry := entry_del hb hinv howns hslot ho hk
      count := by rw [if_neg hne]; exact hcount
      bytes := by
        simp only [bucket.entryBytes, he]
        have h1 : slotLen b.kv idx = k.length + (valAt b.kv idx).length := by
          simp [slotLen, hk]
        rw [← h1]; exact hbytes
      offset := hoff
      col_ge := by rw [hc]
      col_le := by rw [hc]; omega
      getCalls := hg
      setCalls := hs
      same := fun he => absurd he hne }

/-- Path of `del` through the PrimaryIndex with a matching key. -/
theorem del_primary_spec {b : bucket} (hb : BInv b) {h idx : Nat} {k : Bytes}
    (hm : GoMap.lookup h b.m = some idx) (hc : GoMap.lookup h b.col = none)
    (hk : keyAt b.kv idx = k) :
    DelPost b { b.del_slot idx (slotAt b.kv idx) with m := GoMap.delete h b.m } h k := by
  have ho : b.owns h idx := Or.inl hm
  refine DelPost.of_unlink hb ho hk rfl rfl rfl rfl (GoMap.keys_delete hb.mKeys) hb.colKeys
    ?_ ?_ ?_ ?_ ?_ ?_ rfl rfl rfl
  · intro h' hh'
    show GoMap.lookup h' (GoMap.delete h b.m) = none
    rw [GoMap.lookup_delete]
    by_cases e : h' = h
    · rw [if_pos e]
    · rw [if_neg e]; exact hb.disj h' hh'
  · show List.Perm (idx :: ((GoMap.delete h b.m).map Prod.snd ++ b.col.flatMap Prod.snd))
      (b.m.map Prod.snd ++ b.col.flatMap Prod.snd)
    have hp := (GoMap.perm_delete hb.mKeys hm).map Prod.snd
    rw [List.perm_iff_count] at hp ⊢
    intro a
    have := hp a
    simp only [List.map_cons, List.count_cons, List.count_append] at this ⊢
    omega
  · exact hb.colLen
  · exact hb.colKeysDistinct
  · exact hb.latch
  · intro h' i
    show (GoMap.lookup h' (GoMap.delete h b.m) = some i ∨ _) ↔ _
    rw [GoMap.lookup_delete]
    by_cases e : h' = h
    · subst e
      rw [if_pos rfl]
      constructor
      · rintro (h1 | ⟨l, h1, _⟩)
        · cases h1
        · have h1' : GoMap.lookup h' b.col = some l := h1
          rw [hc] at h1'; cases h1'
      · rintro ⟨hoi, hne⟩
        rcases hoi with h1 | ⟨l, h1, _⟩
        · rw [hm] at h1
          exact absurd (Option.some.inj h1).symm hne
        · rw [hc] at h1; cases h1
    · rw [if_neg e]
      constructor
      · intro hoi
        refine ⟨hoi, ?_⟩
        rintro rfl
        exact e (hb.owner_unique hoi ho)
      · exact fun hoi => hoi.1

theorem nodup_of_colKeys {b : bucket} (hb : BInv b) {h : Nat} {idxs : List Nat}
    (hc : GoMap.lookup h b.col = some idxs) : idxs.Nodup :=
  List.Nodup.of_map _ (hb.colKeysDistinct _ (GoMap.mem_of_lookup hc))

/-- Path of `del` through the CollisionIndex when at least two slots remain. -/
theorem del_col_many_spec {b : bucket} (hb : BInv b) {h idx : Nat} {k : Bytes}
    {idxs rest : List Nat} (hc : GoMap.lookup h b.col = some idxs)
    (hperm : List.Perm idxs (idx :: rest)) (hk : keyAt b.kv idx = k)
    (hlen : 2 ≤ rest.length) (hne0 : b.collisions ≠ 0) :
    DelPost b { b.del_slot idx (slotAt b.kv idx) with col := GoMap.store h rest b.col } h k := by
  have hidx : idx ∈ idxs := hperm.mem_iff.2 (List.mem_cons_self _ _)
  have ho : b.owns h idx := Or.inr ⟨idxs, hc, hidx⟩
  have hmn : GoMap.lookup h b.m = none := hb.disj h (lookup_ne_none_of_eq hc)
  have hnd : (idx :: rest).Nodup := hperm.nodup_iff.1 (nodup_of_colKeys hb hc)
  refine DelPost.of_unlink hb ho hk rfl rfl rfl rfl hb.mKeys (GoMap.keys_store hb.colKeys)
    ?_ ?_ ?_ ?_ ?_ ?_ rfl rfl rfl
  · intro h' hh'
    have hh2 : GoMap.lookup h' (GoMap.store h rest b.col) ≠ none := hh'
    show GoMap.lookup h' b.m = none
    rw [GoMap.lookup_store] at hh2
    by_cases e : h' = h
    · rw [e]; exact hmn
    · rw [if_neg e] at hh2; exact hb.disj h' hh2
  · show List.Perm (idx :: (b.m.map Prod.snd ++ (GoMap.store h rest b.col).flatMap Prod.snd))
      (b.m.map Prod.snd ++ b.col.flatMap Prod.snd)
    have hp := (GoMap.perm_delete hb.colKeys hc).flatMap_right Prod.snd
    simp only [GoMap.store, List.flatMap_cons]
    rw [List.perm_iff_count] at hp hperm ⊢
    intro a
    have h1 := hp a
    have h2 := hperm a
    simp only [List.flatMap_cons, List.count_cons, List.count_append] at h1 h2 ⊢
    omega
  · intro e he
    have he2 : e ∈ GoMap.store h rest b.col := he
    rw [mem_store_iff] at he2
    rcases he2 with rfl | ⟨he2, _⟩
    · exact hlen
    · exact hb.colLen e he2
  · intro e he
    have he2 : e ∈ GoMap.store h rest b.col := he
    rw [mem_store_iff] at he2
    rcases he2 with rfl | ⟨he2, _⟩
    · have h1 := (hperm.map (keyAt b.kv)).nodup_iff.1
        (hb.colKeysDistinct _ (GoMap.mem_of_lookup hc))
      exact (List.nodup_cons.1 h1).2
    · exact hb.colKeysDistinct e he2
  · intro _; exact hne0
  · intro h' i
    show (GoMap.lookup h' b.m = some i ∨
      ∃ l, GoMap.lookup h' (GoMap.store h rest b.col) = some l ∧ i ∈ l) ↔ _
    rw [GoMap.lookup_store]
    by_cases e : h' = h
    · subst e
      rw [if_pos rfl]
      constructor
      · rintro (h1 | ⟨l, h1, hi⟩)
        · rw [hmn] at h1; cases h1
        · cases h1
          exact ⟨Or.inr ⟨idxs, hc, hperm.mem_iff.2 (List.mem_cons_of_mem _ hi)⟩,
            fun e => (List.nodup_cons.1 hnd).1 (e ▸ hi)⟩
      · rintro ⟨hoi, hne⟩
        rcases hoi with h1 | ⟨l, h1, hi⟩
        · rw [hmn] at h1; cases h1
        · rw [hc] at h1
          cases h1
          rcases List.mem_cons.1 (hperm.mem_iff.1 hi) with e | hi'
          · exact absurd e hne
          · exact Or.inr ⟨rest, rfl, hi'⟩
    · rw [if_neg e]
      constructor
      · intro hoi
        refine ⟨hoi, ?_⟩
        rintro rfl
        exact e (hb.owner_unique hoi ho)
      · exact fun hoi => hoi.1

/-- Path of `del` through the CollisionIndex when a single slot remains: the hash moves
back to the PrimaryIndex. -/
theorem del_col_last_spec {b : bucket} (hb : BInv b) {h idx i : Nat} {k : Bytes}
    {idxs : List Nat} (hc : GoMap.lookup h b.col = some idxs)
    (hperm : List.Perm idxs [idx, i]) (hk : keyAt b.kv idx = k) (hne0 : b.collisions ≠ 0) :
    DelPost b { b.del_slot idx (slotAt b.kv idx) with
      m := GoMap.store h i b.m, col := GoMap.delete h b.col } h k := by
  have hidx : idx ∈ idxs := hperm.mem_iff.2 (List.mem_cons_self _ _)
  have ho : b.owns h idx := Or.inr ⟨idxs, hc, hidx⟩
  have hmn : GoMap.lookup h b.m = none := hb.disj h (lookup_ne_none_of_eq hc)
  have hnd : [idx, i].Nodup := hperm.nodup_iff.1 (nodup_of_colKeys hb hc)
  have hii : i ≠ idx := by
    intro e
    rw [e] at hnd
    simp at hnd
  refine DelPost.of_unlink hb ho hk rfl rfl rfl rfl (GoMap.keys_store hb.mKeys)
    (GoMap.keys_delete hb.colKeys) ?_ ?_ ?_ ?_ ?_ ?_ rfl rfl rfl
  · intro h' hh'
    have hh2 : GoMap.lookup h' (GoMap.delete h b.col) ≠ none := hh'
    show GoMap.lookup h' (GoMap.store h i b.m) = none
    rw [GoMap.lookup_delete] at hh2
    rw [GoMap.lookup_store]
    by_cases e : h' = h
    · rw [if_pos e] at hh2; exact absurd rfl hh2
    · rw [if_neg e] at hh2 ⊢; exact hb.disj h' hh2
  · show List.Perm (idx :: ((GoMap.store h i b.m).map Prod.snd ++
      (GoMap.delete h b.col).flatMap Prod.snd)) (b.m.map Prod.snd ++ b.col.flatMap Prod.snd)
    have hp := (GoMap.perm_delete hb.colKeys hc).flatMap_right Prod.snd
    simp only [GoMap.store, GoMap.delete_eq_self hmn, List.map_cons]
    rw [List.perm_iff_count] at hp hperm ⊢
    intro a
    have h1 := hp a
    have h2 := hperm a
    simp only [List.flatMap_cons, List.count_cons, List.count_append, List.count_nil] at h1 h2 ⊢
    omega
  · intro e he
    exact hb.colLen e (GoMap.mem_delete.1 he).1
  · intro e he
    exact hb.colKeysDistinct e (GoMap.mem_delete.1 he).1
  · intro _; exact hne0
  · intro h' j
    show (GoMap.lookup h' (GoMap.store h i b.m) = some j ∨
      ∃ l, GoMap.lookup h' (GoMap.delete h b.col) = some l ∧ j ∈ l) ↔ _
    rw [GoMap.lookup_store, GoMap.lookup_delete]
    by_cases e : h' = h
    · subst e
      rw [if_pos rfl, if_pos rfl]
      constructor
      · rintro (h1 | ⟨l, h1, _⟩)
        · cases h1
          exact ⟨Or.inr ⟨idxs, hc, hperm.mem_iff.2 (by simp)⟩, hii⟩
        · cases h1
      · rintro ⟨hoj, hne⟩
        rcases hoj with h1 | ⟨l, h1, hj⟩
        · rw [hmn] at h1; cases h1
        · rw [hc] at h1
          cases h1
          have hj2 := hperm.mem_iff.1 hj
          simp only [List.mem_cons, List.mem_singleton, List.not_mem_nil, or_false] at hj2
          rcases hj2 with e | e
          · exact absurd e hne
          · exact Or.inl (by rw [e])
    · rw [if_neg e, if_neg e]
      constructor
      · intro hoi
        refine ⟨hoi, ?_⟩
        rintro rfl
        exact e (hb.owner_unique hoi ho)
      · exact fun hoi => hoi.1

/-- The postcondition of `del` on the paths that find no entry. -/
theorem DelPost.of_absent {b b' : bucket} (hb : BInv b) {h : Nat} {k : Bytes}
    (hne : b.entry h k = none) (hs : b.sameContents b')
    (hl : b'.col ≠ [] → b'.collisions ≠ 0)
    (hc1 : b.collisions ≤ b'.collisions) (hc2 : b'.collisions ≤ b.collisions + 1)
    (hg : b'.getCalls = b.getCalls) (hsc : b'.setCalls = b.setCalls) : DelPost b b' h k :=
  { inv := hb.sameContents hs hl
    entry := by
      intro h' k'
      rw [entry_sameContents hs]
      by_cases hc : h' = h ∧ k' = k
      · rw [if_pos hc, hc.1, hc.2, hne]
      · rw [if_neg hc]
    count := by
      obtain ⟨h1, h2, _⟩ := hs
      simp [bucket.liveCount, bucket.liveRefs, h1, h2, hne]
    bytes := by
      obtain ⟨h1, h2, h3, _⟩ := hs
      simp [bucket.liveBytes, bucket.entryBytes, bucket.liveRefs, h1, h2, h3, hne]
    offset := hs.2.2.2.2.1
    col_ge := hc1
    col_le := hc2
    getCalls := hg
    setCalls := hsc
    same := fun _ => hs }

/-- The postcondition carried over a change of counters before the delete. -/
theorem DelPost.of_counters_before {b b1 b' : bucket} {h : Nat} {k : Bytes}
    (hp : DelPost b1 b' h k) (hs : b.sameContents b1)
    (hc1 : b.collisions ≤ b1.collisions) (hc2 : b'.collisions ≤ b.collisions + 1)
    (hg : b1.getCalls = b.getCalls) (hsc : b1.setCalls = b.setCalls) : DelPost b b' h k := by
  have he : ∀ h' k', b1.entry h' k' = b.entry h' k' := entry_sameContents hs
  have hl : b1.liveCount = b.liveCount := by
    obtain ⟨h1, h2, _⟩ := hs
    simp [bucket.liveCount, bucket.liveRefs, h1, h2]
  have hlb : b1.liveBytes = b.liveBytes := by
    obtain ⟨h1, h2, h3, _⟩ := hs
    simp [bucket.liveBytes, bucket.liveRefs, h1, h2, h3]
  have heb : b1.entryBytes h k = b.entryBytes h k := by
    simp [bucket.entryBytes, he]
  exact
    { inv := hp.inv
      entry := by intro h' k'; rw [hp.entry, he]
      count := by rw [← hl, ← he]; exact hp.count
      bytes := by rw [← hlb, ← heb]; exact hp.bytes
      offset := hp.offset.trans hs.2.2.2.2.1
      col_ge := le_trans hc1 hp.col_ge
      col_le := hc2
      getCalls := hp.getCalls.trans hg
      setCalls := hp.setCalls.trans hsc
      same := by
        intro hv
        rw [← he] at hv
        obtain ⟨a1, a2, a3, a4, a5, a6⟩ := hp.same hv
        obtain ⟨c1, c2, c3, c4, c5, c6⟩ := hs
        exact ⟨a1.trans c1, a2.trans c2, a3.trans c3, a4.trans c4, a5.trans c5, a6.trans c6⟩ }

/-- The part of `del` from label `mcheck` on, when `h` is not a key of the CollisionIndex. -/
theorem del_mcheck_spec {b : bucket} (hb : BInv b) (hcw : b.collisions + 1 < 2 ^ 64)
    (k : Bytes) {h : Nat} (hc : GoMap.lookup h b.col = none) :
    ∃ b', b.del_mcheck k h = some b' ∧ DelPost b b' h k := by
  cases hm : GoMap.lookup h b.m with
  | none =>
    refine ⟨b, by simp [bucket.del_mcheck, hm], ?_⟩
    exact DelPost.of_absent hb (entry_none_of_lookup k hm hc) (sameContents_refl b) hb.latch
      (le_refl _) (Nat.le_succ _) rfl rfl
  | some idx =>
    have ho : b.owns h idx := Or.inl hm
    have hget := hb.getElem?_of_owns ho
    by_cases hk : (slotAt b.kv idx).key.data = k
    · refine ⟨_, ?_, del_primary_spec hb hm hc hk⟩
      simp [bucket.del_mcheck, hm, hget, hk]
    · refine ⟨{ b with collisions := u64 (b.collisions + 1) }, ?_, ?_⟩
      · simp [bucket.del_mcheck, hm, hget, hk]
      · have hnew : b.entry h k = none := by
          rw [entry_eq_none_iff hb]
          rintro i (h1 | ⟨idxs, h1, _⟩)
          · rw [hm] at h1; cases h1; exact hk
          · rw [hc] at h1; cases h1
        have hc2 : u64 (b.collisions + 1) = b.collisions + 1 := u64_of_lt hcw
        refine DelPost.of_absent hb hnew ⟨rfl, rfl, rfl, rfl, rfl, rfl⟩
          (fun _ => u64_succ_ne_zero hcw) ?_ ?_ rfl rfl
        · show b.collisions ≤ u64 (b.collisions + 1)
          rw [hc2]; omega
        · show u64 (b.collisions + 1) ≤ b.collisions + 1
          rw [hc2]

/-- The effect of `bucket.del` on a bucket that satisfies the invariant, as long as the
collision counter does not wrap: it does not panic, and afterwards the entry of `(h, k)` is
gone and every other entry is as before. -/
theorem del_spec {b : bucket} (hb : BInv b) (hcw : b.collisions + 1 < 2 ^ 64)
    (k : Bytes) (h : Nat) : ∃ b', b.del k h = some b' ∧ DelPost b b' h k := by
  unfold bucket.del
  by_cases hc0 : b.collisions = 0
  · rw [if_neg (not_not.2 hc0)]
    exact del_mcheck_spec hb hcw k (hb.lookup_col_none hc0 h)
  · rw [if_pos hc0]
    cases hcol : GoMap.lookup h b.col with
    | none =>
      dsimp only
      exact del_mcheck_spec hb hcw k hcol
    | some idxs =>
      dsimp only
      have hb2 := hb.bump hcw b.setCalls b.getCalls b.misses
      have hc2 : u64 (b.collisions + 1) = b.collisions + 1 := u64_of_lt hcw
      have hne2 : u64 (b.collisions + 1) ≠ 0 := u64_succ_ne_zero hcw
      have hge : b.collisions ≤ u64 (b.collisions + 1) := by rw [hc2]; omega
      have hle : u64 (b.collisions + 1) ≤ b.collisions + 1 := by rw [hc2]
      obtain ⟨r, hr, hfind, hnone, hsome⟩ := scan_spec b.kv k idxs
        (fun i hi => hb.owns_lt_length (Or.inr ⟨idxs, hcol, hi⟩)) 0
      rw [hr]
      cases r with
      | none =>
        have hk := hnone rfl
        refine ⟨_, rfl, ?_⟩
        have hnew : b.entry h k = none := by
          rw [entry_eq_none_iff hb]
          rintro i (h1 | ⟨idxs', h1, hi⟩)
          · rw [hb.disj h (lookup_ne_none_of_eq hcol)] at h1; cases h1
          · rw [hcol] at h1; cases h1; exact hk i hi
        exact DelPost.of_absent hb hnew ⟨rfl, rfl, rfl, rfl, rfl, rfl⟩ (fun _ => hne2)
          hge hle rfl rfl
      | some x =>
        obtain ⟨pos, idx, s⟩ := x
        obtain ⟨_, hp, hs, hk, _⟩ := hsome pos idx s rfl
        have hs' : s = slotAt b.kv idx := (slotAt_of_getElem? hs).symm
        subst hs'
        simp only [Nat.sub_zero] at hp
        dsimp only
        cases hlast : idxs.getLast? with
        | none =>
          rw [List.getLast?_eq_none_iff] at hlast
          rw [hlast] at hp
          simp at hp
        | some last =>
          dsimp only
          have hperm := swap_remove_perm hp hlast
          have hlen2 := hb.colLen _ (GoMap.mem_of_lookup hcol)
          have hlen : ((idxs.set pos last).dropLast).length + 1 = idxs.length := by
            simpa using hperm.length_eq.symm
          by_cases hrest : ((idxs.set pos last).dropLast).length ≥ 2
          · rw [if_pos hrest]
            refine ⟨_, rfl, ?_⟩
            exact (del_col_many_spec hb2 hcol hperm hk hrest hne2).of_counters_before
              ⟨rfl, rfl, rfl, rfl, rfl, rfl⟩ hge hle rfl rfl
          · rw [if_neg hrest]
            generalize hR : (idxs.set pos last).dropLast = rest at hperm hlen hrest
            match rest, hperm, hlen, hrest with
            | [i], hperm, _, _ =>
              refine ⟨_, rfl, ?_⟩
              exact (del_col_last_spec hb2 hcol hperm hk hne2).of_counters_before
                ⟨rfl, rfl, rfl, rfl, rfl, rfl⟩ hge hle rfl rfl
            | [], _, hlen, _ =>
              simp at hlen hlen2
              omega
            | _ :: _ :: _, _, _, hrest =>
              simp at hrest

/-! ## Sums over the buckets -/

theorem foldl_u64 {α : Type} (f : α → Nat) (l : List α) (a : Nat) :
    l.foldl (fun acc i => u64 (acc + f i)) (u64 a) = u64 (a + (l.map f).sum) := by
  induction l generalizing a with
  | nil => simp
  | cons x l ih =>
    simp only [List.foldl_cons, List.map_cons, List.sum_cons]
    have : u64 (u64 a + f x) = u64 (a + f x) := by unfold u64; omega
    rw [this, ih, Nat.add_assoc]

theorem foldl_u64_u64 {α : Type} (f : α → Nat) (l : List α) (a : Nat) :
    l.foldl (fun acc i => u64 (acc + u64 (f i))) (u64 a) = u64 (a + (l.map f).sum) := by
  induction l generalizing a with
  | nil => simp
  | cons x l ih =>
    simp only [List.foldl_cons, List.map_cons, List.sum_cons]
    have : u64 (u64 a + u64 (f x)) = u64 (a + f x) := by unfold u64; omega
    rw [this, ih, Nat.add_assoc]

/-- The loop `for i := range s.buckets[:] { acc += f(s.buckets[i]) }` in `uint64`. -/
theorem foldl_buckets (f : Fin bucketsCount → Nat) :
    (List.finRange bucketsCount).foldl (fun acc i => u64 (acc + f i)) 0 = u64 (∑ i, f i) := by
  have h0 : (0 : Nat) = u64 0 := rfl
  rw [h0, foldl_u64, Fin.sum_univ_def, Nat.zero_add]

theorem sum_put (g : bucket → Nat) (s : Storage) (i : Fin bucketsCount) (b : bucket) :
    (∑ j, g ((s.put i b).buckets j)) + g (s.buckets i) = (∑ j, g (s.buckets j)) + g b := by
  have h1 : (fun j => g ((s.put i b).buckets j)) =
      Function.update (fun j => g (s.buckets j)) i (g b) := by
    funext j
    simp only [Storage.put]
    exact Function.apply_update (fun _ => g) s.buckets i b j
  rw [h1, Finset.sum_update_of_mem (Finset.mem_univ i),
    Finset.sum_eq_add_sum_diff_singleton (Finset.mem_univ i) (fun j => g (s.buckets j))]
  omega

theorem put_same (s : Storage) (i : Fin bucketsCount) (b : bucket) :
    (s.put i b).buckets i = b := by
  simp [Storage.put]

theorem put_other (s : Storage) {i j : Fin bucketsCount} (b : bucket) (h : j ≠ i) :
    (s.put i b).buckets j = s.buckets j := by
  simp [Storage.put, Function.update_noteq h]

/-- The result of `getEntriesCount` is the number of live entries modulo `2 ^ 64`. -/
theorem getEntriesCount_eq (b : bucket) : b.getEntriesCount = u64 b.liveCount := by
  unfold bucket.getEntriesCount bucket.liveCount bucket.liveRefs
  have h0 : u64 (0 + u64 b.m.length) = u64 b.m.length := by unfold u64; omega
  rw [h0, foldl_u64_u64 (fun e : Nat × List Nat => e.2.length)]
  congr 1
  simp only [List.length_append, List.length_map, List.flatMap, List.length_flatten,
    List.map_map]
  rfl

theorem Storage.Size_eq (s : Storage) : s.Size = u64 (∑ i, (s.buckets i).size) :=
  foldl_buckets _

theorem Storage.Collision_eq (s : Storage) : s.Collision = u64 (∑ i, (s.buckets i).collisions) :=
  foldl_buckets _

theorem Storage.EntriesCount_eq (s : Storage) : s.EntriesCount = u64 s.liveCount := by
  unfold Storage.EntriesCount Storage.liveCount
  rw [foldl_buckets]
  simp only [getEntriesCount_eq]
  unfold u64
  rw [← Finset.sum_nat_mod]

/-- Under the invariant, `Size()` is the number of live bytes modulo `2 ^ 64`. -/
theorem Storage.Size_eq_liveBytes {s : Storage} (hs : ∀ i, BInv (s.buckets i)) :
    s.Size = s.liveBytes % 2 ^ 64 := by
  rw [Storage.Size_eq]
  have h1 : ∑ i, (s.buckets i).size = ∑ i, (s.buckets i).liveBytes % 2 ^ 64 :=
    Finset.sum_congr rfl (fun i _ => (hs i).size_eq)
  rw [h1]
  unfold u64 Storage.liveBytes
  rw [← Finset.sum_nat_mod]

/-! ## The storage invariant -/

theorem reset_init (b : bucket) : b.reset.init = bucket.zero.init := by
  simp [bucket.reset, bucket.init, bucket.zero]

theorem Storage.Reset_eq (s : Storage) : s.Reset = New := by
  simp [Storage.Reset, New, reset_init]

/-- A bucket made by `init` from the zero value satisfies the invariant. -/
theorem BInv.zero_init : BInv bucket.zero.init :=
  { mKeys := by simp [bucket.init]
    colKeys := by simp [bucket.init]
    disj := by intro h _; rfl
    perm := by simp [bucket.refs, bucket.liveRefs, bucket.init, bucket.zero]
    off := by simp [bucket.init, bucket.zero]
    colLen := by intro e he; simp [bucket.init] at he
    colKeysDistinct := by intro e he; simp [bucket.init] at he
    freeEmpty := by intro i hi; simp [bucket.init] at hi
    latch := by intro h; simp [bucket.init] at h
    size := by simp [bucket.init, bucket.zero] }

theorem SInv.of_new_storage : SInv 0 New :=
  { inv := fun _ => BInv.zero_init
    colBound := fun _ => le_refl _
    offBound := fun _ => le_refl _
    count := by simp [Storage.liveCount, Bytestorage.New, bucket.liveCount, bucket.liveRefs,
      bucket.init, bucket.zero] }

theorem SInv.mono {n m : Nat} {s : Storage} (hs : SInv n s) (h : n ≤ m) : SInv m s :=
  { inv := hs.inv
    colBound := fun i => le_trans (hs.colBound i) h
    offBound := fun i => le_trans (hs.offBound i) h
    count := le_trans hs.count h }

/-- Replacing one bucket by a bucket that satisfies the invariant. -/
theorem SInv.put {n : Nat} {s : Storage} (hs : SInv n s) (i : Fin bucketsCount) {b' : bucket}
    (hb' : BInv b') (hc : b'.collisions ≤ n + 1) (ho : b'.offset ≤ n + 1)
    (hl : b'.liveCount ≤ (s.buckets i).liveCount + 1) : SInv (n + 1) (s.put i b') :=
  { inv := by
      intro j
      by_cases hj : j = i
      · rw [hj, put_same]; exact hb'
      · rw [put_other s b' hj]; exact hs.inv j
    colBound := by
      intro j
      by_cases hj : j = i
      · rw [hj, put_same]; exact hc
      · rw [put_other s b' hj]; exact le_trans (hs.colBound j) (Nat.le_succ n)
    offBound := by
      intro j
      by_cases hj : j = i
      · rw [hj, put_same]; exact ho
      · rw [put_other s b' hj]; exact le_trans (hs.offBound j) (Nat.le_succ n)
    count := by
      have h1 := sum_put bucket.liveCount s i b'
      have h2 := hs.count
      unfold Storage.liveCount at h2 ⊢
      omega }

theorem entry_put (s : Storage) (i : Fin bucketsCount) (b' : bucket) (h : Nat) (k : Bytes) :
    (s.put i b').entry h k = if bucketIdx h = i then b'.entry h k else s.entry h k := by
  unfold Storage.entry
  by_cases hi : bucketIdx h = i
  · rw [if_pos hi, hi, put_same]
  · rw [if_neg hi, put_other s b' hi]

/-- `colSet` on a storage that satisfies the invariant. -/
theorem colSet_spec {n : Nat} {s : Storage} (hs : SInv n s) (hn : n + 1 < 2 ^ 64)
    (k v : Bytes) (h : Nat) :
    ∃ b', (s.buckets (bucketIdx h)).set k v h = some b' ∧
      s.colSet k v h = some (s.put (bucketIdx h) b') ∧
      SetPost { s.buckets (bucketIdx h) with
        setCalls := u64 ((s.buckets (bucketIdx h)).setCalls + 1) } b' h k v ∧
      SInv (n + 1) (s.put (bucketIdx h) b') := by
  have hb := hs.inv (bucketIdx h)
  have hc := hs.colBound (bucketIdx h)
  have ho := hs.offBound (bucketIdx h)
  obtain ⟨b', hset, hpost⟩ := set_spec hb (by omega) (by omega) k v h
  refine ⟨b', hset, by simp [Storage.colSet, hset], hpost, ?_⟩
  apply hs.put (bucketIdx h) hpost.inv
  · have := hpost.col_le
    have h2 : (s.buckets (bucketIdx h)).collisions ≤ n := hc
    exact le_trans this (Nat.succ_le_succ h2)
  · have := hpost.offset_le
    have h2 : (s.buckets (bucketIdx h)).offset ≤ n := ho
    exact le_trans this (Nat.succ_le_succ h2)
  · have := hpost.count
    have h2 : bucket.liveCount { s.buckets (bucketIdx h) with
        setCalls := u64 ((s.buckets (bucketIdx h)).setCalls + 1) } =
        (s.buckets (bucketIdx h)).liveCount := rfl
    rw [h2] at this
    rw [this]
    split <;> omega

/-- `colDel` on a storage that satisfies the invariant. -/
theorem colDel_spec {n : Nat} {s : Storage} (hs : SInv n s) (hn : n + 1 < 2 ^ 64)
    (k : Bytes) (h : Nat) :
    ∃ b', (s.buckets (bucketIdx h)).del k h = some b' ∧
      s.colDel k h = some (s.put (bucketIdx h) b') ∧
      DelPost (s.buckets (bucketIdx h)) b' h k ∧
      SInv (n + 1) (s.put (bucketIdx h) b') := by
  have hb := hs.inv (bucketIdx h)
  have hc := hs.colBound (bucketIdx h)
  have ho := hs.offBound (bucketIdx h)
  obtain ⟨b', hdel, hpost⟩ := del_spec hb (by omega) k h
  refine ⟨b', hdel, by simp [Storage.colDel, hdel], hpost, ?_⟩
  apply hs.put (bucketIdx h) hpost.inv
  · exact le_trans hpost.col_le (Nat.succ_le_succ hc)
  · rw [hpost.offset]; exact le_trans ho (Nat.le_succ n)
  · have := hpost.count
    omega

/-- `get` through the storage on a storage that satisfies the invariant. -/
theorem getAt_spec {n : Nat} {s : Storage} (hs : SInv n s) (hn : n + 1 < 2 ^ 64)
    (dst : Option Bytes) (k : Bytes) (h : Nat) :
    s.getAt dst k h = some (s.put (bucketIdx h) ((s.buckets (bucketIdx h)).afterRead h k),
        (s.buckets (bucketIdx h)).readOut dst h k, (s.buckets (bucketIdx h)).hasHash h) ∧
      SInv (n + 1) (s.put (bucketIdx h) ((s.buckets (bucketIdx h)).afterRead h k)) := by
  have hb := hs.inv (bucketIdx h)
  have hc := hs.colBound (bucketIdx h)
  have ho := hs.offBound (bucketIdx h)
  have hcw : (s.buckets (bucketIdx h)).collisions + 1 < 2 ^ 64 := by omega
  refine ⟨by simp [Storage.getAt, get_eq hb], ?_⟩
  apply hs.put (bucketIdx h) (hb.afterRead hcw h k)
  · exact le_trans (afterRead_collisions_le _ h k hcw).2 (Nat.succ_le_succ hc)
  · exact le_trans ho (Nat.le_succ n)
  · exact Nat.le_succ _

/-- `colHas` on a storage that satisfies the invariant. -/
theorem colHas_spec {n : Nat} {s : Storage} (hs : SInv n s) (k : Bytes) (h : Nat) :
    s.colHas k h = some (s.put (bucketIdx h) ((s.buckets (bucketIdx h)).afterRead h k),
        ((s.buckets (bucketIdx h)).entry h k).isSome) := by
  simp [Storage.colHas, has_eq (hs.inv (bucketIdx h))]

theorem entry_put_afterRead (s : Storage) (h : Nat) (k : Bytes) (h' : Nat) (k' : Bytes) :
    (s.put (bucketIdx h) ((s.buckets (bucketIdx h)).afterRead h k)).entry h' k' =
      s.entry h' k' := by
  rw [entry_put]
  split
  · rename_i hi
    rw [entry_sameContents (afterRead_sameContents _ h k)]
    unfold Storage.entry
    rw [hi]
  · rfl

/-- One call keeps the storage invariant, never panics, and changes the entries the way the
specification says. -/
theorem step_spec {n : Nat} {s : Storage} (hs : SInv n s) (hn : n + 1 < 2 ^ 64) (op : Op) :
    ∃ s', s.step op = some s' ∧ SInv (n + 1) s' ∧
      ∀ h k, s'.entry h k = specStep s.entry op h k := by
  cases op with
  | set k v h =>
    obtain ⟨b', _, hset, hpost, hinv⟩ := colSet_spec hs hn k v h
    refine ⟨_, hset, hinv, ?_⟩
    intro h' k'
    rw [entry_put]
    simp only [specStep]
    by_cases hi : bucketIdx h' = bucketIdx h
    · rw [if_pos hi, hpost.entry]
      unfold Storage.entry
      rw [hi]
      rfl
    · rw [if_neg hi]
      have : ¬ (h' = h ∧ k' = k) := fun e => hi (by rw [e.1])
      rw [if_neg this]
  | get dst k h =>
    obtain ⟨hget, hinv⟩ := getAt_spec hs hn dst k h
    refine ⟨_, by simp [Storage.step, hget], hinv, ?_⟩
    intro h' k'
    exact entry_put_afterRead s h k h' k'
  | has k h =>
    refine ⟨_, by simp [Storage.step, colHas_spec hs k h], (getAt_spec hs hn none k h).2, ?_⟩
    intro h' k'
    exact entry_put_afterRead s h k h' k'
  | del k h =>
    obtain ⟨b', _, hdel, hpost, hinv⟩ := colDel_spec hs hn k h
    refine ⟨_, hdel, hinv, ?_⟩
    intro h' k'
    rw [entry_put]
    simp only [specStep]
    by_cases hi : bucketIdx h' = bucketIdx h
    · rw [if_pos hi, hpost.entry]
      unfold Storage.entry
      rw [hi]
    · rw [if_neg hi]
      have : ¬ (h' = h ∧ k' = k) := fun e => hi (by rw [e.1])
      rw [if_neg this]
  | reset =>
    refine ⟨s.Reset, rfl, ?_, ?_⟩
    · rw [Storage.Reset_eq]
      exact SInv.of_new_storage.mono (Nat.zero_le _)
    · intro h' k'
      rw [Storage.Reset_eq]
      rfl

/-- A sequence of calls keeps the storage invariant, never panics, and changes the entries
the way the specification says. -/
theorem run_spec (ops : List Op) {n : Nat} {s : Storage} (hs : SInv n s)
    (hn : n + ops.length < 2 ^ 64) :
    ∃ s', s.run ops = some s' ∧ SInv (n + ops.length) s' ∧
      ∀ h k, s'.entry h k = ops.foldl specStep s.entry h k := by
  induction ops generalizing n s with
  | nil => exact ⟨s, rfl, hs, fun _ _ => rfl⟩
  | cons op ops ih =>
    simp only [List.length_cons] at hn
    obtain ⟨s1, h1, hs1, he1⟩ := step_spec hs (by omega) op
    obtain ⟨s2, h2, hs2, he2⟩ := ih hs1 (by omega)
    refine ⟨s2, by simp [Storage.run, h1, h2], ?_, ?_⟩
    · have : n + (op :: ops).length = n + 1 + ops.length := by simp; omega
      rw [this]; exact hs2
    · intro h k
      rw [he2, List.foldl_cons]
      have : s1.entry = specStep s.entry op := by
        funext h' k'; exact he1 h' k'
      rw [this]

theorem New_entry (h : Nat) (k : Bytes) : New.entry h k = none := rfl

/-- Every sequence of fewer than `2 ^ 63` calls on a new storage runs without panic. -/
theorem run_total (ops : List Op) (hn : ops.length < 2 ^ 63) : ∃ s, ReachedBy ops s := by
  obtain ⟨s, hs, _, _⟩ := run_spec ops SInv.of_new_storage (by omega)
  exact ⟨s, hn, hs⟩

/-- A reached storage satisfies the invariant and holds the entries the specification
assigns to the call sequence. -/
theorem ReachedBy.spec {ops : List Op} {s : Storage} (hr : ReachedBy ops s) :
    SInv ops.length s ∧ ∀ h k, s.entry h k = specRun ops h k := by
  obtain ⟨s', hs', hinv, he⟩ := run_spec ops SInv.of_new_storage (by have := hr.1; omega)
  have : s' = s := Option.some.inj (hs'.symm.trans hr.2)
  subst this
  refine ⟨by simpa using hinv, ?_⟩
  intro h k
  rw [he]
  rfl

theorem Reachable.inv {s : Storage} (hr : Reachable s) : ∃ n, n < 2 ^ 63 ∧ SInv n s := by
  obtain ⟨ops, hops⟩ := hr
  exact ⟨ops.length, hops.1, hops.spec.1⟩

theorem reachable_New : Reachable New := ⟨[], by decide, rfl⟩

/-! ## The effect of the storage calls on the aggregates -/

/-- `colSet` on a storage that satisfies the invariant: result, invariant, entries, number of
live entries, live bytes, and the buckets left alone. -/
theorem colSet_effect {n : Nat} {s : Storage} (hs : SInv n s) (hn : n + 1 < 2 ^ 64)
    (k v : Bytes) (h : Nat) :
    ∃ s', s.colSet k v h = some s' ∧ SInv (n + 1) s' ∧
      (∀ h' k', s'.entry h' k' = if h' = h ∧ k' = k then some v else s.entry h' k') ∧
      s'.liveCount = s.liveCount + (if s.entry h k = none then 1 else 0) ∧
      s'.liveBytes + (s.buckets (bucketIdx h)).entryBytes h k =
        s.liveBytes + (k.length + v.length) ∧
      (∀ j, j ≠ bucketIdx h → s'.buckets j = s.buckets j) ∧
      (s.entry h k = some v → ∀ j, (s.buckets j).sameContents (s'.buckets j) ∧
        (s'.buckets j).getCalls = (s.buckets j).getCalls ∧
        (s'.buckets j).misses = (s.buckets j).misses) := by
  obtain ⟨b', _, hset, hpost, hinv⟩ := colSet_spec hs hn k v h
  refine ⟨_, hset, hinv, ?_, ?_, ?_, ?_, ?_⟩
  · intro h' k'
    rw [entry_put]
    by_cases hi : bucketIdx h' = bucketIdx h
    · rw [if_pos hi, hpost.entry]
      unfold Storage.entry
      rw [hi]
      rfl
    · rw [if_neg hi]
      have : ¬ (h' = h ∧ k' = k) := fun e => hi (by rw [e.1])
      rw [if_neg this]
  · have h1 := sum_put bucket.liveCount s (bucketIdx h) b'
    have h2 := hpost.count
    have h3 : bucket.liveCount { s.buckets (bucketIdx h) with
        setCalls := u64 ((s.buckets (bucketIdx h)).setCalls + 1) } =
        (s.buckets (bucketIdx h)).liveCount := rfl
    have h4 : bucket.entry { s.buckets (bucketIdx h) with
        setCalls := u64 ((s.buckets (bucketIdx h)).setCalls + 1) } h k = s.entry h k := rfl
    rw [h3, h4] at h2
    unfold Storage.liveCount
    omega
  · have h1 := sum_put bucket.liveBytes s (bucketIdx h) b'
    have h2 := hpost.bytes
    have h3 : bucket.liveBytes { s.buckets (bucketIdx h) with
        setCalls := u64 ((s.buckets (bucketIdx h)).setCalls + 1) } =
        (s.buckets (bucketIdx h)).liveBytes := rfl
    have h4 : bucket.entryBytes { s.buckets (bucketIdx h) with
        setCalls := u64 ((s.buckets (bucketIdx h)).setCalls + 1) } h k =
        (s.buckets (bucketIdx h)).entryBytes h k := rfl
    rw [h3, h4] at h2
    unfold Storage.liveBytes
    omega
  · intro j hj
    exact put_other s b' hj
  · intro he j
    by_cases hj : j = bucketIdx h
    · rw [hj, put_same]
      exact ⟨hpost.same he, hpost.getCalls, hpost.misses⟩
    · rw [put_other s b' hj]
      exact ⟨sameContents_refl _, rfl, rfl⟩

/-- `colDel` on a storage that satisfies the invariant: result, invariant, entries, number of
live entries, live bytes, and the buckets left alone. -/
theorem colDel_effect {n : Nat} {s : Storage} (hs : SInv n s) (hn : n + 1 < 2 ^ 64)
    (k : Bytes) (h : Nat) :
    ∃ s', s.colDel k h = some s' ∧ SInv (n + 1) s' ∧
      (∀ h' k', s'.entry h' k' = if h' = h ∧ k' = k then none else s.entry h' k') ∧
      s'.liveCount + (if s.entry h k = none then 0 else 1) = s.liveCount ∧
      s'.liveBytes + (s.buckets (bucketIdx h)).entryBytes h k = s.liveBytes ∧
      (∀ j, j ≠ bucketIdx h → s'.buckets j = s.buckets j) ∧
      (s.entry h k = none → ∀ j, (s.buckets j).sameContents (s'.buckets j)) := by
  obtain ⟨b', _, hdel, hpost, hinv⟩ := colDel_spec hs hn k h
  refine ⟨_, hdel, hinv, ?_, ?_, ?_, ?_, ?_⟩
  · intro h' k'
    rw [entry_put]
    by_cases hi : bucketIdx h' = bucketIdx h
    · rw [if_pos hi, hpost.entry]
      unfold Storage.entry
      rw [hi]
    · rw [if_neg hi]
      have : ¬ (h' = h ∧ k' = k) := fun e => hi (by rw [e.1])
      rw [if_neg this]
  · have h1 := sum_put bucket.liveCount s (bucketIdx h) b'
    have h2 := hpost.count
    have h4 : (s.buckets (bucketIdx h)).entry h k = s.entry h k := rfl
    rw [h4] at h2
    unfold Storage.liveCount
    omega
  · have h1 := sum_put bucket.liveBytes s (bucketIdx h) b'
    have h2 := hpost.bytes
    unfold Storage.liveBytes
    omega
  · intro j hj
    exact put_other s b' hj
  · intro he j
    by_cases hj : j = bucketIdx h
    · rw [hj, put_same]
      exact hpost.same he
    · rw [put_other s b' hj]
      exact sameContents_refl _

/-- A read leaves the aggregates alone. -/
theorem read_effect (s : Storage) (h : Nat) (k : Bytes) :
    (s.put (bucketIdx h) ((s.buckets (bucketIdx h)).afterRead h k)).liveCount = s.liveCount ∧
      (s.put (bucketIdx h) ((s.buckets (bucketIdx h)).afterRead h k)).liveBytes =
        s.liveBytes := by
  have h1 := sum_put bucket.liveCount s (bucketIdx h) ((s.buckets (bucketIdx h)).afterRead h k)
  have h2 := sum_put bucket.liveBytes s (bucketIdx h) ((s.buckets (bucketIdx h)).afterRead h k)
  have h3 : ((s.buckets (bucketIdx h)).afterRead h k).liveCount =
      (s.buckets (bucketIdx h)).liveCount := rfl
  have h4 : ((s.buckets (bucketIdx h)).afterRead h k).liveBytes =
      (s.buckets (bucketIdx h)).liveBytes := rfl
  unfold Storage.liveCount Storage.liveBytes
  constructor <;> omega

theorem New_liveBytes : New.liveBytes = 0 := by
  simp [Storage.liveBytes, Bytestorage.New, bucket.liveBytes, bucket.liveRefs, bucket.init,
    bucket.zero]

theorem New_liveCount : New.liveCount = 0 := by
  simp [Storage.liveCount, Bytestorage.New, bucket.liveCount, bucket.liveRefs, bucket.init,
    bucket.zero]

/-- One call adds at most the bytes it was handed to the live bytes. -/
theorem step_bytes {n : Nat} {s s' : Storage} (hs : SInv n s) (hn : n + 1 < 2 ^ 64) (op : Op)
    (hstep : s.step op = some s') : s'.liveBytes ≤ s.liveBytes + opBytes op := by
  cases op with
  | set k v h =>
    obtain ⟨s1, h1, _, _, _, hb, _⟩ := colSet_effect hs hn k v h
    have : s1 = s' := Option.some.inj (h1.symm.trans hstep)
    subst this
    simp only [opBytes]
    omega
  | get dst k h =>
    have h1 := (getAt_spec hs hn dst k h).1
    simp only [Storage.step, h1, Option.map_some', Option.some.injEq] at hstep
    subst hstep
    rw [(read_effect s h k).2]
    exact Nat.le_add_right _ _
  | has k h =>
    have h1 := colHas_spec hs k h
    simp only [Storage.step, h1, Option.map_some', Option.some.injEq] at hstep
    subst hstep
    rw [(read_effect s h k).2]
    exact Nat.le_add_right _ _
  | del k h =>
    obtain ⟨s1, h1, _, _, _, hb, _⟩ := colDel_effect hs hn k h
    have : s1 = s' := Option.some.inj (h1.symm.trans hstep)
    subst this
    simp only [opBytes]
    omega
  | reset =>
    simp only [Storage.step, Option.some.injEq] at hstep
    subst hstep
    rw [Storage.Reset_eq, New_liveBytes]
    exact Nat.zero_le _

theorem run_bytes (ops : List Op) {n : Nat} {s s' : Storage} (hs : SInv n s)
    (hn : n + ops.length < 2 ^ 64) (hrun : s.run ops = some s') :
    s'.liveBytes ≤ s.liveBytes + opsBytes ops := by
  induction ops generalizing n s with
  | nil =>
    simp only [Storage.run, Option.some.injEq] at hrun
    subst hrun
    simp [opsBytes]
  | cons op ops ih =>
    simp only [List.length_cons] at hn
    obtain ⟨s1, h1, hs1, _⟩ := step_spec hs (by omega) op
    simp only [Storage.run, h1, Option.some_bind] at hrun
    have hb1 := step_bytes hs (by omega) op h1
    have hb2 := ih hs1 (by omega) hrun
    simp only [opsBytes, List.map_cons, List.sum_cons] at hb2 ⊢
    omega

/-- The storage after a call sequence is reached by it. -/
theorem afterOps_reached {ops : List Op} (hn : ops.length < 2 ^ 63) :
    ReachedBy ops (afterOps ops) := by
  obtain ⟨s, hs⟩ := run_total ops hn
  have : afterOps ops = s := by simp [afterOps, hs.2]
  rw [this]; exact hs

theorem afterOps_reachable {ops : List Op} (hn : ops.length < 2 ^ 63) :
    Reachable (afterOps ops) := ⟨ops, afterOps_reached hn⟩

theorem afterOps_entry {ops : List Op} (hn : ops.length < 2 ^ 63) (h : Nat) (k : Bytes) :
    (afterOps ops).entry h k = specRun ops h k :=
  (afterOps_reached hn).spec.2 h k

theorem afterOps_liveBytes {ops : List Op} (hn : ops.length < 2 ^ 63) :
    (afterOps ops).liveBytes ≤ opsBytes ops := by
  have hr := afterOps_reached hn
  have := run_bytes ops SInv.of_new_storage (by omega) hr.2
  rw [New_liveBytes] at this
  omega

/-! ## What the calls return -/

theorem bytesOf_goAppend (dst : Option Bytes) (v : Bytes) :
    bytesOf (goAppend dst v) = bytesOf dst ++ v := by
  cases dst with
  | none => cases v <;> rfl
  | some d => rfl

theorem goAppend_nil (dst : Option Bytes) : bytesOf (goAppend dst []) = bytesOf dst := by
  rw [bytesOf_goAppend, List.append_nil]

theorem hasHash_of_entry {b : bucket} {h : Nat} {k v : Bytes} (he : b.entry h k = some v) :
    b.hasHash h = true := by
  unfold bucket.entry bucket.slotOf at he
  unfold bucket.hasHash
  cases hc : GoMap.lookup h b.col with
  | some idxs => simp
  | none =>
    cases hm : GoMap.lookup h b.m with
    | some i => simp
    | none => simp [hc, hm] at he

theorem readOut_of_entry {b : bucket} {h : Nat} {k v : Bytes} (dst : Option Bytes)
    (he : b.entry h k = some v) : b.readOut dst h k = goAppend dst v := by
  simp [bucket.readOut, he]

theorem readOut_of_absent {b : bucket} {h : Nat} {k : Bytes} (dst : Option Bytes)
    (he : b.entry h k = none) : b.readOut dst h k = dst := by
  simp [bucket.readOut, he]

theorem readOut_sameContents {b b' : bucket} (hs : b.sameContents b') (dst : Option Bytes)
    (h : Nat) (k : Bytes) : b'.readOut dst h k = b.readOut dst h k := by
  simp [bucket.readOut, entry_sameContents hs]

theorem hasHash_sameContents {b b' : bucket} (hs : b.sameContents b') (h : Nat) :
    b'.hasHash h = b.hasHash h := by
  obtain ⟨h1, h2, _⟩ := hs
  simp [bucket.hasHash, h1, h2]

/-- On a storage that satisfies the invariant `EntriesCount()` is the number of live
entries. -/
theorem SInv.EntriesCount {n : Nat} {s : Storage} (hs : SInv n s) (hn : n < 2 ^ 64) :
    s.EntriesCount = s.liveCount := by
  rw [Storage.EntriesCount_eq]
  exact u64_of_lt (lt_of_le_of_lt hs.count hn)

/-- What `get` through the storage returns for an entry that exists. -/
theorem getAt_present {n : Nat} {s : Storage} (hs : SInv n s) (hn : n + 1 < 2 ^ 64)
    (dst : Option Bytes) {k v : Bytes} {h : Nat} (he : s.entry h k = some v) :
    ∃ s2, s.getAt dst k h = some (s2, goAppend dst v, true) := by
  have he' : (s.buckets (bucketIdx h)).entry h k = some v := he
  have h1 := (getAt_spec hs hn dst k h).1
  rw [readOut_of_entry dst he', hasHash_of_entry he'] at h1
  exact ⟨_, h1⟩

/-- What `get` through the storage returns for an entry that does not exist. -/
theorem getAt_absent {n : Nat} {s : Storage} (hs : SInv n s) (hn : n + 1 < 2 ^ 64)
    (dst : Option Bytes) {k : Bytes} {h : Nat} (he : s.entry h k = none) :
    ∃ s2 found, s.getAt dst k h = some (s2, dst, found) := by
  have he' : (s.buckets (bucketIdx h)).entry h k = none := he
  have h1 := (getAt_spec hs hn dst k h).1
  rw [readOut_of_absent dst he'] at h1
  exact ⟨_, _, h1⟩

theorem colHas_present {n : Nat} {s : Storage} (hs : SInv n s) {k v : Bytes} {h : Nat}
    (he : s.entry h k = some v) : ∃ s2, s.colHas k h = some (s2, true) := by
  have he' : (s.buckets (bucketIdx h)).entry h k = some v := he
  have h1 := colHas_spec hs k h
  rw [he'] at h1
  exact ⟨_, h1⟩

theorem colHas_absent {n : Nat} {s : Storage} (hs : SInv n s) {k : Bytes} {h : Nat}
    (he : s.entry h k = none) : ∃ s2, s.colHas k h = some (s2, false) := by
  have he' : (s.buckets (bucketIdx h)).entry h k = none := he
  have h1 := colHas_spec hs k h
  rw [he'] at h1
  exact ⟨_, h1⟩

/-- The slice `colGet` returns depends on the entry alone. -/
theorem colGet_eq {n : Nat} {s : Storage} (hs : SInv n s) (hn : n + 1 < 2 ^ 64)
    (dst : Option Bytes) (k : Bytes) (h : Nat) :
    ∃ s2, s.colGet dst k h = some (s2, match s.entry h k with
      | some v => goAppend dst v
      | none => dst) := by
  have h1 := (getAt_spec hs hn dst k h).1
  exact ⟨_, by simp only [Storage.colGet, h1, Option.map_some']; rfl⟩

/-- The flag `colHas` returns depends on the entry alone. -/
theorem colHas_eq {n : Nat} {s : Storage} (hs : SInv n s) (k : Bytes) (h : Nat) :
    ∃ s2, s.colHas k h = some (s2, (s.entry h k).isSome) :=
  ⟨_, colHas_spec hs k h⟩

/-! ## Round trips, misses and overwrites -/

/-- C1 (set-then-get round trip): in every reachable state, for every key `K`, value `V`
and hash `h`, `set(K, V, h)` succeeds and afterwards `get(nil, K, h)` returns exactly the
bytes of `V` with `found = true`, and `has(K, h)` returns true. -/
theorem C1_set_get_roundtrip (s : Storage) (hr : Reachable s) (K V : Bytes) (h : Nat) :
    ∃ s1, s.colSet K V h = some s1 ∧
      (∃ s2 out, s1.getAt none K h = some (s2, out, true) ∧ bytesOf out = V) ∧
      ∃ s3, s1.colHas K h = some (s3, true) := by
  obtain ⟨n, hn, hs⟩ := hr.inv
  obtain ⟨s1, hset, hs1, hentry, _⟩ := colSet_effect hs (by omega) K V h
  have he : s1.entry h K = some V := by rw [hentry]; simp
  obtain ⟨s2, hget⟩ := getAt_present hs1 (by omega) none he
  exact ⟨s1, hset, ⟨s2, _, hget, by rw [bytesOf_goAppend]; rfl⟩, colHas_present hs1 he⟩

theorem C1_set_get_roundtrip_witness :
    Reachable New ∧ ∃ s1, New.colSet [] [7, 8] 1234567890 = some s1 ∧
      (∃ s2 out, s1.getAt none [] 1234567890 = some (s2, out, true) ∧ bytesOf out = [7, 8]) ∧
      ∃ s3, s1.colHas [] 1234567890 = some (s3, true) :=
  ⟨reachable_New, C1_set_get_roundtrip New reachable_New [] [7, 8] 1234567890⟩

/-- C2 (absent keys miss): after every sequence of fewer than `2 ^ 63` calls on a new store,
for every key `K` and hash `h` such that `(K, h)` was never set, or was deleted (or the store
reset) since its last set, `get(nil, K, h)` returns nil and `has(K, h)` returns false,
whatever other keys are stored under `h` and whatever slots have been freed. -/
theorem C2_absent_keys_miss (ops : List Op) (hn : ops.length < 2 ^ 63) (K : Bytes) (h : Nat)
    (habs : specRun ops h K = none) :
    ∃ s, New.run ops = some s ∧
      (∃ s2 found, s.getAt none K h = some (s2, none, found)) ∧
      ∃ s3, s.colHas K h = some (s3, false) := by
  obtain ⟨s, hr⟩ := run_total ops hn
  obtain ⟨hs, hentry⟩ := hr.spec
  have he : s.entry h K = none := by rw [hentry]; exact habs
  exact ⟨s, hr.2, getAt_absent hs (by omega) none he, colHas_absent hs he⟩

theorem C2_absent_keys_miss_witness :
    [Op.set [1] [10] 7, Op.set [2] [20] 7, Op.set [3] [30] 7, Op.del [3] 7].length < 2 ^ 63 ∧
      specRun [Op.set [1] [10] 7, Op.set [2] [20] 7, Op.set [3] [30] 7, Op.del [3] 7] 7 [3] =
        none ∧
      ∃ s, New.run [Op.set [1] [10] 7, Op.set [2] [20] 7, Op.set [3] [30] 7, Op.del [3] 7] =
          some s ∧
        (∃ s2 found, s.getAt none [3] 7 = some (s2, none, found)) ∧
        ∃ s3, s.colHas [3] 7 = some (s3, false) :=
  ⟨by decide, by decide,
    C2_absent_keys_miss [Op.set [1] [10] 7, Op.set [2] [20] 7, Op.set [3] [30] 7, Op.del [3] 7]
      (by decide) [3] 7 (by decide)⟩

/-- C3 (HasGet reports existence exactly), evaluated on the bucket of a new store. With key
`[1, 2]` stored under hash `5` in the PrimaryIndex, `get(nil, [9], 5)` for the absent key
`[9]` returns no bytes and the flag `true`, while `has([9], 5)` returns `false`; the same
happens with keys `[1, 2]` and `[4]` stored under hash `5` in the CollisionIndex. -/
theorem C3_get_flag_on_absent_key :
    ((bucket.zero.init.set [1, 2] [3] 5).bind
        (fun b => (b.get none [9] 5).map (fun r => r.2)) = some (none, true) ∧
      (bucket.zero.init.set [1, 2] [3] 5).bind
        (fun b => (b.has [9] 5).map (fun r => r.2)) = some false) ∧
    (((bucket.zero.init.set [1, 2] [3] 5).bind (fun b => b.set [4] [6] 5)).bind
        (fun b => (b.get none [9] 5).map (fun r => r.2)) = some (none, true) ∧
      ((bucket.zero.init.set [1, 2] [3] 5).bind (fun b => b.set [4] [6] 5)).bind
        (fun b => (b.has [9] 5).map (fun r => r.2)) = some false) := by
  decide

/-- The flag `bucket.get` returns on a bucket that satisfies the invariant is true exactly
when the hash is a key of one of the two indices, whether or not the key is stored. -/
theorem get_flag_eq_hasHash (s : Storage) (hr : Reachable s) (dst : Option Bytes) (k : Bytes)
    (h : Nat) :
    ∃ b' out, (s.buckets (bucketIdx h)).get dst k h =
      some (b', out, (s.buckets (bucketIdx h)).hasHash h) := by
  obtain ⟨n, _, hs⟩ := hr.inv
  exact ⟨_, _, get_eq (hs.inv (bucketIdx h)) dst k h⟩

/-- C4 (get appends to the destination): after every sequence of fewer than `2 ^ 63` calls
on a new store, for every destination `dst`, key `k` and hash `h`, `get(dst, k, h)` returns
`dst` followed by the value last set for `k` when the key is present, and `dst` itself (nil
when `dst` is nil) when it is absent. -/
theorem C4_get_appends (ops : List Op) (hn : ops.length < 2 ^ 63) (dst : Option Bytes)
    (k : Bytes) (h : Nat) :
    ∃ s, New.run ops = some s ∧ ∃ s2 out found, s.getAt dst k h = some (s2, out, found) ∧
      (∀ v, specRun ops h k = some v → bytesOf out = bytesOf dst ++ v) ∧
      (specRun ops h k = none → out = dst) := by
  obtain ⟨s, hr⟩ := run_total ops hn
  obtain ⟨hs, hentry⟩ := hr.spec
  refine ⟨s, hr.2, ?_⟩
  cases he : s.entry h k with
  | none =>
    obtain ⟨s2, found, hget⟩ := getAt_absent hs (by omega) dst he
    refine ⟨s2, dst, found, hget, ?_, fun _ => rfl⟩
    intro v hv
    rw [← hentry, he] at hv
    cases hv
  | some v =>
    obtain ⟨s2, hget⟩ := getAt_present hs (by omega) dst he
    refine ⟨s2, _, true, hget, ?_, ?_⟩
    · intro w hw
      rw [← hentry, he] at hw
      cases hw
      exact bytesOf_goAppend dst v
    · intro hnone
      rw [← hentry, he] at hnone
      cases hnone

theorem C4_get_appends_witness :
    [Op.set [1] [10, 11] 7, Op.set [2] [20] 7].length < 2 ^ 63 ∧
      ∃ s, New.run [Op.set [1] [10, 11] 7, Op.set [2] [20] 7] = some s ∧
        ∃ s2 out found, s.getAt (some [5]) [1] 7 = some (s2, out, found) ∧
          (∀ v, specRun [Op.set [1] [10, 11] 7, Op.set [2] [20] 7] 7 [1] = some v →
            bytesOf out = bytesOf (some [5]) ++ v) ∧
          (specRun [Op.set [1] [10, 11] 7, Op.set [2] [20] 7] 7 [1] = none → out = some [5]) :=
  ⟨by decide, C4_get_appends [Op.set [1] [10, 11] 7, Op.set [2] [20] 7] (by decide)
    (some [5]) [1] 7⟩

/-- C5 (overwrite): in every reachable state, for every key `K`, values `V1` and `V2` of any
lengths and hash `h`, after `set(K, V1, h); set(K, V2, h)` the call `get(nil, K, h)` returns
the bytes of `V2`, and `EntriesCount()` is the same after the second set as after the first. -/
theorem C5_overwrite (s : Storage) (hr : Reachable s) (K V1 V2 : Bytes) (h : Nat) :
    ∃ s1 s2, s.colSet K V1 h = some s1 ∧ s1.colSet K V2 h = some s2 ∧
      (∃ s3 out found, s2.getAt none K h = some (s3, out, found) ∧ bytesOf out = V2) ∧
      s2.EntriesCount = s1.EntriesCount := by
  obtain ⟨n, hn, hs⟩ := hr.inv
  obtain ⟨s1, hset1, hs1, hentry1, _⟩ := colSet_effect hs (by omega) K V1 h
  obtain ⟨s2, hset2, hs2, hentry2, hcount2, _⟩ := colSet_effect hs1 (by omega) K V2 h
  have he1 : s1.entry h K = some V1 := by rw [hentry1]; simp
  have he2 : s2.entry h K = some V2 := by rw [hentry2]; simp
  obtain ⟨s3, hget⟩ := getAt_present hs2 (by omega) none he2
  refine ⟨s1, s2, hset1, hset2, ⟨s3, _, true, hget, by rw [bytesOf_goAppend]; rfl⟩, ?_⟩
  rw [hs2.EntriesCount (by omega), hs1.EntriesCount (by omega), hcount2, he1]
  simp

theorem C5_overwrite_witness :
    Reachable New ∧ ∃ s1 s2, New.colSet [1] [2, 3, 4] 9 = some s1 ∧
      s1.colSet [1] [5] 9 = some s2 ∧
      (∃ s3 out found, s2.getAt none [1] 9 = some (s3, out, found) ∧ bytesOf out = [5]) ∧
      s2.EntriesCount = s1.EntriesCount :=
  ⟨reachable_New, C5_overwrite New reachable_New [1] [2, 3, 4] [5] 9⟩

/-! ## Idempotence, deletes and the byte size -/

theorem Size_congr {s s' : Storage} (h : ∀ i, (s'.buckets i).size = (s.buckets i).size) :
    s'.Size = s.Size := by
  have hsum : ∑ i, (s'.buckets i).size = ∑ i, (s.buckets i).size :=
    Finset.sum_congr rfl (fun i _ => h i)
  rw [Storage.Size_eq, Storage.Size_eq, hsum]

/-- C6 (set is idempotent on contents): in every reachable state, for every key `K`, value
`V` and hash `h`, a second `set(K, V, h)` right after `set(K, V, h)` leaves `Size()`,
`EntriesCount()`, both indices, the slab (every stored key and value), the free list, the
cursor and the get-call and miss counters of every bucket unchanged; only set-calls and the
collision counter of the bucket of `h` can differ. -/
theorem C6_set_idempotent (s : Storage) (hr : Reachable s) (K V : Bytes) (h : Nat) :
    ∃ s1 s2, s.colSet K V h = some s1 ∧ s1.colSet K V h = some s2 ∧
      s2.Size = s1.Size ∧ s2.EntriesCount = s1.EntriesCount ∧
      (∀ i, (s1.buckets i).sameContents (s2.buckets i) ∧
        (s2.buckets i).getCalls = (s1.buckets i).getCalls ∧
        (s2.buckets i).misses = (s1.buckets i).misses) ∧
      (∀ i, i ≠ bucketIdx h → s2.buckets i = s1.buckets i) := by
  obtain ⟨n, hn, hs⟩ := hr.inv
  obtain ⟨s1, hset1, hs1, hentry1, _⟩ := colSet_effect hs (by omega) K V h
  obtain ⟨s2, hset2, hs2, _, hcount2, _, hother, hsame⟩ :=
    colSet_effect hs1 (by omega) K V h
  have he1 : s1.entry h K = some V := by rw [hentry1]; simp
  refine ⟨s1, s2, hset1, hset2, ?_, ?_, hsame he1, hother⟩
  · exact Size_congr (fun i => (hsame he1 i).1.2.2.2.2.2)
  · rw [hs2.EntriesCount (by omega), hs1.EntriesCount (by omega), hcount2, he1]
    simp

theorem C6_set_idempotent_witness :
    Reachable New ∧ ∃ s1 s2, New.colSet [1, 2] [3] 9 = some s1 ∧
      s1.colSet [1, 2] [3] 9 = some s2 ∧
      s2.Size = s1.Size ∧ s2.EntriesCount = s1.EntriesCount ∧
      (∀ i, (s1.buckets i).sameContents (s2.buckets i) ∧
        (s2.buckets i).getCalls = (s1.buckets i).getCalls ∧
        (s2.buckets i).misses = (s1.buckets i).misses) ∧
      (∀ i, i ≠ bucketIdx 9 → s2.buckets i = s1.buckets i) :=
  ⟨reachable_New, C6_set_idempotent New reachable_New [1, 2] [3] 9⟩

/-- C7 (delete removes a present key): in every reachable state `s` (reached by the calls
`ops`) in which key `K` is present under hash `h` with value `V`, and whose live keys and
values fit in `2 ^ 64` bytes, `del(K, h)` succeeds and afterwards `has(K, h)` is false,
`get(nil, K, h)` returns nil, `EntriesCount()` has decreased by exactly 1 and `Size()` has
decreased by exactly `len(K) + len(V)`. -/
theorem C7_delete_present (ops : List Op) (s : Storage) (hr : ReachedBy ops s) (K V : Bytes)
    (h : Nat) (hp : specRun ops h K = some V) (hfit : s.liveBytes < 2 ^ 64) :
    ∃ s1, s.colDel K h = some s1 ∧
      (∃ s2, s1.colHas K h = some (s2, false)) ∧
      (∃ s3 found, s1.getAt none K h = some (s3, none, found)) ∧
      s1.EntriesCount + 1 = s.EntriesCount ∧
      s1.Size + (K.length + V.length) = s.Size := by
  obtain ⟨hs, hentry⟩ := hr.spec
  have hn := hr.1
  have he : s.entry h K = some V := by rw [hentry]; exact hp
  obtain ⟨s1, hdel, hs1, hentry1, hcount, hbytes, _⟩ := colDel_effect hs (by omega) K h
  have he1 : s1.entry h K = none := by rw [hentry1]; simp
  have heb : (s.buckets (bucketIdx h)).entryBytes h K = K.length + V.length := by
    have he' : (s.buckets (bucketIdx h)).entry h K = some V := he
    simp [bucket.entryBytes, he']
  refine ⟨s1, hdel, colHas_absent hs1 he1, getAt_absent hs1 (by omega) none he1, ?_, ?_⟩
  · rw [hs1.EntriesCount (by omega), hs.EntriesCount (by omega), ← hcount, he]
    simp
  · rw [Storage.Size_eq_liveBytes hs1.inv, Storage.Size_eq_liveBytes hs.inv,
      Nat.mod_eq_of_lt hfit, Nat.mod_eq_of_lt (by omega), ← heb]
    exact hbytes

theorem C7_delete_present_witness :
    ReachedBy [Op.set [1, 2] [3] 9] (afterOps [Op.set [1, 2] [3] 9]) ∧
      specRun [Op.set [1, 2] [3] 9] 9 [1, 2] = some [3] ∧
      (afterOps [Op.set [1, 2] [3] 9]).liveBytes < 2 ^ 64 ∧
      ∃ s1, (afterOps [Op.set [1, 2] [3] 9]).colDel [1, 2] 9 = some s1 ∧
        (∃ s2, s1.colHas [1, 2] 9 = some (s2, false)) ∧
        (∃ s3 found, s1.getAt none [1, 2] 9 = some (s3, none, found)) ∧
        s1.EntriesCount + 1 = (afterOps [Op.set [1, 2] [3] 9]).EntriesCount ∧
        s1.Size + ([1, 2].length + [3].length) = (afterOps [Op.set [1, 2] [3] 9]).Size :=
  ⟨afterOps_reached (by decide), by decide,
    lt_of_le_of_lt (afterOps_liveBytes (by decide)) (by decide),
    C7_delete_present [Op.set [1, 2] [3] 9] (afterOps [Op.set [1, 2] [3] 9])
      (afterOps_reached (by decide)) [1, 2] [3] 9 (by decide)
      (lt_of_le_of_lt (afterOps_liveBytes (by decide)) (by decide))⟩

/-- C8 (delete of an absent key is a no-op on contents): in every reachable state `s`
(reached by the calls `ops`) and for every key `K` not present under hash `h`, `del(K, h)`
succeeds and leaves `Size()`, `EntriesCount()`, both indices, the slab, the free list, the
cursor and the byte size of every bucket unchanged, so that every `get` and `has` returns
afterwards what it returned before. -/
theorem C8_delete_absent (ops : List Op) (s : Storage) (hr : ReachedBy ops s) (K : Bytes)
    (h : Nat) (habs : specRun ops h K = none) :
    ∃ s1, s.colDel K h = some s1 ∧ s1.Size = s.Size ∧ s1.EntriesCount = s.EntriesCount ∧
      (∀ i, (s.buckets i).sameContents (s1.buckets i)) ∧
      (∀ dst k' h', ∃ t t1 out found, s.getAt dst k' h' = some (t, out, found) ∧
        s1.getAt dst k' h' = some (t1, out, found)) ∧
      (∀ k' h', ∃ t t1 r, s.colHas k' h' = some (t, r) ∧ s1.colHas k' h' = some (t1, r)) := by
  obtain ⟨hs, hentry⟩ := hr.spec
  have hn := hr.1
  have he : s.entry h K = none := by rw [hentry]; exact habs
  obtain ⟨s1, hdel, hs1, _, hcount, _, _, hsame⟩ := colDel_effect hs (by omega) K h
  have hsc := hsame he
  refine ⟨s1, hdel, Size_congr (fun i => (hsc i).2.2.2.2.2), ?_, hsc, ?_, ?_⟩
  · rw [hs1.EntriesCount (by omega), hs.EntriesCount (by omega), ← hcount, he]
    simp
  · intro dst k' h'
    have h0 := (getAt_spec hs (by omega) dst k' h').1
    have h1 := (getAt_spec hs1 (by omega) dst k' h').1
    rw [readOut_sameContents (hsc _), hasHash_sameContents (hsc _)] at h1
    exact ⟨_, _, _, _, h0, h1⟩
  · intro k' h'
    have h0 := colHas_spec hs k' h'
    have h1 := colHas_spec hs1 k' h'
    rw [entry_sameContents (hsc _)] at h1
    exact ⟨_, _, _, h0, h1⟩

theorem C8_delete_absent_witness :
    ReachedBy [Op.set [1, 2] [3] 9] (afterOps [Op.set [1, 2] [3] 9]) ∧
      specRun [Op.set [1, 2] [3] 9] 9 [4] = none ∧
      ∃ s1, (afterOps [Op.set [1, 2] [3] 9]).colDel [4] 9 = some s1 ∧
        s1.Size = (afterOps [Op.set [1, 2] [3] 9]).Size ∧
        s1.EntriesCount = (afterOps [Op.set [1, 2] [3] 9]).EntriesCount ∧
        (∀ i, ((afterOps [Op.set [1, 2] [3] 9]).buckets i).sameContents (s1.buckets i)) ∧
        (∀ dst k' h', ∃ t t1 out found,
          (afterOps [Op.set [1, 2] [3] 9]).getAt dst k' h' = some (t, out, found) ∧
          s1.getAt dst k' h' = some (t1, out, found)) ∧
        (∀ k' h', ∃ t t1 r, (afterOps [Op.set [1, 2] [3] 9]).colHas k' h' = some (t, r) ∧
          s1.colHas k' h' = some (t1, r)) :=
  ⟨afterOps_reached (by decide), by decide,
    C8_delete_absent [Op.set [1, 2] [3] 9] (afterOps [Op.set [1, 2] [3] 9])
      (afterOps_reached (by decide)) [4] 9 (by decide)⟩

/-- In every reachable state, for every `set(K, V, h)` and every `del(K, h)`, and for every
other pair `(K', h')`, also one with `h' = h`, the slice `get` returns for `(K', h')` and the
flag `has` returns for `(K', h')` are the same after the call as before it. -/
theorem other_keys_slice_and_has (s : Storage) (hr : Reachable s) (K V : Bytes) (h : Nat)
    (K' : Bytes) (h' : Nat) (hne : ¬ (h' = h ∧ K' = K)) :
    (∃ s1, s.colSet K V h = some s1 ∧
      (∀ dst, ∃ t t1 out, s.colGet dst K' h' = some (t, out) ∧
        s1.colGet dst K' h' = some (t1, out)) ∧
      ∃ t t1 r, s.colHas K' h' = some (t, r) ∧ s1.colHas K' h' = some (t1, r)) ∧
    (∃ s1, s.colDel K h = some s1 ∧
      (∀ dst, ∃ t t1 out, s.colGet dst K' h' = some (t, out) ∧
        s1.colGet dst K' h' = some (t1, out)) ∧
      ∃ t t1 r, s.colHas K' h' = some (t, r) ∧ s1.colHas K' h' = some (t1, r)) := by
  obtain ⟨n, hn, hs⟩ := hr.inv
  constructor
  · obtain ⟨s1, hset, hs1, hentry, _⟩ := colSet_effect hs (by omega) K V h
    have he : s1.entry h' K' = s.entry h' K' := by rw [hentry, if_neg hne]
    refine ⟨s1, hset, ?_, ?_⟩
    · intro dst
      obtain ⟨t, ht⟩ := colGet_eq hs (by omega) dst K' h'
      obtain ⟨t1, ht1⟩ := colGet_eq hs1 (by omega) dst K' h'
      rw [he] at ht1
      exact ⟨t, t1, _, ht, ht1⟩
    · obtain ⟨t, ht⟩ := colHas_eq hs K' h'
      obtain ⟨t1, ht1⟩ := colHas_eq hs1 K' h'
      rw [he] at ht1
      exact ⟨t, t1, _, ht, ht1⟩
  · obtain ⟨s1, hdel, hs1, hentry, _⟩ := colDel_effect hs (by omega) K h
    have he : s1.entry h' K' = s.entry h' K' := by rw [hentry, if_neg hne]
    refine ⟨s1, hdel, ?_, ?_⟩
    · intro dst
      obtain ⟨t, ht⟩ := colGet_eq hs (by omega) dst K' h'
      obtain ⟨t1, ht1⟩ := colGet_eq hs1 (by omega) dst K' h'
      rw [he] at ht1
      exact ⟨t, t1, _, ht, ht1⟩
    · obtain ⟨t, ht⟩ := colHas_eq hs K' h'
      obtain ⟨t1, ht1⟩ := colHas_eq hs1 K' h'
      rw [he] at ht1
      exact ⟨t, t1, _, ht, ht1⟩

/-- Under the invariant a hash is a key of one of the two indices exactly when some key has
an entry under it. -/
theorem hasHash_iff_entry {b : bucket} (hb : BInv b) (h : Nat) :
    b.hasHash h = true ↔ ∃ k v, b.entry h k = some v := by
  constructor
  · intro hh
    cases hc : GoMap.lookup h b.col with
    | some idxs =>
      have hlen := hb.colLen _ (GoMap.mem_of_lookup hc)
      cases hi : idxs with
      | nil => rw [hi] at hlen; simp at hlen
      | cons i rest =>
        have ho : b.owns h i := Or.inr ⟨idxs, hc, by rw [hi]; exact List.mem_cons_self _ _⟩
        exact ⟨keyAt b.kv i, valAt b.kv i, (entry_eq_some_iff hb).2 ⟨i, ho, rfl, rfl⟩⟩
    | none =>
      cases hm : GoMap.lookup h b.m with
      | none => simp [bucket.hasHash, hc, hm] at hh
      | some i =>
        exact ⟨keyAt b.kv i, valAt b.kv i, (entry_eq_some_iff hb).2 ⟨i, Or.inl hm, rfl, rfl⟩⟩
  · rintro ⟨k, v, he⟩
    exact hasHash_of_entry he

/-- The flag `get` returns under hash `h` is the same on two buckets that satisfy the
invariant and hold the same entries under `h`. -/
theorem hasHash_eq_of_entries {b b' : bucket} (hb : BInv b) (hb' : BInv b') {h : Nat}
    (he : ∀ k, b'.entry h k = b.entry h k) : b'.hasHash h = b.hasHash h := by
  rw [Bool.eq_iff_iff, hasHash_iff_entry hb', hasHash_iff_entry hb]
  constructor
  · rintro ⟨k, v, hk⟩
    exact ⟨k, v, by rw [← he]; exact hk⟩
  · rintro ⟨k, v, hk⟩
    exact ⟨k, v, by rw [he]; exact hk⟩

/-- The result of `get` for `(K', h')` on two storages that satisfy the invariant and hold
the same entry for `(K', h')`, when they hold the same entries under `h'` or the key `K'` is
present: the slice and the flag are the same. -/
theorem getAt_congr {n m : Nat} {s s1 : Storage} (hs : SInv n s) (hn : n + 1 < 2 ^ 64)
    (hs1 : SInv m s1) (hm : m + 1 < 2 ^ 64) {K' : Bytes} {h' : Nat}
    (he : s1.entry h' K' = s.entry h' K')
    (hc : (∀ k, s1.entry h' k = s.entry h' k) ∨ s.entry h' K' ≠ none) (dst : Option Bytes) :
    ∃ t t1 out found, s.getAt dst K' h' = some (t, out, found) ∧
      s1.getAt dst K' h' = some (t1, out, found) := by
  have h0 := (getAt_spec hs hn dst K' h').1
  have h1 := (getAt_spec hs1 hm dst K' h').1
  have he' : (s1.buckets (bucketIdx h')).entry h' K' = (s.buckets (bucketIdx h')).entry h' K' :=
    he
  have hro : (s1.buckets (bucketIdx h')).readOut dst h' K' =
      (s.buckets (bucketIdx h')).readOut dst h' K' := by
    unfold bucket.readOut
    rw [he']
  have hfl : (s1.buckets (bucketIdx h')).hasHash h' = (s.buckets (bucketIdx h')).hasHash h' := by
    rcases hc with hall | hp
    · exact hasHash_eq_of_entries (hs.inv _) (hs1.inv _) hall
    · obtain ⟨v, hv⟩ := Option.ne_none_iff_exists'.1 hp
      have hv0 : (s.buckets (bucketIdx h')).entry h' K' = some v := hv
      have hv1 : (s1.buckets (bucketIdx h')).entry h' K' = some v := he'.trans hv0
      rw [hasHash_of_entry hv0, hasHash_of_entry hv1]
  rw [hro, hfl] at h1
  exact ⟨_, _, _, _, h0, h1⟩

/-- In every reachable state, for every `set(K, V, h)` and every `del(K, h)`, and for every
other pair `(K', h')` that is under another hash or whose key `K'` is present, the slice and
the flag `get` returns for `(K', h')` are the same after the call as before it. The pairs
left out are the absent keys under the hash `h` of the call. -/
theorem other_keys_get_result (s : Storage) (hr : Reachable s) (K V : Bytes) (h : Nat)
    (K' : Bytes) (h' : Nat) (hne : ¬ (h' = h ∧ K' = K))
    (hc : h' ≠ h ∨ s.entry h' K' ≠ none) :
    (∃ s1, s.colSet K V h = some s1 ∧
      ∀ dst, ∃ t t1 out found, s.getAt dst K' h' = some (t, out, found) ∧
        s1.getAt dst K' h' = some (t1, out, found)) ∧
    (∃ s1, s.colDel K h = some s1 ∧
      ∀ dst, ∃ t t1 out found, s.getAt dst K' h' = some (t, out, found) ∧
        s1.getAt dst K' h' = some (t1, out, found)) := by
  obtain ⟨n, hn, hs⟩ := hr.inv
  constructor
  · obtain ⟨s1, hset, hs1, hentry, _⟩ := colSet_effect hs (by omega) K V h
    refine ⟨s1, hset, fun dst => getAt_congr hs (by omega) hs1 (by omega) ?_ ?_ dst⟩
    · rw [hentry, if_neg hne]
    · rcases hc with hh | hp
      · exact Or.inl (fun k => by rw [hentry, if_neg (fun e => hh e.1)])
      · exact Or.inr hp
  · obtain ⟨s1, hdel, hs1, hentry, _⟩ := colDel_effect hs (by omega) K h
    refine ⟨s1, hdel, fun dst => getAt_congr hs (by omega) hs1 (by omega) ?_ ?_ dst⟩
    · rw [hentry, if_neg hne]
    · rcases hc with hh | hp
      · exact Or.inl (fun k => by rw [hentry, if_neg (fun e => hh e.1)])
      · exact Or.inr hp

/-- C9 (other keys are undisturbed), evaluated on a new store for the other pair
`([9], 5)`, whose key is absent throughout. `get(nil, [9], 5)` returns nil and the flag
`false` on the new store, nil and the flag `true` after `set([1, 2], [3], 5)`, and nil and
the flag `false` again after `del([1, 2], 5)`: the set and the del both change the result of
`get` for the other pair. `has([9], 5)` returns `false` in all three states. -/
theorem C9_get_flag_of_other_key_changes :
    (New.getAt none [9] 5).map (fun r => r.2) = some (none, false) ∧
      (New.colSet [1, 2] [3] 5).bind (fun s => (s.getAt none [9] 5).map (fun r => r.2)) =
        some (none, true) ∧
      ((New.colSet [1, 2] [3] 5).bind (fun s => s.colDel [1, 2] 5)).bind
        (fun s => (s.getAt none [9] 5).map (fun r => r.2)) = some (none, false) ∧
      (New.colHas [9] 5).map (fun r => r.2) = some false ∧
      (New.colSet [1, 2] [3] 5).bind (fun s => (s.colHas [9] 5).map (fun r => r.2)) =
        some false ∧
      ((New.colSet [1, 2] [3] 5).bind (fun s => s.colDel [1, 2] 5)).bind
        (fun s => (s.colHas [9] 5).map (fun r => r.2)) = some false := by
  decide

theorem liveBytes_eq_zero_of_liveCount {s : Storage} (h : s.liveCount = 0) :
    s.liveBytes = 0 := by
  unfold Storage.liveCount at h
  unfold Storage.liveBytes
  rw [Finset.sum_eq_zero_iff] at h ⊢
  intro i hi
  have h1 := h i hi
  unfold bucket.liveCount at h1
  unfold bucket.liveBytes
  rw [List.length_eq_zero.1 h1]
  rfl

/-- C10 (byte-size invariant): in every state reachable from `New()` by set, get, has, del
and reset calls, `Size()` is the sum of `len(key) + len(value)` over the live entries, as a
64-bit number: it is that sum reduced modulo `2 ^ 64`, hence the sum itself whenever the sum
is below `2 ^ 64`, and it is 0 when the store is empty. -/
theorem C10_size_invariant (s : Storage) (hr : Reachable s) :
    s.Size = s.liveBytes % 2 ^ 64 ∧ (s.liveBytes < 2 ^ 64 → s.Size = s.liveBytes) ∧
      (s.liveCount = 0 → s.Size = 0) := by
  obtain ⟨n, _, hs⟩ := hr.inv
  have h1 := Storage.Size_eq_liveBytes hs.inv
  refine ⟨h1, fun hfit => by rw [h1, Nat.mod_eq_of_lt hfit], fun h0 => ?_⟩
  rw [h1, liveBytes_eq_zero_of_liveCount h0]
  rfl

theorem C10_size_invariant_witness :
    Reachable (afterOps [Op.set [1] [10, 11] 7, Op.set [2] [] 7, Op.del [1] 7]) ∧
      (afterOps [Op.set [1] [10, 11] 7, Op.set [2] [] 7, Op.del [1] 7]).Size =
        (afterOps [Op.set [1] [10, 11] 7, Op.set [2] [] 7, Op.del [1] 7]).liveBytes % 2 ^ 64 ∧
      ((afterOps [Op.set [1] [10, 11] 7, Op.set [2] [] 7, Op.del [1] 7]).liveBytes < 2 ^ 64 →
        (afterOps [Op.set [1] [10, 11] 7, Op.set [2] [] 7, Op.del [1] 7]).Size =
          (afterOps [Op.set [1] [10, 11] 7, Op.set [2] [] 7, Op.del [1] 7]).liveBytes) ∧
      ((afterOps [Op.set [1] [10, 11] 7, Op.set [2] [] 7, Op.del [1] 7]).liveCount = 0 →
        (afterOps [Op.set [1] [10, 11] 7, Op.set [2] [] 7, Op.del [1] 7]).Size = 0) :=
  ⟨afterOps_reachable (by decide),
    C10_size_invariant (afterOps [Op.set [1] [10, 11] 7, Op.set [2] [] 7, Op.del [1] 7])
      (afterOps_reachable (by decide))⟩

/-! ## The counters after a write -/

theorem set_value_counters (b : bucket) (idx : Nat) (s : Slot) (v : Bytes) :
    (b.set_value idx s v).getCalls = b.getCalls ∧ (b.set_value idx s v).setCalls = b.setCalls ∧
      (b.set_value idx s v).misses = b.misses ∧
      (b.set_value idx s v).collisions = b.collisions := by
  unfold bucket.set_value
  split <;> exact ⟨rfl, rfl, rfl, rfl⟩

theorem readBumps_of_col {b : bucket} {h : Nat} {idxs : List Nat} (k : Bytes)
    (hc : GoMap.lookup h b.col = some idxs) : b.readBumps h k = true := by
  simp [bucket.readBumps, hc]

theorem readBumps_of_primary {b : bucket} {h idx : Nat} (k : Bytes)
    (hc : GoMap.lookup h b.col = none) (hm : GoMap.lookup h b.m = some idx) :
    b.readBumps h k = decide (keyAt b.kv idx ≠ k) := by
  simp [bucket.readBumps, hc, hm]

theorem readBumps_of_none {b : bucket} {h : Nat} (k : Bytes)
    (hc : GoMap.lookup h b.col = none) (hm : GoMap.lookup h b.m = none) :
    b.readBumps h k = false := by
  simp [bucket.readBumps, hc, hm]

/-- The counters after the part of `set` from label `mcheck` on, when `h` is not a key of the
CollisionIndex. -/
theorem set_mcheck_counters {b b' : bucket} (k v : Bytes) {h : Nat}
    (hc : GoMap.lookup h b.col = none) (hs : b.set_mcheck k v h = some b') :
    b'.getCalls = b.getCalls ∧ b'.setCalls = b.setCalls ∧ b'.misses = b.misses ∧
      b'.collisions = if b.readBumps h k then u64 (b.collisions + 1) else b.collisions := by
  unfold bucket.set_mcheck at hs
  cases hm : GoMap.lookup h b.m with
  | some idx =>
    rw [hm] at hs
    dsimp only at hs
    cases hget : b.kv[idx]? with
    | none => rw [hget] at hs; cases hs
    | some s =>
      rw [hget] at hs
      dsimp only at hs
      have hkey : keyAt b.kv idx = s.key.data := by simp [keyAt, slotAt_of_getElem? hget]
      rw [readBumps_of_primary k hc hm, hkey]
      by_cases hk : s.key.data = k
      · rw [if_neg (not_not.2 hk)] at hs
        cases hs
        obtain ⟨h1, h2, h3, h4⟩ := set_value_counters b idx s v
        refine ⟨h1, h2, h3, ?_⟩
        rw [h4]
        simp [hk]
      · rw [if_pos hk] at hs
        cases hs
        refine ⟨rfl, rfl, rfl, ?_⟩
        simp [hk, bucket.set_add]
  | none =>
    rw [hm] at hs
    dsimp only at hs
    rw [readBumps_of_none k hc hm]
    cases hfl : b.free.getLast? with
    | some idx =>
      rw [hfl] at hs
      dsimp only at hs
      cases hget : b.kv[idx]? with
      | none => rw [hget] at hs; cases hs
      | some s =>
        rw [hget] at hs
        cases hs
        exact ⟨rfl, rfl, rfl, rfl⟩
    | none =>
      rw [hfl] at hs
      cases hs
      exact ⟨rfl, rfl, rfl, rfl⟩

/-- The counters after `set`: one more set call, the get calls and misses as before, and one
more collision exactly when the hash is a key of the CollisionIndex, or a key of the
PrimaryIndex whose slot stores another key. -/
theorem set_counters {b b' : bucket} (hb : BInv b) (k v : Bytes) (h : Nat)
    (hs : b.set k v h = some b') :
    b'.getCalls = b.getCalls ∧ b'.setCalls = u64 (b.setCalls + 1) ∧ b'.misses = b.misses ∧
      b'.collisions = if b.readBumps h k then u64 (b.collisions + 1) else b.collisions := by
  unfold bucket.set at hs
  dsimp only at hs
  by_cases hc0 : b.collisions = 0
  · rw [if_neg (not_not.2 hc0)] at hs
    exact @set_mcheck_counters { b with setCalls := u64 (b.setCalls + 1) } b' k v h
      (hb.lookup_col_none hc0 h) hs
  · rw [if_pos hc0] at hs
    cases hcol : GoMap.lookup h b.col with
    | none =>
      rw [hcol] at hs
      dsimp only at hs
      exact @set_mcheck_counters { b with setCalls := u64 (b.setCalls + 1) } b' k v h hcol hs
    | some idxs =>
      rw [hcol] at hs
      dsimp only at hs
      rw [readBumps_of_col k hcol, if_pos rfl]
      cases hscan : scan b.kv k 0 idxs with
      | none => rw [hscan] at hs; cases hs
      | some r =>
        rw [hscan] at hs
        cases r with
        | none =>
          cases hs
          exact ⟨rfl, rfl, rfl, rfl⟩
        | some x =>
          obtain ⟨p, idx, s⟩ := x
          cases hs
          obtain ⟨h1, h2, h3, h4⟩ := set_value_counters
            { b with setCalls := u64 (b.setCalls + 1), collisions := u64 (b.collisions + 1) }
            idx s v
          exact ⟨h1, h2, h3, h4⟩

/-- The counters after the part of `del` from label `mcheck` on, when `h` is not a key of the
CollisionIndex. -/
theorem del_mcheck_counters {b b' : bucket} (k : Bytes) {h : Nat}
    (hc : GoMap.lookup h b.col = none) (hd : b.del_mcheck k h = some b') :
    b'.getCalls = b.getCalls ∧ b'.setCalls = b.setCalls ∧ b'.misses = b.misses ∧
      b'.collisions = if b.readBumps h k then u64 (b.collisions + 1) else b.collisions := by
  unfold bucket.del_mcheck at hd
  cases hm : GoMap.lookup h b.m with
  | none =>
    rw [hm] at hd
    cases hd
    rw [readBumps_of_none k hc hm]
    exact ⟨rfl, rfl, rfl, rfl⟩
  | some idx =>
    rw [hm] at hd
    dsimp only at hd
    cases hget : b.kv[idx]? with
    | none => rw [hget] at hd; cases hd
    | some s =>
      rw [hget] at hd
      dsimp only at hd
      have hkey : keyAt b.kv idx = s.key.data := by simp [keyAt, slotAt_of_getElem? hget]
      rw [readBumps_of_primary k hc hm, hkey]
      by_cases hk : s.key.data = k
      · rw [if_pos hk] at hd
        cases hd
        refine ⟨rfl, rfl, rfl, ?_⟩
        simp [hk, bucket.del_slot]
      · rw [if_neg hk] at hd
        cases hd
        refine ⟨rfl, rfl, rfl, ?_⟩
        simp [hk]

/-- The counters after `del`: the get calls and set calls as before, one more collision
under the same condition as for a read, and one more miss exactly when the hash is a key of
the CollisionIndex and none of its slots stores the key. -/
theorem del_counters {b b' : bucket} (hb : BInv b) (k : Bytes) (h : Nat)
    (hd : b.del k h = some b') :
    b'.getCalls = b.getCalls ∧ b'.setCalls = b.setCalls ∧
      b'.misses = (if (GoMap.lookup h b.col).isSome ∧ b.entry h k = none
        then u64 (b.misses + 1) else b.misses) ∧
      b'.collisions = if b.readBumps h k then u64 (b.collisions + 1) else b.collisions := by
  unfold bucket.del at hd
  by_cases hc0 : b.collisions = 0
  · rw [if_neg (not_not.2 hc0)] at hd
    have hcol := hb.lookup_col_none hc0 h
    obtain ⟨h1, h2, h3, h4⟩ := del_mcheck_counters k hcol hd
    refine ⟨h1, h2, ?_, h4⟩
    rw [h3, hcol]
    simp
  · rw [if_pos hc0] at hd
    cases hcol : GoMap.lookup h b.col with
    | none =>
      rw [hcol] at hd
      dsimp only at hd
      obtain ⟨h1, h2, h3, h4⟩ := del_mcheck_counters k hcol hd
      refine ⟨h1, h2, ?_, h4⟩
      rw [h3]
      simp
    | some idxs =>
      rw [hcol] at hd
      dsimp only at hd
      rw [readBumps_of_col k hcol, if_pos rfl]
      obtain ⟨r, hr, hfind, _, _⟩ := scan_spec b.kv k idxs
        (fun i hi => hb.owns_lt_length (Or.inr ⟨idxs, hcol, hi⟩)) 0
      rw [hr] at hd
      have hentry : b.entry h k =
          (idxs.find? (fun i => decide (keyAt b.kv i = k))).map (valAt b.kv) := by
        simp [bucket.entry, bucket.slotOf, hcol]
      cases r with
      | none =>
        dsimp only at hd
        cases hd
        have hf : idxs.find? (fun i => decide (keyAt b.kv i = k)) = none := by
          rw [← hfind]; rfl
        refine ⟨rfl, rfl, ?_, rfl⟩
        rw [hentry, hf]
        simp
      | some x =>
        obtain ⟨p, idx, s⟩ := x
        have hf : idxs.find? (fun i => decide (keyAt b.kv i = k)) = some idx := by
          rw [← hfind]; rfl
        have hne : ¬ ((some idxs : Option (List Nat)).isSome ∧ b.entry h k = none) := by
          rw [hentry, hf]
          simp
        rw [if_neg hne]
        dsimp only at hd
        cases hlast : idxs.getLast? with
        | none => rw [hlast] at hd; cases hd
        | some last =>
          rw [hlast] at hd
          dsimp only at hd
          split at hd
          · cases hd
            exact ⟨rfl, rfl, rfl, rfl⟩
          · split at hd
            · cases hd
              exact ⟨rfl, rfl, rfl, rfl⟩
            · cases hd


/-! ## `UpdateStats` -/

/-- The loop over `b.col` in `updateStats` changes the field `EntriesCount` only. -/
theorem updateStats_col_loop (col : List (Nat × List Nat)) (s : Stats) :
    col.foldl (fun s e => { s with EntriesCount := u64 (s.EntriesCount + u64 e.2.length) }) s =
      { s with EntriesCount :=
          col.foldl (fun acc e => u64 (acc + u64 e.2.length)) s.EntriesCount } := by
  induction col generalizing s with
  | nil => rfl
  | cons e col ih => rw [List.foldl_cons, ih, List.foldl_cons]

/-- The number `updateStats` adds to `Stats.EntriesCount` for one bucket: the length of the
slab plus the lengths of the lists of the CollisionIndex. -/
theorem updateStats_eq (b : bucket) (s : Stats) :
    b.updateStats s =
      { GetCalls := u64 (s.GetCalls + b.getCalls)
        SetCalls := u64 (s.SetCalls + b.setCalls)
        Misses := u64 (s.Misses + b.misses)
        Collisions := u64 (s.Collisions + b.collisions)
        EntriesCount :=
          u64 (s.EntriesCount + (b.kv.length + (b.col.map (fun e => e.2.length)).sum))
        BytesSize := u64 (s.BytesSize + b.size) } := by
  unfold bucket.updateStats
  dsimp only
  rw [updateStats_col_loop]
  dsimp only
  rw [foldl_u64_u64 (fun e : Nat × List Nat => e.2.length)]
  have : u64 (s.EntriesCount + u64 b.kv.length +
      (List.map (fun e : Nat × List Nat => e.2.length) b.col).sum) =
      u64 (s.EntriesCount + (b.kv.length + (b.col.map (fun e => e.2.length)).sum)) := by
    unfold u64; omega
  rw [this]

theorem foldl_u64_of_ne_nil {α : Type} (f : α → Nat) {l : List α} (hl : l ≠ []) (a : Nat) :
    l.foldl (fun acc i => u64 (acc + f i)) a = u64 (a + (l.map f).sum) := by
  cases l with
  | nil => exact absurd rfl hl
  | cons x l =>
    rw [List.foldl_cons, foldl_u64, List.map_cons, List.sum_cons, Nat.add_assoc]

theorem finRange_bucketsCount_ne_nil : List.finRange bucketsCount ≠ [] := by
  intro h
  have := congrArg List.length h
  simp at this

/-- A field to which `updateStats` adds the quantity `g` of the bucket holds, after
`UpdateStats`, its former value plus the sum of `g` over the buckets, in `uint64`. -/
theorem UpdateStats_field (π : Stats → Nat) (g : bucket → Nat)
    (hπ : ∀ b st, π (bucket.updateStats b st) = u64 (π st + g b)) (s : Storage) (st : Stats) :
    π (s.UpdateStats st) = u64 (π st + ∑ i, g (s.buckets i)) := by
  unfold Storage.UpdateStats
  have key : ∀ (l : List (Fin bucketsCount)) (st : Stats),
      π (l.foldl (fun st i => (s.buckets i).updateStats st) st) =
        l.foldl (fun acc i => u64 (acc + g (s.buckets i))) (π st) := by
    intro l
    induction l with
    | nil => intro st; rfl
    | cons i l ih =>
      intro st
      rw [List.foldl_cons, ih, hπ, List.foldl_cons]
  rw [key, foldl_u64_of_ne_nil _ finRange_bucketsCount_ne_nil, Fin.sum_univ_def]

theorem UpdateStats_GetCalls (s : Storage) (st : Stats) :
    (s.UpdateStats st).GetCalls = u64 (st.GetCalls + ∑ i, (s.buckets i).getCalls) :=
  UpdateStats_field Stats.GetCalls bucket.getCalls (fun b st => by rw [updateStats_eq]) s st

theorem UpdateStats_SetCalls (s : Storage) (st : Stats) :
    (s.UpdateStats st).SetCalls = u64 (st.SetCalls + ∑ i, (s.buckets i).setCalls) :=
  UpdateStats_field Stats.SetCalls bucket.setCalls (fun b st => by rw [updateStats_eq]) s st

theorem UpdateStats_Misses (s : Storage) (st : Stats) :
    (s.UpdateStats st).Misses = u64 (st.Misses + ∑ i, (s.buckets i).misses) :=
  UpdateStats_field Stats.Misses bucket.misses (fun b st => by rw [updateStats_eq]) s st

theorem UpdateStats_Collisions (s : Storage) (st : Stats) :
    (s.UpdateStats st).Collisions = u64 (st.Collisions + ∑ i, (s.buckets i).collisions) :=
  UpdateStats_field Stats.Collisions bucket.collisions (fun b st => by rw [updateStats_eq]) s st

theorem UpdateStats_BytesSize (s : Storage) (st : Stats) :
    (s.UpdateStats st).BytesSize = u64 (st.BytesSize + ∑ i, (s.buckets i).size) :=
  UpdateStats_field Stats.BytesSize bucket.size (fun b st => by rw [updateStats_eq]) s st

theorem UpdateStats_EntriesCount (s : Storage) (st : Stats) :
    (s.UpdateStats st).EntriesCount = u64 (st.EntriesCount +
      ∑ i, ((s.buckets i).kv.length + ((s.buckets i).col.map (fun e => e.2.length)).sum)) :=
  UpdateStats_field Stats.EntriesCount
    (fun b => b.kv.length + (b.col.map (fun e => e.2.length)).sum)
    (fun b st => by rw [updateStats_eq]) s st


/-! ## The new storage -/

theorem New_bucket (i : Fin bucketsCount) : New.buckets i = bucket.zero.init := rfl

theorem New_Size : New.Size = 0 := by
  rw [Storage.Size_eq]
  simp [New_bucket, bucket.init, bucket.zero, u64]

theorem New_Collision : New.Collision = 0 := by
  rw [Storage.Collision_eq]
  simp [New_bucket, bucket.init, bucket.zero, u64]

theorem New_EntriesCount : New.EntriesCount = 0 := by
  rw [Storage.EntriesCount_eq, New_liveCount]
  rfl

/-- A `get` on a new storage returns the destination as it was and the flag `false`. -/
theorem New_getAt (dst : Option Bytes) (k : Bytes) (h : Nat) :
    New.getAt dst k h =
      some (New.put (bucketIdx h) (bucket.zero.init.afterRead h k), dst, false) := by
  simp only [Storage.getAt, New_bucket, get_eq BInv.zero_init, Option.map_some']
  rfl

theorem New_colGet (dst : Option Bytes) (k : Bytes) (h : Nat) :
    New.colGet dst k h =
      some (New.put (bucketIdx h) (bucket.zero.init.afterRead h k), dst) := by
  simp only [Storage.colGet, New_getAt, Option.map_some']

/-- A `has` on a new storage returns `false`. -/
theorem New_colHas (k : Bytes) (h : Nat) :
    New.colHas k h = some (New.put (bucketIdx h) (bucket.zero.init.afterRead h k), false) := by
  simp only [Storage.colHas, New_bucket, has_eq BInv.zero_init, Option.map_some']
  rfl

/-- The number `UpdateStats` adds to `Stats.EntriesCount` on a new storage: the 16 slots of
the slab of each of the 512 buckets. -/
theorem New_UpdateStats_EntriesCount (st : Stats) :
    (New.UpdateStats st).EntriesCount = u64 (st.EntriesCount + 8192) := by
  rw [UpdateStats_EntriesCount]
  have h1 : ∀ i : Fin bucketsCount, (New.buckets i).kv.length +
      ((New.buckets i).col.map (fun e => e.2.length)).sum = 16 := by
    intro i
    simp [New_bucket, bucket.init]
  rw [Finset.sum_congr rfl (fun i _ => h1 i), Finset.sum_const, Finset.card_univ,
    Fintype.card_fin]
  rfl

/-! ## Claims C13 to C15: statistics, reset and the new storage -/

/-- C13: `UpdateStats` accumulates. For every storage and every initial `Stats` value `s0`,
after `UpdateStats` each of `GetCalls`, `SetCalls`, `Misses`, `Collisions` and `BytesSize`
is the field of `s0` plus the sum of that counter over the 512 buckets, in `uint64`
arithmetic. -/
theorem C13_updateStats_accumulates (s : Storage) (s0 : Stats) :
    (s.UpdateStats s0).GetCalls = (s0.GetCalls + ∑ i, (s.buckets i).getCalls) % 2 ^ 64 ∧
      (s.UpdateStats s0).SetCalls = (s0.SetCalls + ∑ i, (s.buckets i).setCalls) % 2 ^ 64 ∧
      (s.UpdateStats s0).Misses = (s0.Misses + ∑ i, (s.buckets i).misses) % 2 ^ 64 ∧
      (s.UpdateStats s0).Collisions =
        (s0.Collisions + ∑ i, (s.buckets i).collisions) % 2 ^ 64 ∧
      (s.UpdateStats s0).BytesSize = (s0.BytesSize + ∑ i, (s.buckets i).size) % 2 ^ 64 :=
  ⟨UpdateStats_GetCalls s s0, UpdateStats_SetCalls s s0, UpdateStats_Misses s s0,
    UpdateStats_Collisions s s0, UpdateStats_BytesSize s s0⟩

/-- C14: `Reset` empties the storage. For every storage, after `Reset` the storage is the one
`New` returns, so every later call behaves as on a new storage; `Size()`, `EntriesCount()`
and `Collision()` are 0; the get-call, set-call and miss counters of every bucket are 0; a
`get` returns the destination unchanged (nil for nil) with the flag `false`, and `has`
returns `false`. -/
theorem C14_reset_empties (s : Storage) :
    s.Reset = New ∧ (∀ ops, s.Reset.run ops = New.run ops) ∧
      s.Reset.Size = 0 ∧ s.Reset.EntriesCount = 0 ∧ s.Reset.Collision = 0 ∧
      (∀ i, (s.Reset.buckets i).getCalls = 0 ∧ (s.Reset.buckets i).setCalls = 0 ∧
        (s.Reset.buckets i).misses = 0) ∧
      (∀ hash dst k, ∃ s', Storage.Get hash s.Reset dst k = some (s', dst)) ∧
      (∀ hash dst k, ∃ s', Storage.HasGet hash s.Reset dst k = some (s', dst, false)) ∧
      (∀ hash k, ∃ s', Storage.Has hash s.Reset k = some (s', false)) ∧
      (∀ dst k h, ∃ s', s.Reset.colGet dst k h = some (s', dst)) ∧
      (∀ k h, ∃ s', s.Reset.colHas k h = some (s', false)) := by
  rw [Storage.Reset_eq]
  refine ⟨rfl, fun _ => rfl, New_Size, New_EntriesCount, New_Collision,
    fun _ => ⟨rfl, rfl, rfl⟩, ?_, ?_, ?_, ?_, ?_⟩
  · intro hash dst k
    exact ⟨_, New_colGet _ k (hash k)⟩
  · intro hash dst k
    exact ⟨_, New_getAt dst k (hash k)⟩
  · intro hash k
    exact ⟨_, New_colHas k (hash k)⟩
  · intro dst k h
    exact ⟨_, New_colGet _ k h⟩
  · intro k h
    exact ⟨_, New_colHas k h⟩

/-- C15: the storage `New` returns is empty. `Size()`, `EntriesCount()` and `Collision()` are
0; for every key a `get` with a nil destination returns nil, `HasGet` returns nil and
`false`, and `Has` returns `false`; there are 512 buckets, each with a slab of 16 slots whose
key and value buffers are empty, empty indices, an empty free list and the append cursor 0. -/
theorem C15_new_is_empty :
    New.Size = 0 ∧ New.EntriesCount = 0 ∧ New.Collision = 0 ∧
      (∀ hash k, ∃ s', Storage.Get hash New none k = some (s', none)) ∧
      (∀ hash k, ∃ s', Storage.HasGet hash New none k = some (s', none, false)) ∧
      (∀ hash k, ∃ s', Storage.Has hash New k = some (s', false)) ∧
      (∀ k h, ∃ s', New.colGet none k h = some (s', none)) ∧
      (∀ k h, ∃ s', New.colHas k h = some (s', false)) ∧
      bucketsCount = 512 ∧
      ∀ i, (New.buckets i).kv.length = 16 ∧
        (∀ sl ∈ (New.buckets i).kv, sl.key.data = [] ∧ sl.val.data = []) ∧
        (New.buckets i).m = [] ∧ (New.buckets i).col = [] ∧
        (New.buckets i).free = [] ∧ (New.buckets i).offset = 0 := by
  refine ⟨New_Size, New_EntriesCount, New_Collision, ?_, ?_, ?_, ?_, ?_, rfl, ?_⟩
  · intro hash k
    exact ⟨_, New_colGet _ k (hash k)⟩
  · intro hash k
    exact ⟨_, New_getAt none k (hash k)⟩
  · intro hash k
    exact ⟨_, New_colHas k (hash k)⟩
  · intro k h
    exact ⟨_, New_colGet _ k h⟩
  · intro k h
    exact ⟨_, New_colHas k h⟩
  · intro i
    refine ⟨by simp [New_bucket, bucket.init], ?_, rfl, rfl, rfl, rfl⟩
    intro sl hsl
    simp only [New_bucket, bucket.init, List.mem_replicate] at hsl
    rw [hsl.2]
    exact ⟨rfl, rfl⟩


/-! ## Induction along a call sequence -/

theorem run_append (s : Storage) (ops ops' : List Op) :
    s.run (ops ++ ops') = (s.run ops).bind (fun s1 => s1.run ops') := by
  induction ops generalizing s with
  | nil => rfl
  | cons op ops ih =>
    simp only [List.cons_append, Storage.run]
    cases s.step op with
    | none => rfl
    | some s1 => exact ih s1

theorem run_singleton (s : Storage) (op : Op) : s.run [op] = s.step op := by
  simp only [Storage.run]
  cases s.step op <;> rfl

/-- A reached storage after one more call. -/
theorem ReachedBy.snoc {ops : List Op} {s s' : Storage} {op : Op} (hr : ReachedBy ops s)
    (hn : ops.length + 1 < 2 ^ 63) (hstep : s.step op = some s') :
    ReachedBy (ops ++ [op]) s' := by
  refine ⟨by simpa using hn, ?_⟩
  rw [run_append, hr.2, Option.some_bind, run_singleton, hstep]

/-- The storage reached by a call sequence with one more call is one step from the storage
reached by the sequence. -/
theorem ReachedBy.of_snoc {ops : List Op} {s' : Storage} {op : Op}
    (hr : ReachedBy (ops ++ [op]) s') :
    ∃ s, ReachedBy ops s ∧ s.step op = some s' := by
  obtain ⟨hn, hrun⟩ := hr
  rw [run_append] at hrun
  simp only [List.length_append, List.length_singleton] at hn
  cases h1 : New.run ops with
  | none => rw [h1] at hrun; cases hrun
  | some s =>
    rw [h1, Option.some_bind, run_singleton] at hrun
    exact ⟨s, ⟨by omega, h1⟩, hrun⟩

/-- Induction over the reached storages: a property of the new storage that every call
preserves holds of every reached storage. -/
theorem ReachedBy.induction {P : List Op → Storage → Prop} (h0 : P [] New)
    (hstep : ∀ ops s op s', ReachedBy ops s → ReachedBy (ops ++ [op]) s' →
      s.step op = some s' → P ops s → P (ops ++ [op]) s')
    {ops : List Op} {s : Storage} (hr : ReachedBy ops s) : P ops s := by
  induction ops using List.reverseRecOn generalizing s with
  | nil =>
    have : s = New := (Option.some.inj hr.2).symm
    rw [this]; exact h0
  | append_singleton ops op ih =>
    obtain ⟨s1, hr1, hs1⟩ := hr.of_snoc
    exact hstep ops s1 op s hr1 hr hs1 (ih hr1)

/-! ## The specification's contents, live pairs and call counts along a call sequence -/

theorem specRun_snoc (ops : List Op) (op : Op) :
    specRun (ops ++ [op]) = specStep (specRun ops) op := by
  simp [specRun, List.foldl_append]

theorem specLive_snoc (ops : List Op) (op : Op) :
    specLive (ops ++ [op]) = specLiveStep (specLive ops) op := by
  simp [specLive, List.foldl_append]

theorem specGetCalls_snoc (ops : List Op) (op : Op) :
    specGetCalls (ops ++ [op]) = specGetCallsStep (specGetCalls ops) op := by
  simp [specGetCalls, List.foldl_append]

theorem specSetCalls_snoc (ops : List Op) (op : Op) :
    specSetCalls (ops ++ [op]) = specSetCallsStep (specSetCalls ops) op := by
  simp [specSetCalls, List.foldl_append]

theorem targets_snoc (ops : List Op) (op : Op) :
    targets (ops ++ [op]) = targets ops ++ (op.target).toList := by
  simp only [targets, List.filterMap_append]
  cases h : op.target <;> simp [List.filterMap, h]

theorem specGetCalls_le (ops : List Op) : specGetCalls ops ≤ ops.length := by
  induction ops using List.reverseRecOn with
  | nil => exact Nat.le_refl 0
  | append_singleton ops op ih =>
    rw [specGetCalls_snoc, List.length_append, List.length_singleton]
    cases op <;> simp only [specGetCallsStep] <;> omega

theorem specSetCalls_le (ops : List Op) : specSetCalls ops ≤ ops.length := by
  induction ops using List.reverseRecOn with
  | nil => exact Nat.le_refl 0
  | append_singleton ops op ih =>
    rw [specSetCalls_snoc, List.length_append, List.length_singleton]
    cases op <;> simp only [specSetCallsStep] <;> omega

/-- The live pairs are listed once each. -/
theorem specLive_nodup (ops : List Op) : (specLive ops).Nodup := by
  induction ops using List.reverseRecOn with
  | nil => exact List.nodup_nil
  | append_singleton ops op ih =>
    rw [specLive_snoc]
    cases op with
    | set k v h =>
      simp only [specLiveStep]
      split
      · exact ih
      · rename_i hmem
        exact List.nodup_cons.2 ⟨hmem, ih⟩
    | get dst k h => exact ih
    | has k h => exact ih
    | del k h => exact ih.erase _
    | reset => exact List.nodup_nil

/-- The live pairs are the pairs to which the specification's contents assign a value. -/
theorem mem_specLive (ops : List Op) (h : Nat) (k : Bytes) :
    (h, k) ∈ specLive ops ↔ specRun ops h k ≠ none := by
  induction ops using List.reverseRecOn generalizing h k with
  | nil => simp [specLive, specRun]
  | append_singleton ops op ih =>
    rw [specLive_snoc, specRun_snoc]
    cases op with
    | set k1 v h1 =>
      simp only [specLiveStep, specStep]
      by_cases he : h = h1 ∧ k = k1
      · rw [if_pos he]
        obtain ⟨e1, e2⟩ := he
        subst e1 e2
        split <;> simp_all
      · rw [if_neg he]
        have hne : (h, k) ≠ (h1, k1) := fun e => he ⟨congrArg Prod.fst e, congrArg Prod.snd e⟩
        split
        · exact ih h k
        · rw [List.mem_cons]
          exact ⟨fun hm => (ih h k).1 (hm.resolve_left hne), fun hm => Or.inr ((ih h k).2 hm)⟩
    | get dst k1 h1 => exact ih h k
    | has k1 h1 => exact ih h k
    | del k1 h1 =>
      simp only [specLiveStep, specStep]
      by_cases he : h = h1 ∧ k = k1
      · rw [if_pos he]
        obtain ⟨e1, e2⟩ := he
        subst e1 e2
        simp only [ne_eq, not_true_eq_false, iff_false]
        exact (specLive_nodup ops).not_mem_erase
      · rw [if_neg he]
        have hne : (h, k) ≠ (h1, k1) := fun e => he ⟨congrArg Prod.fst e, congrArg Prod.snd e⟩
        rw [List.mem_erase_of_ne hne]
        exact ih h k
    | reset => simp [specLiveStep, specStep]

/-- A pair to which the specification's contents assign a value was presented by a call. -/
theorem specRun_target (ops : List Op) (h : Nat) (k : Bytes) (he : specRun ops h k ≠ none) :
    (h, k) ∈ targets ops := by
  induction ops using List.reverseRecOn generalizing h k with
  | nil => exact absurd rfl he
  | append_singleton ops op ih =>
    rw [specRun_snoc] at he
    rw [targets_snoc, List.mem_append]
    cases op with
    | set k1 v h1 =>
      simp only [specStep] at he
      by_cases hhk : h = h1 ∧ k = k1
      · right
        simp [Op.target, hhk.1, hhk.2]
      · rw [if_neg hhk] at he
        exact Or.inl (ih h k he)
    | get dst k1 h1 => exact Or.inl (ih h k he)
    | has k1 h1 => exact Or.inl (ih h k he)
    | del k1 h1 =>
      simp only [specStep] at he
      by_cases hhk : h = h1 ∧ k = k1
      · rw [if_pos hhk] at he
        exact absurd rfl he
      · rw [if_neg hhk] at he
        exact Or.inl (ih h k he)
    | reset => exact absurd rfl he


/-! ## The number of live entries along a call sequence -/

/-- The storage after a `get` or `has` call. -/
theorem step_read {n : Nat} {s s' : Storage} (hs : SInv n s) (hn : n + 1 < 2 ^ 64) {op : Op}
    {k : Bytes} {h : Nat} (hop : (∃ dst, op = .get dst k h) ∨ op = .has k h)
    (hstep : s.step op = some s') :
    s' = s.put (bucketIdx h) ((s.buckets (bucketIdx h)).afterRead h k) := by
  rcases hop with ⟨dst, rfl⟩ | rfl
  · simp only [Storage.step, (getAt_spec hs hn dst k h).1, Option.map_some'] at hstep
    exact (Option.some.inj hstep).symm
  · simp only [Storage.step, colHas_spec hs k h, Option.map_some'] at hstep
    exact (Option.some.inj hstep).symm

/-- In a reached storage the number of live entries is the number of (hash, key) pairs that
have been set and not deleted since. -/
theorem liveCount_eq_specLive {ops : List Op} {s : Storage} (hr : ReachedBy ops s) :
    s.liveCount = (specLive ops).length := by
  refine ReachedBy.induction (P := fun ops s => s.liveCount = (specLive ops).length)
    New_liveCount ?_ hr
  intro ops s op s' hr _ hstep ih
  obtain ⟨hs, hentry⟩ := hr.spec
  have hn := hr.1
  rw [specLive_snoc]
  cases op with
  | set k v h =>
    obtain ⟨s1, hset, _, _, hcount, _⟩ := colSet_effect hs (by omega) k v h
    have : s1 = s' := Option.some.inj (hset.symm.trans hstep)
    subst this
    rw [hcount, hentry, ih]
    simp only [specLiveStep]
    by_cases hm : (h, k) ∈ specLive ops
    · rw [if_pos hm, if_neg ((mem_specLive ops h k).1 hm)]
      rfl
    · rw [if_neg hm, if_pos (not_not.1 (fun hne => hm ((mem_specLive ops h k).2 hne)))]
      rfl
  | get dst k h =>
    rw [step_read hs (by omega) (Or.inl ⟨dst, rfl⟩) hstep, (read_effect s h k).1, ih]
    rfl
  | has k h =>
    rw [step_read hs (by omega) (Or.inr rfl) hstep, (read_effect s h k).1, ih]
    rfl
  | del k h =>
    obtain ⟨s1, hdel, _, _, hcount, _⟩ := colDel_effect hs (by omega) k h
    have : s1 = s' := Option.some.inj (hdel.symm.trans hstep)
    subst this
    rw [hentry, ih] at hcount
    simp only [specLiveStep]
    by_cases hm : (h, k) ∈ specLive ops
    · rw [if_neg ((mem_specLive ops h k).1 hm)] at hcount
      rw [List.length_erase_of_mem hm]
      omega
    · rw [if_pos (not_not.1 (fun hne => hm ((mem_specLive ops h k).2 hne)))] at hcount
      rw [List.erase_of_not_mem hm]
      omega
  | reset =>
    have : s' = New := by
      have := Option.some.inj hstep
      rw [← this]; exact Storage.Reset_eq s
    rw [this]
    exact New_liveCount

/-! ## Claim C11: the number of entries -/

/-- C11: `EntriesCount()` is the number of live entries. After every sequence of fewer than
`2 ^ 63` calls on a new storage the calls have returned and `EntriesCount()` is the number of
distinct (hash, key) pairs that have been set and not deleted since; these pairs are the ones
to which the contents assign a value. In the reached state a `set` raises `EntriesCount()` by
1 when the key is absent and leaves it unchanged when the key is present, and a `del` lowers
it by 1 when the key is present and leaves it unchanged when the key is absent. -/
theorem C11_entries_count (ops : List Op) (hn : ops.length < 2 ^ 63) :
    ∃ s, New.run ops = some s ∧ s.EntriesCount = (specLive ops).length ∧
      (specLive ops).Nodup ∧
      (∀ h k, (h, k) ∈ specLive ops ↔ specRun ops h k ≠ none) ∧
      (∀ k v h, ∃ s1, s.colSet k v h = some s1 ∧
        s1.EntriesCount = s.EntriesCount + (if specRun ops h k = none then 1 else 0)) ∧
      (∀ k h, ∃ s1, s.colDel k h = some s1 ∧
        s1.EntriesCount + (if specRun ops h k = none then 0 else 1) = s.EntriesCount) := by
  obtain ⟨s, hr⟩ := run_total ops hn
  obtain ⟨hs, hentry⟩ := hr.spec
  refine ⟨s, hr.2, ?_, specLive_nodup ops, mem_specLive ops, ?_, ?_⟩
  · rw [hs.EntriesCount (by omega), liveCount_eq_specLive hr]
  · intro k v h
    obtain ⟨s1, hset, hs1, _, hcount, _⟩ := colSet_effect hs (by omega) k v h
    refine ⟨s1, hset, ?_⟩
    rw [hs1.EntriesCount (by omega), hs.EntriesCount (by omega), hcount, hentry]
  · intro k h
    obtain ⟨s1, hdel, hs1, _, hcount, _⟩ := colDel_effect hs (by omega) k h
    refine ⟨s1, hdel, ?_⟩
    rw [hs1.EntriesCount (by omega), hs.EntriesCount (by omega), ← hcount, hentry]

theorem C11_entries_count_witness :
    [Op.set [1] [2] 7, Op.set [3] [4] 519, Op.set [1] [5] 7, Op.del [3] 519,
        Op.del [9] 7].length < 2 ^ 63 ∧
      ∃ s, New.run [Op.set [1] [2] 7, Op.set [3] [4] 519, Op.set [1] [5] 7, Op.del [3] 519,
          Op.del [9] 7] = some s ∧
        s.EntriesCount = (specLive [Op.set [1] [2] 7, Op.set [3] [4] 519, Op.set [1] [5] 7,
          Op.del [3] 519, Op.del [9] 7]).length ∧
        (specLive [Op.set [1] [2] 7, Op.set [3] [4] 519, Op.set [1] [5] 7, Op.del [3] 519,
          Op.del [9] 7]).Nodup ∧
        (∀ h k, (h, k) ∈ specLive [Op.set [1] [2] 7, Op.set [3] [4] 519, Op.set [1] [5] 7,
            Op.del [3] 519, Op.del [9] 7] ↔
          specRun [Op.set [1] [2] 7, Op.set [3] [4] 519, Op.set [1] [5] 7, Op.del [3] 519,
            Op.del [9] 7] h k ≠ none) ∧
        (∀ k v h, ∃ s1, s.colSet k v h = some s1 ∧
          s1.EntriesCount = s.EntriesCount +
            (if specRun [Op.set [1] [2] 7, Op.set [3] [4] 519, Op.set [1] [5] 7,
              Op.del [3] 519, Op.del [9] 7] h k = none then 1 else 0)) ∧
        (∀ k h, ∃ s1, s.colDel k h = some s1 ∧
          s1.EntriesCount +
            (if specRun [Op.set [1] [2] 7, Op.set [3] [4] 519, Op.set [1] [5] 7,
              Op.del [3] 519, Op.del [9] 7] h k = none then 0 else 1) = s.EntriesCount) :=
  ⟨by decide, C11_entries_count _ (by decide)⟩


/-! ## The call counters along a call sequence -/

theorem le_sum_buckets (g : bucket → Nat) (s : Storage) (i : Fin bucketsCount) :
    g (s.buckets i) ≤ ∑ j, g (s.buckets j) :=
  Finset.single_le_sum (f := fun j => g (s.buckets j)) (fun _ _ => Nat.zero_le _)
    (Finset.mem_univ i)

theorem sum_put_same (g : bucket → Nat) (s : Storage) (i : Fin bucketsCount) {b : bucket}
    (hg : g b = g (s.buckets i)) : (∑ j, g ((s.put i b).buckets j)) = ∑ j, g (s.buckets j) := by
  have := sum_put g s i b
  omega

theorem sum_put_succ (g : bucket → Nat) (s : Storage) (i : Fin bucketsCount) {b : bucket}
    (hg : g b = g (s.buckets i) + 1) :
    (∑ j, g ((s.put i b).buckets j)) = (∑ j, g (s.buckets j)) + 1 := by
  have := sum_put g s i b
  omega

/-- The bucket a `set` produces, with its counters. -/
theorem colSet_counters {n : Nat} {s : Storage} (hs : SInv n s) (hn : n + 1 < 2 ^ 64)
    (k v : Bytes) (h : Nat) :
    ∃ b', s.colSet k v h = some (s.put (bucketIdx h) b') ∧
      b'.getCalls = (s.buckets (bucketIdx h)).getCalls ∧
      b'.setCalls = u64 ((s.buckets (bucketIdx h)).setCalls + 1) ∧
      b'.misses = (s.buckets (bucketIdx h)).misses ∧
      b'.collisions = (if (s.buckets (bucketIdx h)).readBumps h k
        then u64 ((s.buckets (bucketIdx h)).collisions + 1)
        else (s.buckets (bucketIdx h)).collisions) := by
  obtain ⟨b', hset, hcol, _, _⟩ := colSet_spec hs hn k v h
  exact ⟨b', hcol, set_counters (hs.inv _) k v h hset⟩

/-- The bucket a `del` produces, with its counters. -/
theorem colDel_counters {n : Nat} {s : Storage} (hs : SInv n s) (hn : n + 1 < 2 ^ 64)
    (k : Bytes) (h : Nat) :
    ∃ b', s.colDel k h = some (s.put (bucketIdx h) b') ∧
      b'.getCalls = (s.buckets (bucketIdx h)).getCalls ∧
      b'.setCalls = (s.buckets (bucketIdx h)).setCalls ∧
      b'.misses = (if (GoMap.lookup h (s.buckets (bucketIdx h)).col).isSome ∧
          (s.buckets (bucketIdx h)).entry h k = none
        then u64 ((s.buckets (bucketIdx h)).misses + 1) else (s.buckets (bucketIdx h)).misses) ∧
      b'.collisions = (if (s.buckets (bucketIdx h)).readBumps h k
        then u64 ((s.buckets (bucketIdx h)).collisions + 1)
        else (s.buckets (bucketIdx h)).collisions) := by
  obtain ⟨b', hdel, hcol, _, _⟩ := colDel_spec hs hn k h
  exact ⟨b', hcol, del_counters (hs.inv _) k h hdel⟩

theorem u64_succ_le {m n : Nat} (h : m ≤ n) : u64 (m + 1) ≤ n + 1 := by
  unfold u64
  exact le_trans (Nat.mod_le _ _) (Nat.succ_le_succ h)

/-- In a reached storage the get-call counters of the buckets add up to the number of `get`
and `has` calls, the set-call counters to the number of `set` calls, and no miss counter
exceeds the number of calls. -/
theorem counters_reached {ops : List Op} {s : Storage} (hr : ReachedBy ops s) :
    (∑ i, (s.buckets i).getCalls) = specGetCalls ops ∧
      (∑ i, (s.buckets i).setCalls) = specSetCalls ops ∧
      ∀ i, (s.buckets i).misses ≤ ops.length := by
  refine ReachedBy.induction (P := fun ops s =>
    (∑ i, (s.buckets i).getCalls) = specGetCalls ops ∧
      (∑ i, (s.buckets i).setCalls) = specSetCalls ops ∧
      ∀ i, (s.buckets i).misses ≤ ops.length) ?_ ?_ hr
  · refine ⟨?_, ?_, fun i => Nat.le_refl 0⟩
    · exact Finset.sum_eq_zero (fun i _ => rfl)
    · exact Finset.sum_eq_zero (fun i _ => rfl)
  intro ops s op s' hr _ hstep ih
  obtain ⟨hg, hsc, hm⟩ := ih
  obtain ⟨hs, _⟩ := hr.spec
  have hn := hr.1
  have hlen : (ops ++ [op]).length = ops.length + 1 := by simp
  rw [specGetCalls_snoc, specSetCalls_snoc, hlen]
  have hread : ∀ (k : Bytes) (h : Nat),
      s' = s.put (bucketIdx h) ((s.buckets (bucketIdx h)).afterRead h k) →
      (∑ i, (s'.buckets i).getCalls) = specGetCalls ops + 1 ∧
        (∑ i, (s'.buckets i).setCalls) = specSetCalls ops ∧
        ∀ i, (s'.buckets i).misses ≤ ops.length + 1 := by
    intro k h e
    rw [e]
    have hgb := le_sum_buckets bucket.getCalls s (bucketIdx h)
    have hgl := specGetCalls_le ops
    refine ⟨?_, ?_, ?_⟩
    · rw [← hg]
      apply sum_put_succ bucket.getCalls
      simp only [bucket.afterRead]
      exact u64_of_lt (by omega)
    · rw [← hsc]
      exact sum_put_same bucket.setCalls s _ rfl
    · intro i
      by_cases hi : i = bucketIdx h
      · rw [hi, put_same]
        simp only [bucket.afterRead]
        split
        · exact u64_succ_le (hm _)
        · exact le_trans (hm _) (Nat.le_succ _)
      · rw [put_other s _ hi]
        exact le_trans (hm i) (Nat.le_succ _)
  cases op with
  | set k v h =>
    obtain ⟨b', hset, h1, h2, h3, _⟩ := colSet_counters hs (by omega) k v h
    have : s' = s.put (bucketIdx h) b' := Option.some.inj (hstep.symm.trans hset)
    rw [this]
    have hsb := le_sum_buckets bucket.setCalls s (bucketIdx h)
    have hsl := specSetCalls_le ops
    refine ⟨?_, ?_, ?_⟩
    · rw [← hg]
      exact sum_put_same bucket.getCalls s _ h1
    · simp only [specSetCallsStep]
      rw [← hsc]
      apply sum_put_succ bucket.setCalls
      rw [h2]
      exact u64_of_lt (by omega)
    · intro i
      by_cases hi : i = bucketIdx h
      · rw [hi, put_same, h3]
        exact le_trans (hm _) (Nat.le_succ _)
      · rw [put_other s _ hi]
        exact le_trans (hm i) (Nat.le_succ _)
  | get dst k h => exact hread k h (step_read hs (by omega) (Or.inl ⟨dst, rfl⟩) hstep)
  | has k h => exact hread k h (step_read hs (by omega) (Or.inr rfl) hstep)
  | del k h =>
    obtain ⟨b', hdel, h1, h2, h3, _⟩ := colDel_counters hs (by omega) k h
    have : s' = s.put (bucketIdx h) b' := Option.some.inj (hstep.symm.trans hdel)
    rw [this]
    refine ⟨?_, ?_, ?_⟩
    · rw [← hg]
      exact sum_put_same bucket.getCalls s _ h1
    · rw [← hsc]
      exact sum_put_same bucket.setCalls s _ h2
    · intro i
      by_cases hi : i = bucketIdx h
      · rw [hi, put_same, h3]
        split
        · exact u64_succ_le (hm _)
        · exact le_trans (hm _) (Nat.le_succ _)
      · rw [put_other s _ hi]
        exact le_trans (hm i) (Nat.le_succ _)
  | reset =>
    have : s' = New := by
      have := Option.some.inj hstep
      rw [← this]; exact Storage.Reset_eq s
    rw [this]
    refine ⟨?_, ?_, fun i => Nat.zero_le _⟩
    · exact Finset.sum_eq_zero (fun i _ => rfl)
    · exact Finset.sum_eq_zero (fun i _ => rfl)


/-! ## Claims C16 and C17: the call counters and the miss counter -/

/-- The counters of the bucket after a read in a reached storage. -/
theorem read_counters {ops : List Op} {s : Storage} (hr : ReachedBy ops s) (k : Bytes)
    (h : Nat) :
    ((s.buckets (bucketIdx h)).afterRead h k).getCalls =
        (s.buckets (bucketIdx h)).getCalls + 1 ∧
      ((s.buckets (bucketIdx h)).afterRead h k).setCalls = (s.buckets (bucketIdx h)).setCalls ∧
      ((s.buckets (bucketIdx h)).afterRead h k).misses =
        (s.buckets (bucketIdx h)).misses + (if specRun ops h k = none then 1 else 0) := by
  obtain ⟨hg, _, hm⟩ := counters_reached hr
  obtain ⟨_, hentry⟩ := hr.spec
  have hn := hr.1
  have hgb := le_sum_buckets bucket.getCalls s (bucketIdx h)
  have hgl := specGetCalls_le ops
  have hmb := hm (bucketIdx h)
  have he : (s.buckets (bucketIdx h)).entry h k = specRun ops h k := hentry h k
  refine ⟨?_, rfl, ?_⟩
  · simp only [bucket.afterRead]
    exact u64_of_lt (by omega)
  · simp only [bucket.afterRead]
    rw [he]
    split
    · exact u64_of_lt (by omega)
    · rfl

/-- C16: the call counters are exact. In every reached storage a `get` (also through
`HasGet`) and a `has` raise the get-call counter of their bucket by exactly 1 and leave its
set-call counter and the other buckets as they were; a `set` raises the set-call counter of
its bucket by exactly 1 and leaves its get-call counter and the other buckets as they were; a
`del` leaves both counters of every bucket as they were. After a call sequence on a new
storage `UpdateStats` into a zeroed `Stats` reports the number of `get` and `has` calls as
`GetCalls` and the number of `set` calls as `SetCalls` (counted from the last `reset`). -/
theorem C16_call_counters_exact (ops : List Op) (s : Storage) (hr : ReachedBy ops s) :
    (∀ dst k h, ∃ s1 out found, s.getAt dst k h = some (s1, out, found) ∧
        (s1.buckets (bucketIdx h)).getCalls = (s.buckets (bucketIdx h)).getCalls + 1 ∧
        (s1.buckets (bucketIdx h)).setCalls = (s.buckets (bucketIdx h)).setCalls ∧
        ∀ j, j ≠ bucketIdx h → s1.buckets j = s.buckets j) ∧
      (∀ k h, ∃ s1 r, s.colHas k h = some (s1, r) ∧
        (s1.buckets (bucketIdx h)).getCalls = (s.buckets (bucketIdx h)).getCalls + 1 ∧
        (s1.buckets (bucketIdx h)).setCalls = (s.buckets (bucketIdx h)).setCalls ∧
        ∀ j, j ≠ bucketIdx h → s1.buckets j = s.buckets j) ∧
      (∀ k v h, ∃ s1, s.colSet k v h = some s1 ∧
        (s1.buckets (bucketIdx h)).setCalls = (s.buckets (bucketIdx h)).setCalls + 1 ∧
        (s1.buckets (bucketIdx h)).getCalls = (s.buckets (bucketIdx h)).getCalls ∧
        ∀ j, j ≠ bucketIdx h → s1.buckets j = s.buckets j) ∧
      (∀ k h, ∃ s1, s.colDel k h = some s1 ∧
        ∀ j, (s1.buckets j).getCalls = (s.buckets j).getCalls ∧
          (s1.buckets j).setCalls = (s.buckets j).setCalls) ∧
      (s.UpdateStats Stats.zero).GetCalls = specGetCalls ops ∧
      (s.UpdateStats Stats.zero).SetCalls = specSetCalls ops := by
  obtain ⟨hs, _⟩ := hr.spec
  obtain ⟨hg, hsc, _⟩ := counters_reached hr
  have hn := hr.1
  have hgl := specGetCalls_le ops
  have hsl := specSetCalls_le ops
  refine ⟨?_, ?_, ?_, ?_, ?_, ?_⟩
  · intro dst k h
    obtain ⟨h1, h2, _⟩ := read_counters hr k h
    refine ⟨_, _, _, (getAt_spec hs (by omega) dst k h).1, ?_, ?_, ?_⟩
    · rw [put_same]; exact h1
    · rw [put_same]; exact h2
    · intro j hj
      exact put_other s _ hj
  · intro k h
    obtain ⟨h1, h2, _⟩ := read_counters hr k h
    refine ⟨_, _, colHas_spec hs k h, ?_, ?_, ?_⟩
    · rw [put_same]; exact h1
    · rw [put_same]; exact h2
    · intro j hj
      exact put_other s _ hj
  · intro k v h
    obtain ⟨b', hset, h1, h2, _⟩ := colSet_counters hs (by omega) k v h
    have hsb := le_sum_buckets bucket.setCalls s (bucketIdx h)
    refine ⟨_, hset, ?_, ?_, ?_⟩
    · rw [put_same, h2]
      exact u64_of_lt (by omega)
    · rw [put_same, h1]
    · intro j hj
      exact put_other s _ hj
  · intro k h
    obtain ⟨b', hdel, h1, h2, _⟩ := colDel_counters hs (by omega) k h
    refine ⟨_, hdel, ?_⟩
    intro j
    by_cases hj : j = bucketIdx h
    · rw [hj, put_same]
      exact ⟨h1, h2⟩
    · rw [put_other s _ hj]
      exact ⟨rfl, rfl⟩
  · rw [UpdateStats_GetCalls, hg]
    have h0 : Stats.zero.GetCalls = 0 := rfl
    rw [h0, Nat.zero_add]
    exact u64_of_lt (by omega)
  · rw [UpdateStats_SetCalls, hsc]
    have h0 : Stats.zero.SetCalls = 0 := rfl
    rw [h0, Nat.zero_add]
    exact u64_of_lt (by omega)

/-- C17: the miss counter counts the failed lookups. In every reached storage a `get` (also
through `HasGet`) and a `has` raise the miss counter of their bucket by exactly 1 when the
key is absent and leave it as it was when the key is present, whether the hash is a key of
the PrimaryIndex or of the CollisionIndex, and leave the other buckets as they were; a `set`
leaves the miss counter of every bucket as it was. -/
theorem C17_misses_exact (ops : List Op) (s : Storage) (hr : ReachedBy ops s) :
    (∀ dst k h, ∃ s1 out found, s.getAt dst k h = some (s1, out, found) ∧
        (s1.buckets (bucketIdx h)).misses =
          (s.buckets (bucketIdx h)).misses + (if specRun ops h k = none then 1 else 0) ∧
        ∀ j, j ≠ bucketIdx h → s1.buckets j = s.buckets j) ∧
      (∀ k h, ∃ s1 r, s.colHas k h = some (s1, r) ∧
        (s1.buckets (bucketIdx h)).misses =
          (s.buckets (bucketIdx h)).misses + (if specRun ops h k = none then 1 else 0) ∧
        ∀ j, j ≠ bucketIdx h → s1.buckets j = s.buckets j) ∧
      (∀ k v h, ∃ s1, s.colSet k v h = some s1 ∧
        ∀ j, (s1.buckets j).misses = (s.buckets j).misses) := by
  obtain ⟨hs, _⟩ := hr.spec
  have hn := hr.1
  refine ⟨?_, ?_, ?_⟩
  · intro dst k h
    obtain ⟨_, _, h3⟩ := read_counters hr k h
    refine ⟨_, _, _, (getAt_spec hs (by omega) dst k h).1, ?_, ?_⟩
    · rw [put_same]; exact h3
    · intro j hj
      exact put_other s _ hj
  · intro k h
    obtain ⟨_, _, h3⟩ := read_counters hr k h
    refine ⟨_, _, colHas_spec hs k h, ?_, ?_⟩
    · rw [put_same]; exact h3
    · intro j hj
      exact put_other s _ hj
  · intro k v h
    obtain ⟨b', hset, _, _, h3, _⟩ := colSet_counters hs (by omega) k v h
    refine ⟨_, hset, ?_⟩
    intro j
    by_cases hj : j = bucketIdx h
    · rw [hj, put_same]
      exact h3
    · rw [put_other s _ hj]

theorem C16_call_counters_exact_witness :
    ReachedBy [Op.set [1] [2] 7, Op.get none [1] 7, Op.has [9] 7, Op.set [1] [2] 7,
        Op.del [1] 7]
      (afterOps [Op.set [1] [2] 7, Op.get none [1] 7, Op.has [9] 7, Op.set [1] [2] 7,
        Op.del [1] 7]) ∧
      ((afterOps [Op.set [1] [2] 7, Op.get none [1] 7, Op.has [9] 7, Op.set [1] [2] 7,
        Op.del [1] 7]).UpdateStats Stats.zero).GetCalls = 2 ∧
      ((afterOps [Op.set [1] [2] 7, Op.get none [1] 7, Op.has [9] 7, Op.set [1] [2] 7,
        Op.del [1] 7]).UpdateStats Stats.zero).SetCalls = 2 :=
  ⟨afterOps_reached (by decide),
    (C16_call_counters_exact _ _ (afterOps_reached (by decide))).2.2.2.2.1.trans (by decide),
    (C16_call_counters_exact _ _ (afterOps_reached (by decide))).2.2.2.2.2.trans (by decide)⟩

theorem C17_misses_exact_witness :
    ReachedBy [Op.set [1] [2] 7, Op.set [3] [4] 7, Op.set [5] [6] 8]
        (afterOps [Op.set [1] [2] 7, Op.set [3] [4] 7, Op.set [5] [6] 8]) ∧
      ((afterOps [Op.set [1] [2] 7, Op.set [3] [4] 7, Op.set [5] [6] 8]).buckets
        (bucketIdx 7)).col = [(7, [0, 1])] ∧
      ((afterOps [Op.set [1] [2] 7, Op.set [3] [4] 7, Op.set [5] [6] 8]).buckets
        (bucketIdx 8)).m = [(8, 0)] ∧
      specRun [Op.set [1] [2] 7, Op.set [3] [4] 7, Op.set [5] [6] 8] 7 [9] = none ∧
      specRun [Op.set [1] [2] 7, Op.set [3] [4] 7, Op.set [5] [6] 8] 7 [3] ≠ none ∧
      specRun [Op.set [1] [2] 7, Op.set [3] [4] 7, Op.set [5] [6] 8] 8 [9] = none ∧
      specRun [Op.set [1] [2] 7, Op.set [3] [4] 7, Op.set [5] [6] 8] 8 [5] ≠ none ∧
      (∀ dst k h, ∃ s1 out found,
        (afterOps [Op.set [1] [2] 7, Op.set [3] [4] 7, Op.set [5] [6] 8]).getAt dst k h =
          some (s1, out, found) ∧
        (s1.buckets (bucketIdx h)).misses =
          ((afterOps [Op.set [1] [2] 7, Op.set [3] [4] 7, Op.set [5] [6] 8]).buckets
            (bucketIdx h)).misses +
          (if specRun [Op.set [1] [2] 7, Op.set [3] [4] 7, Op.set [5] [6] 8] h k = none
            then 1 else 0) ∧
        ∀ j, j ≠ bucketIdx h → s1.buckets j =
          (afterOps [Op.set [1] [2] 7, Op.set [3] [4] 7, Op.set [5] [6] 8]).buckets j) :=
  ⟨afterOps_reached (by decide), by decide, by decide, by decide, by decide, by decide,
    by decide,
    (C17_misses_exact _ _ (afterOps_reached (by decide))).1⟩


/-! ## The collision counter along a call sequence -/

/-- The entry under hash `h` when `h` is a key of the PrimaryIndex only. -/
theorem entry_primary {b : bucket} {h idx : Nat} (hc : GoMap.lookup h b.col = none)
    (hm : GoMap.lookup h b.m = some idx) :
    b.entry h (keyAt b.kv idx) = some (valAt b.kv idx) := by
  simp [bucket.entry, bucket.slotOf, hc, hm]

/-- No collision is counted for `(h, k)` when the CollisionIndex is empty and `k` is the only
key that can have an entry under `h`. -/
theorem readBumps_eq_false {b : bucket} {h : Nat} {k : Bytes} (hcol : b.col = [])
    (hk : ∀ k', b.entry h k' ≠ none → k' = k) : b.readBumps h k = false := by
  have hc : GoMap.lookup h b.col = none := by rw [hcol]; rfl
  cases hm : GoMap.lookup h b.m with
  | none => exact readBumps_of_none k hc hm
  | some idx =>
    rw [readBumps_of_primary k hc hm]
    have := hk (keyAt b.kv idx) (by rw [entry_primary hc hm]; exact Option.some_ne_none _)
    simp [this]

/-- Two distinct keys with an entry under the same hash: the hash is a key of the
CollisionIndex. -/
theorem col_ne_nil_of_two_keys {b : bucket} {h : Nat} {k1 k2 : Bytes} (hne : k1 ≠ k2)
    (h1 : b.entry h k1 ≠ none) (h2 : b.entry h k2 ≠ none) : b.col ≠ [] := by
  intro hcol
  have hc : GoMap.lookup h b.col = none := by rw [hcol]; rfl
  simp only [bucket.entry, bucket.slotOf, hc] at h1 h2
  cases hm : GoMap.lookup h b.m with
  | none => simp [hm] at h1
  | some idx =>
    simp only [hm] at h1 h2
    by_cases e1 : keyAt b.kv idx = k1
    · by_cases e2 : keyAt b.kv idx = k2
      · exact hne (e1.symm.trans e2)
      · simp [e2] at h2
    · simp [e1] at h1

theorem targets_append (ops ops' : List Op) :
    targets (ops ++ ops') = targets ops ++ targets ops' := by
  simp [targets, List.filterMap_append]

theorem HashDeterminesKey.of_append {ops ops' : List Op} (hk : HashDeterminesKey (ops ++ ops')) :
    HashDeterminesKey ops := by
  intro p hp q hq
  apply hk p _ q _
  · rw [targets_append]; exact List.mem_append_left _ hp
  · rw [targets_append]; exact List.mem_append_left _ hq

/-- The collision counters of the buckets after one call that is not `reset`: the counter
of the bucket of the call has one more collision under `readBumps`, the others are as they
were. -/
theorem step_collisions {n : Nat} {s s' : Storage} (hs : SInv n s) (hn : n + 1 < 2 ^ 64)
    {op : Op} {h : Nat} {k : Bytes} (ht : op.target = some (h, k))
    (hstep : s.step op = some s') (i : Fin bucketsCount) :
    (s'.buckets i).collisions =
      if i = bucketIdx h ∧ (s.buckets (bucketIdx h)).readBumps h k = true
      then (s.buckets i).collisions + 1 else (s.buckets i).collisions := by
  have hcb := hs.colBound (bucketIdx h)
  have hu : u64 ((s.buckets (bucketIdx h)).collisions + 1) =
      (s.buckets (bucketIdx h)).collisions + 1 := u64_of_lt (by omega)
  have key : ∀ b' : bucket, s' = s.put (bucketIdx h) b' →
      b'.collisions = (if (s.buckets (bucketIdx h)).readBumps h k
        then u64 ((s.buckets (bucketIdx h)).collisions + 1)
        else (s.buckets (bucketIdx h)).collisions) →
      (s'.buckets i).collisions =
        if i = bucketIdx h ∧ (s.buckets (bucketIdx h)).readBumps h k = true
        then (s.buckets i).collisions + 1 else (s.buckets i).collisions := by
    intro b' e hb'
    rw [e]
    by_cases hi : i = bucketIdx h
    · rw [hi, put_same, hb', hu]
      by_cases hr : (s.buckets (bucketIdx h)).readBumps h k = true
      · rw [if_pos hr, if_pos ⟨rfl, hr⟩]
      · rw [if_neg hr, if_neg (fun e => hr e.2)]
    · rw [put_other s _ hi, if_neg (fun e => hi e.1)]
  cases op with
  | set k1 v h1 =>
    simp only [Op.target, Option.some.injEq, Prod.mk.injEq] at ht
    obtain ⟨rfl, rfl⟩ := ht
    obtain ⟨b', hset, _, _, _, h4⟩ := colSet_counters hs hn k1 v h1
    exact key b' (Option.some.inj (hstep.symm.trans hset)) h4
  | get dst k1 h1 =>
    simp only [Op.target, Option.some.injEq, Prod.mk.injEq] at ht
    obtain ⟨rfl, rfl⟩ := ht
    exact key _ (step_read hs hn (Or.inl ⟨dst, rfl⟩) hstep) rfl
  | has k1 h1 =>
    simp only [Op.target, Option.some.injEq, Prod.mk.injEq] at ht
    obtain ⟨rfl, rfl⟩ := ht
    exact key _ (step_read hs hn (Or.inr rfl) hstep) rfl
  | del k1 h1 =>
    simp only [Op.target, Option.some.injEq, Prod.mk.injEq] at ht
    obtain ⟨rfl, rfl⟩ := ht
    obtain ⟨b', hdel, _, _, _, h4⟩ := colDel_counters hs hn k1 h1
    exact key b' (Option.some.inj (hstep.symm.trans hdel)) h4
  | reset => cases ht

theorem target_eq_none {op : Op} (ht : op.target = none) : op = Op.reset := by
  cases op <;> simp [Op.target] at ht ⊢

/-- One call that is not `reset` lowers no collision counter. -/
theorem step_collisions_mono {n : Nat} {s s' : Storage} (hs : SInv n s) (hn : n + 1 < 2 ^ 64)
    {op : Op} (hop : op ≠ Op.reset) (hstep : s.step op = some s') (i : Fin bucketsCount) :
    (s.buckets i).collisions ≤ (s'.buckets i).collisions := by
  cases ht : op.target with
  | none => exact absurd (target_eq_none ht) hop
  | some p =>
    obtain ⟨h, k⟩ := p
    rw [step_collisions hs hn ht hstep i]
    split
    · exact Nat.le_succ _
    · exact Nat.le_refl _

/-- A sequence of calls without `reset` lowers no collision counter. -/
theorem run_collisions_mono (ops : List Op) {n : Nat} {s s' : Storage} (hs : SInv n s)
    (hn : n + ops.length < 2 ^ 64) (hnr : Op.reset ∉ ops) (hrun : s.run ops = some s')
    (i : Fin bucketsCount) : (s.buckets i).collisions ≤ (s'.buckets i).collisions := by
  induction ops generalizing n s with
  | nil =>
    have : s = s' := Option.some.inj hrun
    rw [this]
  | cons op ops ih =>
    simp only [List.length_cons] at hn
    obtain ⟨s1, h1, hs1, _⟩ := step_spec hs (by omega) op
    simp only [Storage.run, h1, Option.some_bind] at hrun
    have hop : op ≠ Op.reset := fun e => hnr (by rw [e]; exact List.mem_cons_self _ _)
    exact le_trans (step_collisions_mono hs (by omega) hop h1 i)
      (ih hs1 (by omega) (fun hm => hnr (List.mem_cons_of_mem _ hm)) hrun)

/-- While no two distinct keys presented to the calls have the same hash, no collision is
counted. -/
theorem collisions_zero_of_hashDeterminesKey {ops : List Op} {s : Storage}
    (hr : ReachedBy ops s) (hk : HashDeterminesKey ops) (i : Fin bucketsCount) :
    (s.buckets i).collisions = 0 := by
  revert hk i
  refine ReachedBy.induction (P := fun ops s => HashDeterminesKey ops →
    ∀ i, (s.buckets i).collisions = 0) (fun _ _ => rfl) ?_ hr
  intro ops s op s' hr _ hstep ih hk i
  have ih := ih hk.of_append
  obtain ⟨hs, hentry⟩ := hr.spec
  have hn := hr.1
  cases ht : op.target with
  | none =>
    have : s' = New := by
      rw [target_eq_none ht] at hstep
      have := Option.some.inj hstep
      rw [← this]; exact Storage.Reset_eq s
    rw [this]
    rfl
  | some p =>
    obtain ⟨h, k⟩ := p
    rw [step_collisions hs (by omega) ht hstep i]
    have hcol : (s.buckets (bucketIdx h)).col = [] := (hs.inv _).col_nil (ih _)
    have hb : (s.buckets (bucketIdx h)).readBumps h k = false := by
      apply readBumps_eq_false hcol
      intro k' hk'
      have he : s.entry h k' ≠ none := hk'
      rw [hentry] at he
      have h1 : (h, k') ∈ targets (ops ++ [op]) := by
        rw [targets_append]
        exact List.mem_append_left _ (specRun_target ops h k' he)
      have h2 : (h, k) ∈ targets (ops ++ [op]) := by
        rw [targets_snoc, ht]
        exact List.mem_append_right _ (by simp)
      exact hk _ h1 _ h2 rfl
    rw [hb]
    simp only [Bool.false_eq_true, and_false, if_false]
    exact ih i


/-- A non-empty CollisionIndex holds two distinct keys with an entry under the same hash. -/
theorem two_keys_of_col_ne_nil {b : bucket} (hb : BInv b) (hcol : b.col ≠ []) :
    ∃ g k1 k2, k1 ≠ k2 ∧ b.entry g k1 ≠ none ∧ b.entry g k2 ≠ none := by
  cases hc : b.col with
  | nil => exact absurd hc hcol
  | cons e rest =>
    have he : e ∈ b.col := by rw [hc]; exact List.mem_cons_self _ _
    have hlen := hb.colLen e he
    have hnd := hb.colKeysDistinct e he
    have hl : GoMap.lookup e.1 b.col = some e.2 := GoMap.lookup_of_mem hb.colKeys he
    cases h2 : e.2 with
    | nil => rw [h2] at hlen; simp at hlen
    | cons i1 r1 =>
      cases h3 : r1 with
      | nil => rw [h2, h3] at hlen; simp at hlen
      | cons i2 r2 =>
        rw [h2, h3] at hnd
        simp only [List.map_cons, List.nodup_cons, List.mem_cons, not_or] at hnd
        have ho1 : b.owns e.1 i1 := Or.inr ⟨e.2, hl, by rw [h2]; exact List.mem_cons_self _ _⟩
        have ho2 : b.owns e.1 i2 :=
          Or.inr ⟨e.2, hl, by rw [h2, h3]; exact List.mem_cons_of_mem _ (List.mem_cons_self _ _)⟩
        refine ⟨e.1, keyAt b.kv i1, keyAt b.kv i2, hnd.1.1, ?_, ?_⟩
        · rw [(entry_eq_some_iff hb).2 ⟨i1, ho1, rfl, rfl⟩]
          exact Option.some_ne_none _
        · rw [(entry_eq_some_iff hb).2 ⟨i2, ho2, rfl, rfl⟩]
          exact Option.some_ne_none _

/-! ## Claims C18 to C20: the collision counter -/

/-- C18: no hash collision, no collision count. For every sequence of fewer than `2 ^ 63`
calls on a new storage in which no two distinct keys presented to a call have the same hash,
after every call of the sequence (after each initial part of the sequence) the calls have
returned, `Collision()` is 0, and the collision counter of every bucket is 0 and its
CollisionIndex is empty. -/
theorem C18_no_hash_collision_no_count (ops : List Op) (hn : ops.length < 2 ^ 63)
    (hk : HashDeterminesKey ops) (n : Nat) :
    ∃ s, New.run (ops.take n) = some s ∧ s.Collision = 0 ∧
      ∀ i, (s.buckets i).collisions = 0 ∧ (s.buckets i).col = [] := by
  have hlen : (ops.take n).length < 2 ^ 63 :=
    lt_of_le_of_lt (by rw [List.length_take]; exact Nat.min_le_right _ _) hn
  have hk' : HashDeterminesKey (ops.take n) := by
    apply @HashDeterminesKey.of_append (ops.take n) (ops.drop n)
    rw [List.take_append_drop]
    exact hk
  obtain ⟨s, hr⟩ := run_total (ops.take n) hlen
  have hz := fun i => collisions_zero_of_hashDeterminesKey hr hk' i
  refine ⟨s, hr.2, ?_, fun i => ⟨hz i, (hr.spec.1.inv i).col_nil (hz i)⟩⟩
  rw [Storage.Collision_eq, Finset.sum_eq_zero (fun i _ => hz i)]
  rfl

theorem C18_no_hash_collision_no_count_witness :
    [Op.set [1] [2] 7, Op.get none [1] 7, Op.set [3] [4] 519, Op.has [9] 8, Op.del [1] 7,
        Op.set [1] [5] 7].length < 2 ^ 63 ∧
      HashDeterminesKey [Op.set [1] [2] 7, Op.get none [1] 7, Op.set [3] [4] 519,
        Op.has [9] 8, Op.del [1] 7, Op.set [1] [5] 7] ∧
      ∃ s, New.run ([Op.set [1] [2] 7, Op.get none [1] 7, Op.set [3] [4] 519, Op.has [9] 8,
          Op.del [1] 7, Op.set [1] [5] 7].take 4) = some s ∧ s.Collision = 0 ∧
        ∀ i, (s.buckets i).collisions = 0 ∧ (s.buckets i).col = [] :=
  ⟨by decide, by unfold HashDeterminesKey; decide,
    C18_no_hash_collision_no_count _ (by decide) (by unfold HashDeterminesKey; decide) 4⟩

/-- C19: the collision latch. In every reachable state a bucket whose CollisionIndex is
non-empty has a nonzero collision counter; the CollisionIndex of a bucket is non-empty
exactly when two distinct keys have an entry in it under the same hash. Once a `set` has
stored a second key `K2` under a hash `h` that holds an entry of another key `K1`, the
CollisionIndex of the bucket is non-empty and its collision counter is nonzero, and the
counter is nonzero after every later sequence of calls without `reset` (fewer than `2 ^ 63`
calls in all). -/
theorem C19_collision_latch (ops rest : List Op) (K1 K2 V : Bytes) (h : Nat)
    (hn : (ops ++ Op.set K2 V h :: rest).length < 2 ^ 63)
    (hused : specRun ops h K1 ≠ none) (hne : K1 ≠ K2) (hnr : Op.reset ∉ rest) :
    (∀ s, Reachable s → ∀ i, ((s.buckets i).col ≠ [] → (s.buckets i).collisions ≠ 0) ∧
      ((s.buckets i).col ≠ [] ↔ ∃ g k1 k2, k1 ≠ k2 ∧ (s.buckets i).entry g k1 ≠ none ∧
        (s.buckets i).entry g k2 ≠ none)) ∧
      ∃ s1 s2, New.run (ops ++ [Op.set K2 V h]) = some s1 ∧
        (s1.buckets (bucketIdx h)).col ≠ [] ∧ (s1.buckets (bucketIdx h)).collisions ≠ 0 ∧
        s1.run rest = some s2 ∧ New.run (ops ++ Op.set K2 V h :: rest) = some s2 ∧
        (s2.buckets (bucketIdx h)).collisions ≠ 0 := by
  constructor
  · intro s hr i
    obtain ⟨n, _, hs⟩ := hr.inv
    refine ⟨(hs.inv i).latch, two_keys_of_col_ne_nil (hs.inv i), ?_⟩
    rintro ⟨g, k1, k2, hk, h1, h2⟩
    exact col_ne_nil_of_two_keys hk h1 h2
  · simp only [List.length_append, List.length_cons] at hn
    have hlen1 : (ops ++ [Op.set K2 V h]).length < 2 ^ 63 := by
      simp only [List.length_append, List.length_singleton]; omega
    obtain ⟨s1, hr1⟩ := run_total _ hlen1
    obtain ⟨hs1, hentry1⟩ := hr1.spec
    have e1 : s1.entry h K1 ≠ none := by
      rw [hentry1, specRun_snoc]
      simp only [specStep]
      rw [if_neg (fun e => hne e.2)]
      exact hused
    have e2 : s1.entry h K2 ≠ none := by
      rw [hentry1, specRun_snoc]
      simp [specStep]
    have hcol : (s1.buckets (bucketIdx h)).col ≠ [] := col_ne_nil_of_two_keys hne e1 e2
    have hc1 := (hs1.inv (bucketIdx h)).latch hcol
    have hlen2 : (ops ++ [Op.set K2 V h]).length + rest.length < 2 ^ 64 := by
      simp only [List.length_append, List.length_singleton]; omega
    obtain ⟨s2, hrun2, _, _⟩ := run_spec rest hs1 hlen2
    have hmono := run_collisions_mono rest hs1 hlen2 hnr hrun2 (bucketIdx h)
    refine ⟨s1, s2, hr1.2, hcol, hc1, hrun2, ?_, by omega⟩
    have hl : ops ++ Op.set K2 V h :: rest = (ops ++ [Op.set K2 V h]) ++ rest := by simp
    rw [hl, run_append, hr1.2, Option.some_bind, hrun2]

theorem C19_collision_latch_witness :
    ([Op.set [1] [2] 7] ++ Op.set [3] [4] 7 :: [Op.del [3] 7, Op.del [1] 7,
        Op.get none [1] 7]).length < 2 ^ 63 ∧
      specRun [Op.set [1] [2] 7] 7 [1] ≠ none ∧ ([1] : Bytes) ≠ [3] ∧
      Op.reset ∉ [Op.del [3] 7, Op.del [1] 7, Op.get none [1] 7] ∧
      ∃ s1 s2, New.run ([Op.set [1] [2] 7] ++ [Op.set [3] [4] 7]) = some s1 ∧
        (s1.buckets (bucketIdx 7)).col ≠ [] ∧ (s1.buckets (bucketIdx 7)).collisions ≠ 0 ∧
        s1.run [Op.del [3] 7, Op.del [1] 7, Op.get none [1] 7] = some s2 ∧
        New.run ([Op.set [1] [2] 7] ++ Op.set [3] [4] 7 :: [Op.del [3] 7, Op.del [1] 7,
          Op.get none [1] 7]) = some s2 ∧
        (s2.buckets (bucketIdx 7)).collisions ≠ 0 :=
  ⟨by decide, by decide, by decide, by decide,
    (C19_collision_latch [Op.set [1] [2] 7] [Op.del [3] 7, Op.del [1] 7, Op.get none [1] 7]
      [1] [3] [4] 7 (by decide) (by decide) (by decide) (by decide)).2⟩

/-- C20: the collision counter is monotone. In every reachable state every call returns; a
`set`, `get`, `has` or `del` lowers the collision counter of no bucket, also a `del` that
shrinks a collision list back to a single key; `reset` sets the counter of every bucket
to 0. -/
theorem C20_collisions_monotone (s : Storage) (hr : Reachable s) (op : Op) :
    ∃ s', s.step op = some s' ∧
      (op ≠ Op.reset → ∀ i, (s.buckets i).collisions ≤ (s'.buckets i).collisions) ∧
      (op = Op.reset → ∀ i, (s'.buckets i).collisions = 0) := by
  obtain ⟨n, hn, hs⟩ := hr.inv
  obtain ⟨s', hstep, _, _⟩ := step_spec hs (by omega) op
  refine ⟨s', hstep, fun hop i => step_collisions_mono hs (by omega) hop hstep i, ?_⟩
  intro hop i
  rw [hop] at hstep
  have : s' = New := by
    have := Option.some.inj hstep
    rw [← this]; exact Storage.Reset_eq s
  rw [this]
  rfl

theorem C20_collisions_monotone_witness :
    Reachable (afterOps [Op.set [1] [2] 7, Op.set [3] [4] 7]) ∧
      ((afterOps [Op.set [1] [2] 7, Op.set [3] [4] 7]).buckets (bucketIdx 7)).col =
        [(7, [0, 1])] ∧
      ((afterOps [Op.set [1] [2] 7, Op.set [3] [4] 7]).buckets (bucketIdx 7)).collisions = 1 ∧
      ((afterOps [Op.set [1] [2] 7, Op.set [3] [4] 7, Op.del [3] 7]).buckets
        (bucketIdx 7)).col = [] ∧
      ((afterOps [Op.set [1] [2] 7, Op.set [3] [4] 7, Op.del [3] 7]).buckets
        (bucketIdx 7)).collisions = 2 ∧
      ∃ s', (afterOps [Op.set [1] [2] 7, Op.set [3] [4] 7]).step (Op.del [3] 7) = some s' ∧
        (Op.del [3] 7 ≠ Op.reset → ∀ i,
          ((afterOps [Op.set [1] [2] 7, Op.set [3] [4] 7]).buckets i).collisions ≤
            (s'.buckets i).collisions) ∧
        (Op.del [3] 7 = Op.reset → ∀ i, (s'.buckets i).collisions = 0) :=
  ⟨afterOps_reachable (by decide), by decide, by decide, by decide, by decide,
    C20_collisions_monotone _ (afterOps_reachable (by decide)) (Op.del [3] 7)⟩


/-! ## Claim C12: the number of entries `UpdateStats` reports -/

/-- The storage after one `set` on a new storage. -/
theorem afterOps_set_one (k v : Bytes) (h : Nat) :
    afterOps [Op.set k v h] =
      New.put (bucketIdx h) ((afterOps [Op.set k v h]).buckets (bucketIdx h)) := by
  obtain ⟨b', _, hset, _, _⟩ := colSet_spec SInv.of_new_storage (by decide) k v h
  have h1 : afterOps [Op.set k v h] = New.put (bucketIdx h) b' := by
    simp [afterOps, Storage.run, Storage.step, hset]
  rw [h1, put_same]

/-- C12: `UpdateStats` does not report the number of entries. It adds to
`Stats.EntriesCount`, for every bucket, the length of the slab `kv` and the lengths of the
lists of the CollisionIndex. On a new storage, whose 512 slabs have 16 slots each,
`UpdateStats` into a zeroed `Stats` yields `EntriesCount = 8192` while `EntriesCount()`
returns 0; after one `set` it yields 8192 while `EntriesCount()` returns 1. -/
theorem C12_updateStats_entries_count :
    (∀ (s : Storage) (st : Stats), (s.UpdateStats st).EntriesCount =
      (st.EntriesCount + ∑ i, ((s.buckets i).kv.length +
        ((s.buckets i).col.map (fun e => e.2.length)).sum)) % 2 ^ 64) ∧
      (New.UpdateStats Stats.zero).EntriesCount = 8192 ∧ New.EntriesCount = 0 ∧
      ((afterOps [Op.set [1] [2] 7]).UpdateStats Stats.zero).EntriesCount = 8192 ∧
      (afterOps [Op.set [1] [2] 7]).EntriesCount = 1 := by
  refine ⟨UpdateStats_EntriesCount, New_UpdateStats_EntriesCount Stats.zero, New_EntriesCount,
    ?_, ?_⟩
  · have hnew := New_UpdateStats_EntriesCount Stats.zero
    rw [UpdateStats_EntriesCount] at hnew ⊢
    have hsum := sum_put (fun b => b.kv.length + (b.col.map (fun e => e.2.length)).sum) New
      (bucketIdx 7) ((afterOps [Op.set [1] [2] 7]).buckets (bucketIdx 7))
    rw [← afterOps_set_one] at hsum
    have h16 : ((afterOps [Op.set [1] [2] 7]).buckets (bucketIdx 7)).kv.length +
        (((afterOps [Op.set [1] [2] 7]).buckets (bucketIdx 7)).col.map
          (fun e => e.2.length)).sum = 16 := by decide
    have h16' : (New.buckets (bucketIdx 7)).kv.length +
        ((New.buckets (bucketIdx 7)).col.map (fun e => e.2.length)).sum = 16 := by decide
    simp only [h16, h16'] at hsum
    have := Nat.add_right_cancel hsum
    rw [this]
    exact hnew
  · have hr : ReachedBy [Op.set [1] [2] 7] (afterOps [Op.set [1] [2] 7]) :=
      afterOps_reached (by decide)
    rw [hr.spec.1.EntriesCount (by decide), liveCount_eq_specLive hr]
    decide


/-! ## Call sequences on one bucket: the invariant -/

/-- One call on a bucket that satisfies the invariant returns, keeps the invariant, and adds
at most one to the collision counter and to the append cursor. -/
theorem bucket_step_inv {n : Nat} {b : bucket} (hb : BInv b) (hc : b.collisions ≤ n)
    (ho : b.offset ≤ n) (hn : n + 1 < 2 ^ 64) (op : Op) :
    ∃ b', b.step op = some b' ∧ BInv b' ∧ b'.collisions ≤ n + 1 ∧ b'.offset ≤ n + 1 := by
  have hcw : b.collisions + 1 < 2 ^ 64 := by omega
  have hread : ∀ h k, BInv (b.afterRead h k) ∧ (b.afterRead h k).collisions ≤ n + 1 ∧
      (b.afterRead h k).offset ≤ n + 1 := fun h k =>
    ⟨hb.afterRead hcw h k, le_trans (afterRead_collisions_le b h k hcw).2 (Nat.succ_le_succ hc),
      le_trans ho (Nat.le_succ n)⟩
  cases op with
  | set k v h =>
    obtain ⟨b', hset, hpost⟩ := set_spec hb (by omega) hcw k v h
    refine ⟨b', hset, hpost.inv, ?_, ?_⟩
    · have h1 := hpost.col_le
      have h2 : b.collisions ≤ n := hc
      exact le_trans h1 (Nat.succ_le_succ h2)
    · have h1 := hpost.offset_le
      have h2 : b.offset ≤ n := ho
      exact le_trans h1 (Nat.succ_le_succ h2)
  | get dst k h =>
    exact ⟨_, by simp only [bucket.step, get_eq hb, Option.map_some'], hread h k⟩
  | has k h =>
    exact ⟨_, by simp only [bucket.step, has_eq hb, Option.map_some'], hread h k⟩
  | del k h =>
    obtain ⟨b', hdel, hpost⟩ := del_spec hb hcw k h
    refine ⟨b', hdel, hpost.inv, le_trans hpost.col_le (Nat.succ_le_succ hc), ?_⟩
    rw [hpost.offset]
    exact le_trans ho (Nat.le_succ n)
  | reset =>
    refine ⟨_, rfl, ?_, ?_, ?_⟩
    · rw [reset_init]; exact BInv.zero_init
    · rw [reset_init]; exact Nat.zero_le _
    · rw [reset_init]; exact Nat.zero_le _

/-- A sequence of calls on a bucket that satisfies the invariant returns and keeps the
invariant. -/
theorem bucket_run_inv (ops : List Op) {n : Nat} {b : bucket} (hb : BInv b)
    (hc : b.collisions ≤ n) (ho : b.offset ≤ n) (hn : n + ops.length < 2 ^ 64) :
    ∃ b', b.run ops = some b' ∧ BInv b' ∧ b'.collisions ≤ n + ops.length ∧
      b'.offset ≤ n + ops.length := by
  induction ops generalizing n b with
  | nil => exact ⟨b, rfl, hb, hc, ho⟩
  | cons op ops ih =>
    simp only [List.length_cons] at hn ⊢
    obtain ⟨b1, h1, hb1, hc1, ho1⟩ := bucket_step_inv hb hc ho (by omega) op
    obtain ⟨b2, h2, hb2, hc2, ho2⟩ := ih hb1 hc1 ho1 (by omega)
    refine ⟨b2, by simp [bucket.run, h1, h2], hb2, by omega, by omega⟩

/-- Every sequence of fewer than `2 ^ 63` calls on a fresh bucket returns. -/
theorem bucket_run_total (ops : List Op) (hn : ops.length < 2 ^ 63) :
    ∃ b, bucket.Reached ops b := by
  obtain ⟨b, hrun, _⟩ := bucket_run_inv ops BInv.zero_init (Nat.le_refl 0) (Nat.le_refl 0)
    (by omega)
  exact ⟨b, hn, hrun⟩

/-- A reachable bucket satisfies the invariant, and its collision counter and append cursor
are below `2 ^ 63`. -/
theorem bucket_reachable_inv {b : bucket} (hr : b.Reachable) :
    BInv b ∧ b.collisions < 2 ^ 63 ∧ b.offset < 2 ^ 63 := by
  obtain ⟨ops, hn, hrun⟩ := hr
  obtain ⟨b', hrun', hb, hc, ho⟩ := bucket_run_inv ops BInv.zero_init (Nat.le_refl 0)
    (Nat.le_refl 0) (by omega)
  have : b' = b := Option.some.inj (hrun'.symm.trans hrun)
  subst this
  exact ⟨hb, by omega, by omega⟩

theorem bucket_afterOps_reached {ops : List Op} (hn : ops.length < 2 ^ 63) :
    bucket.Reached ops (bucket.afterOps ops) := by
  obtain ⟨b, hb⟩ := bucket_run_total ops hn
  have : bucket.afterOps ops = b := by simp [bucket.afterOps, hb.2]
  rw [this]; exact hb

theorem bucket_afterOps_reachable {ops : List Op} (hn : ops.length < 2 ^ 63) :
    (bucket.afterOps ops).Reachable := ⟨ops, bucket_afterOps_reached hn⟩

/-- Every call on a reachable bucket returns. -/
theorem bucket_reachable_step {b : bucket} (hr : b.Reachable) (op : Op) :
    ∃ b', b.step op = some b' := by
  obtain ⟨hb, hc, ho⟩ := bucket_reachable_inv hr
  obtain ⟨b', h1, _⟩ := bucket_step_inv (n := 2 ^ 63) hb (by omega) (by omega) (by omega) op
  exact ⟨b', h1⟩

/-! ## The buckets of a reachable storage are reachable buckets -/

theorem bucket_run_append (b : bucket) (ops ops' : List Op) :
    b.run (ops ++ ops') = (b.run ops).bind (fun b1 => b1.run ops') := by
  induction ops generalizing b with
  | nil => rfl
  | cons op ops ih =>
    simp only [List.cons_append, bucket.run]
    cases b.step op with
    | none => rfl
    | some b1 => exact ih b1

theorem bucket_run_snoc {b b1 b2 : bucket} {ops : List Op} {op : Op} (h1 : b.run ops = some b1)
    (h2 : b1.step op = some b2) : b.run (ops ++ [op]) = some b2 := by
  rw [bucket_run_append, h1, Option.some_bind]
  simp [bucket.run, h2]

/-- A call of the storage with target hash `h` is the same call on bucket `h % 512`. -/
theorem step_put {s s' : Storage} {op : Op} {h : Nat} {k : Bytes}
    (ht : op.target = some (h, k)) (hstep : s.step op = some s') :
    ∃ b', (s.buckets (bucketIdx h)).step op = some b' ∧ s' = s.put (bucketIdx h) b' := by
  cases op with
  | set k1 v h1 =>
    simp only [Op.target, Option.some.injEq, Prod.mk.injEq] at ht
    obtain ⟨rfl, rfl⟩ := ht
    simp only [Storage.step, Storage.colSet, Option.map_eq_some'] at hstep
    obtain ⟨b', hb', e⟩ := hstep
    exact ⟨b', hb', e.symm⟩
  | get dst k1 h1 =>
    simp only [Op.target, Option.some.injEq, Prod.mk.injEq] at ht
    obtain ⟨rfl, rfl⟩ := ht
    simp only [Storage.step, Storage.getAt, Option.map_eq_some'] at hstep
    obtain ⟨r, ⟨r', hr', e'⟩, e⟩ := hstep
    refine ⟨r'.1, by simp [bucket.step, hr'], ?_⟩
    rw [← e, ← e']
  | has k1 h1 =>
    simp only [Op.target, Option.some.injEq, Prod.mk.injEq] at ht
    obtain ⟨rfl, rfl⟩ := ht
    simp only [Storage.step, Storage.colHas, Option.map_eq_some'] at hstep
    obtain ⟨r, ⟨r', hr', e'⟩, e⟩ := hstep
    refine ⟨r'.1, by simp [bucket.step, hr'], ?_⟩
    rw [← e, ← e']
  | del k1 h1 =>
    simp only [Op.target, Option.some.injEq, Prod.mk.injEq] at ht
    obtain ⟨rfl, rfl⟩ := ht
    simp only [Storage.step, Storage.colDel, Option.map_eq_some'] at hstep
    obtain ⟨b', hb', e⟩ := hstep
    exact ⟨b', hb', e.symm⟩
  | reset => cases ht

/-- Every bucket of a reachable storage is a reachable bucket. -/
theorem reachable_bucket {s : Storage} (hr : Reachable s) (i : Fin bucketsCount) :
    (s.buckets i).Reachable := by
  obtain ⟨ops, hr⟩ := hr
  have H : ∀ i, ∃ bops, bops.length ≤ ops.length ∧
      bucket.zero.init.run bops = some (s.buckets i) := by
    refine ReachedBy.induction (P := fun ops s => ∀ i, ∃ bops, bops.length ≤ ops.length ∧
      bucket.zero.init.run bops = some (s.buckets i)) ?_ ?_ hr
    · intro i
      exact ⟨[], Nat.le_refl 0, rfl⟩
    · intro ops s op s' _ _ hstep ih i
      have hlen : (ops ++ [op]).length = ops.length + 1 := by simp
      cases ht : op.target with
      | none =>
        have : s' = New := by
          rw [target_eq_none ht] at hstep
          have := Option.some.inj hstep
          rw [← this]; exact Storage.Reset_eq s
        rw [this]
        exact ⟨[], Nat.zero_le _, rfl⟩
      | some p =>
        obtain ⟨h, k⟩ := p
        obtain ⟨b', hb', e⟩ := step_put ht hstep
        rw [e]
        by_cases hi : i = bucketIdx h
        · rw [hi, put_same]
          obtain ⟨bops, hl, hrun⟩ := ih (bucketIdx h)
          exact ⟨bops ++ [op], by simp; omega, bucket_run_snoc hrun hb'⟩
        · rw [put_other s _ hi]
          obtain ⟨bops, hl, hrun⟩ := ih i
          exact ⟨bops, by omega, hrun⟩
  obtain ⟨bops, hl, hrun⟩ := H i
  exact ⟨bops, lt_of_le_of_lt hl hr.1, hrun⟩


/-! ## Claims C23 to C27: the structural invariants of a bucket -/

/-- Every call on a bucket that satisfies the invariant, and whose collision counter and
append cursor are not at the end of their range, returns. -/
theorem bucket_calls_total {b : bucket} (hb : BInv b) (hc : b.collisions + 1 < 2 ^ 64)
    (ho : b.offset + 1 < 2 ^ 64) :
    (∀ k v h, ∃ b', b.set k v h = some b') ∧ (∀ dst k h, ∃ r, b.get dst k h = some r) ∧
      (∀ k h, ∃ r, b.has k h = some r) ∧ (∀ k h, ∃ b', b.del k h = some b') := by
  refine ⟨?_, ?_, ?_, ?_⟩
  · intro k v h
    obtain ⟨b', h1, _⟩ := set_spec hb ho hc k v h
    exact ⟨b', h1⟩
  · intro dst k h
    exact ⟨_, get_eq hb dst k h⟩
  · intro k h
    exact ⟨_, has_eq hb k h⟩
  · intro k h
    obtain ⟨b', h1, _⟩ := del_spec hb hc k h
    exact ⟨b', h1⟩

theorem mem_keys_iff_lookup {α : Type} {h : Nat} {m : List (Nat × α)} :
    h ∈ m.map Prod.fst ↔ GoMap.lookup h m ≠ none := by
  rw [ne_eq, GoMap.lookup_eq_none_iff]
  simp only [List.mem_map, not_forall, not_not]
  constructor
  · rintro ⟨e, he, rfl⟩
    exact ⟨e, he, rfl⟩
  · rintro ⟨e, he, heq⟩
    exact ⟨e, he, heq⟩

/-- C23: index disjointness. In every bucket state reachable from a fresh bucket by set,
get, has, del and reset calls with arbitrary hashes, no hash is a key of both the
PrimaryIndex `m` and the CollisionIndex `col`. -/
theorem C23_index_disjoint (b : bucket) (hr : b.Reachable) (h : Nat) :
    ¬ (h ∈ b.m.map Prod.fst ∧ h ∈ b.col.map Prod.fst) ∧
      ¬ ((GoMap.lookup h b.m).isSome ∧ (GoMap.lookup h b.col).isSome) := by
  have hb := (bucket_reachable_inv hr).1
  constructor
  · rintro ⟨h1, h2⟩
    exact (mem_keys_iff_lookup.1 h1) (hb.disj h (mem_keys_iff_lookup.1 h2))
  · rintro ⟨h1, h2⟩
    have h3 : GoMap.lookup h b.col ≠ none := by
      intro e; rw [e] at h2; cases h2
    rw [hb.disj h h3] at h1
    cases h1

theorem C23_index_disjoint_witness :
    (bucket.afterOps [Op.set [1] [2] 7, Op.set [3] [4] 7, Op.set [5] [6] 8, Op.del [1] 7,
        Op.set [9] [9] 7]).Reachable ∧
      (bucket.afterOps [Op.set [1] [2] 7, Op.set [3] [4] 7, Op.set [5] [6] 8]).col =
        [(7, [0, 1])] ∧
      (bucket.afterOps [Op.set [1] [2] 7, Op.set [3] [4] 7, Op.set [5] [6] 8, Op.del [1] 7,
        Op.set [9] [9] 7]).col = [(7, [1, 3])] ∧
      ¬ (7 ∈ (bucket.afterOps [Op.set [1] [2] 7, Op.set [3] [4] 7, Op.set [5] [6] 8,
          Op.del [1] 7, Op.set [9] [9] 7]).m.map Prod.fst ∧
        7 ∈ (bucket.afterOps [Op.set [1] [2] 7, Op.set [3] [4] 7, Op.set [5] [6] 8,
          Op.del [1] 7, Op.set [9] [9] 7]).col.map Prod.fst) :=
  ⟨bucket_afterOps_reachable (by decide), by decide, by decide,
    (C23_index_disjoint _ (bucket_afterOps_reachable (by decide)) 7).1⟩

/-- C24: the invariant-violation panic is unreachable. In every bucket state reachable from
a fresh bucket by set, get, has, del and reset calls, every slot list of the CollisionIndex
has length at least 2, and every `set`, `get`, `has` and `del` returns (no panic, neither the
one of `del` on a list that is not of length 1 nor an index out of range). -/
theorem C24_collision_lists_at_least_two (b : bucket) (hr : b.Reachable) :
    (∀ e ∈ b.col, 2 ≤ e.2.length) ∧
      (∀ k v h, ∃ b', b.set k v h = some b') ∧ (∀ dst k h, ∃ r, b.get dst k h = some r) ∧
      (∀ k h, ∃ r, b.has k h = some r) ∧ (∀ k h, ∃ b', b.del k h = some b') := by
  obtain ⟨hb, hc, ho⟩ := bucket_reachable_inv hr
  exact ⟨hb.colLen, bucket_calls_total hb (by omega) (by omega)⟩

theorem C24_collision_lists_at_least_two_witness :
    (bucket.afterOps [Op.set [1] [2] 7, Op.set [3] [4] 7, Op.set [5] [6] 7,
        Op.del [3] 7]).Reachable ∧
      (bucket.afterOps [Op.set [1] [2] 7, Op.set [3] [4] 7, Op.set [5] [6] 7,
        Op.del [3] 7]).col = [(7, [0, 2])] ∧
      (∀ e ∈ (bucket.afterOps [Op.set [1] [2] 7, Op.set [3] [4] 7, Op.set [5] [6] 7,
        Op.del [3] 7]).col, 2 ≤ e.2.length) ∧
      ∃ b', (bucket.afterOps [Op.set [1] [2] 7, Op.set [3] [4] 7, Op.set [5] [6] 7,
        Op.del [3] 7]).del [5] 7 = some b' :=
  ⟨bucket_afterOps_reachable (by decide), by decide,
    (C24_collision_lists_at_least_two _ (bucket_afterOps_reachable (by decide))).1,
    (C24_collision_lists_at_least_two _
      (bucket_afterOps_reachable (by decide))).2.2.2.2 [5] 7⟩


theorem mem_liveRefs_primary {b : bucket} {e : Nat × Nat} (he : e ∈ b.m) : e.2 ∈ b.liveRefs :=
  List.mem_append_left _ (List.mem_map.2 ⟨e, he, rfl⟩)

theorem mem_liveRefs_col {b : bucket} {e : Nat × List Nat} (he : e ∈ b.col) {x : Nat}
    (hx : x ∈ e.2) : x ∈ b.liveRefs :=
  List.mem_append_right _ (List.mem_flatMap.2 ⟨e, he, hx⟩)

/-- C25: slot indices are in bounds. In every state reachable from `New()`, in every bucket
every slot index stored in the PrimaryIndex, in a list of the CollisionIndex or in the free
list is below the append cursor `offset`, the cursor is at most the length of the slab, so
each of these indices is below the length of the slab, and every `set`, `get`, `has` and
`del` on the bucket returns (no index out of range). -/
theorem C25_slot_indices_in_bounds (s : Storage) (hr : Reachable s) (i : Fin bucketsCount) :
    (∀ e ∈ (s.buckets i).m, e.2 < (s.buckets i).offset) ∧
      (∀ e ∈ (s.buckets i).col, ∀ x ∈ e.2, x < (s.buckets i).offset) ∧
      (∀ x ∈ (s.buckets i).free, x < (s.buckets i).offset) ∧
      (s.buckets i).offset ≤ (s.buckets i).kv.length ∧
      (∀ x ∈ (s.buckets i).refs, ∃ sl, (s.buckets i).kv[x]? = some sl) ∧
      (∀ k v h, ∃ b', (s.buckets i).set k v h = some b') ∧
      (∀ dst k h, ∃ r, (s.buckets i).get dst k h = some r) ∧
      (∀ k h, ∃ r, (s.buckets i).has k h = some r) ∧
      (∀ k h, ∃ b', (s.buckets i).del k h = some b') := by
  obtain ⟨hb, hc, ho⟩ := bucket_reachable_inv (reachable_bucket hr i)
  refine ⟨fun e he => hb.live_lt (mem_liveRefs_primary he),
    fun e he x hx => hb.live_lt (mem_liveRefs_col he hx), fun x hx => hb.free_lt hx, hb.off, ?_,
    bucket_calls_total hb (by omega) (by omega)⟩
  intro x hx
  exact ⟨_, getElem?_eq_slotAt (lt_of_lt_of_le (hb.lt_of_mem_refs hx) hb.off)⟩

theorem C25_slot_indices_in_bounds_witness :
    Reachable (afterOps [Op.set [1] [2] 7, Op.set [3] [4] 7, Op.set [5] [6] 519,
        Op.del [5] 519]) ∧
      ((afterOps [Op.set [1] [2] 7, Op.set [3] [4] 7, Op.set [5] [6] 519,
        Op.del [5] 519]).buckets (bucketIdx 7)).col = [(7, [0, 1])] ∧
      ((afterOps [Op.set [1] [2] 7, Op.set [3] [4] 7, Op.set [5] [6] 519,
        Op.del [5] 519]).buckets (bucketIdx 7)).free = [2] ∧
      ((afterOps [Op.set [1] [2] 7, Op.set [3] [4] 7, Op.set [5] [6] 519,
        Op.del [5] 519]).buckets (bucketIdx 7)).offset = 3 ∧
      (∀ e ∈ ((afterOps [Op.set [1] [2] 7, Op.set [3] [4] 7, Op.set [5] [6] 519,
          Op.del [5] 519]).buckets (bucketIdx 7)).col, ∀ x ∈ e.2,
        x < ((afterOps [Op.set [1] [2] 7, Op.set [3] [4] 7, Op.set [5] [6] 519,
          Op.del [5] 519]).buckets (bucketIdx 7)).offset) ∧
      (∀ x ∈ ((afterOps [Op.set [1] [2] 7, Op.set [3] [4] 7, Op.set [5] [6] 519,
          Op.del [5] 519]).buckets (bucketIdx 7)).free,
        x < ((afterOps [Op.set [1] [2] 7, Op.set [3] [4] 7, Op.set [5] [6] 519,
          Op.del [5] 519]).buckets (bucketIdx 7)).offset) :=
  ⟨afterOps_reachable (by decide), by decide, by decide, by decide,
    (C25_slot_indices_in_bounds _ (afterOps_reachable (by decide)) (bucketIdx 7)).2.1,
    (C25_slot_indices_in_bounds _ (afterOps_reachable (by decide)) (bucketIdx 7)).2.2.1⟩

/-- C26: the free list. In every state reachable from `New()`, in every bucket no slot index
of the free list is referenced by the PrimaryIndex or by a list of the CollisionIndex, the
free list holds no index twice, and the key buffer and the value buffer of every free slot
have length 0. -/
theorem C26_free_list (s : Storage) (hr : Reachable s) (i : Fin bucketsCount) :
    (∀ x ∈ (s.buckets i).free, (∀ e ∈ (s.buckets i).m, e.2 ≠ x) ∧
        (∀ e ∈ (s.buckets i).col, x ∉ e.2)) ∧
      (s.buckets i).free.Nodup ∧
      (∀ x ∈ (s.buckets i).free, ∃ sl, (s.buckets i).kv[x]? = some sl ∧
        sl.key.data.length = 0 ∧ sl.val.data.length = 0) := by
  obtain ⟨hb, _, _⟩ := bucket_reachable_inv (reachable_bucket hr i)
  refine ⟨?_, hb.free_nodup, ?_⟩
  · intro x hx
    refine ⟨?_, ?_⟩
    · intro e he hex
      exact hb.live_not_free (mem_liveRefs_primary he) (by rw [hex]; exact hx)
    · intro e he hex
      exact hb.live_not_free (mem_liveRefs_col he hex) hx
  · intro x hx
    have hlt : x < (s.buckets i).kv.length := lt_of_lt_of_le (hb.free_lt hx) hb.off
    obtain ⟨hk, hv⟩ := hb.freeEmpty x hx
    refine ⟨_, getElem?_eq_slotAt hlt, ?_, ?_⟩
    · have : (slotAt (s.buckets i).kv x).key.data = [] := hk
      rw [this]; rfl
    · have : (slotAt (s.buckets i).kv x).val.data = [] := hv
      rw [this]; rfl

theorem C26_free_list_witness :
    Reachable (afterOps [Op.set [1] [2] 7, Op.set [3] [4] 7, Op.set [5] [6] 519,
        Op.del [5] 519, Op.del [1] 7]) ∧
      ((afterOps [Op.set [1] [2] 7, Op.set [3] [4] 7, Op.set [5] [6] 519,
        Op.del [5] 519, Op.del [1] 7]).buckets (bucketIdx 7)).free = [2, 0] ∧
      ((afterOps [Op.set [1] [2] 7, Op.set [3] [4] 7, Op.set [5] [6] 519,
        Op.del [5] 519, Op.del [1] 7]).buckets (bucketIdx 7)).m = [(7, 1)] ∧
      ((afterOps [Op.set [1] [2] 7, Op.set [3] [4] 7, Op.set [5] [6] 519,
        Op.del [5] 519, Op.del [1] 7]).buckets (bucketIdx 7)).free.Nodup ∧
      (∀ x ∈ ((afterOps [Op.set [1] [2] 7, Op.set [3] [4] 7, Op.set [5] [6] 519,
          Op.del [5] 519, Op.del [1] 7]).buckets (bucketIdx 7)).free,
        ∃ sl, ((afterOps [Op.set [1] [2] 7, Op.set [3] [4] 7, Op.set [5] [6] 519,
          Op.del [5] 519, Op.del [1] 7]).buckets (bucketIdx 7)).kv[x]? = some sl ∧
          sl.key.data.length = 0 ∧ sl.val.data.length = 0) :=
  ⟨afterOps_reachable (by decide), by decide, by decide,
    (C26_free_list _ (afterOps_reachable (by decide)) (bucketIdx 7)).2.1,
    (C26_free_list _ (afterOps_reachable (by decide)) (bucketIdx 7)).2.2⟩

/-- C27: each live slot is referenced exactly once. In every reachable bucket state the slot
indices of the PrimaryIndex followed by those of the lists of the CollisionIndex form a list
without repetition, so no slot index is referenced by two index entries (two hashes of the
PrimaryIndex, two positions of the CollisionIndex, or one of each) nor under two hashes, and
within one list of the CollisionIndex the slot indices and the stored keys are pairwise
distinct. -/
theorem C27_live_slots_referenced_once (b : bucket) (hr : b.Reachable) :
    (b.m.map Prod.snd ++ b.col.flatMap Prod.snd).Nodup ∧
      (∀ h h' i, b.owns h i → b.owns h' i → h = h') ∧
      (∀ e ∈ b.col, e.2.Nodup ∧ (e.2.map (keyAt b.kv)).Nodup) := by
  obtain ⟨hb, _, _⟩ := bucket_reachable_inv hr
  refine ⟨hb.live_nodup, fun h h' i ho ho' => hb.owner_unique ho ho', ?_⟩
  intro e he
  exact ⟨List.Nodup.of_map _ (hb.colKeysDistinct e he), hb.colKeysDistinct e he⟩

theorem C27_live_slots_referenced_once_witness :
    (bucket.afterOps [Op.set [1] [2] 7, Op.set [3] [4] 7, Op.set [5] [6] 8, Op.set [7] [8] 7,
        Op.del [1] 7]).Reachable ∧
      (bucket.afterOps [Op.set [1] [2] 7, Op.set [3] [4] 7, Op.set [5] [6] 8, Op.set [7] [8] 7,
        Op.del [1] 7]).m = [(8, 2)] ∧
      (bucket.afterOps [Op.set [1] [2] 7, Op.set [3] [4] 7, Op.set [5] [6] 8, Op.set [7] [8] 7,
        Op.del [1] 7]).col = [(7, [3, 1])] ∧
      ((bucket.afterOps [Op.set [1] [2] 7, Op.set [3] [4] 7, Op.set [5] [6] 8,
          Op.set [7] [8] 7, Op.del [1] 7]).m.map Prod.snd ++
        (bucket.afterOps [Op.set [1] [2] 7, Op.set [3] [4] 7, Op.set [5] [6] 8,
          Op.set [7] [8] 7, Op.del [1] 7]).col.flatMap Prod.snd).Nodup :=
  ⟨bucket_afterOps_reachable (by decide), by decide, by decide,
    (C27_live_slots_referenced_once _ (bucket_afterOps_reachable (by decide))).1⟩


/-! ## Claim C28: the first collision under a hash -/

/-- The bucket `set` produces when the hash is a key of the PrimaryIndex whose slot stores
another key. -/
theorem set_first_collision_eq {b : bucket} (hb : BInv b) {h i : Nat} {k : Bytes} (v : Bytes)
    (hm : GoMap.lookup h b.m = some i) (hk : keyAt b.kv i ≠ k) :
    b.set k v h = some (bucket.set_add
      { b with
        setCalls := u64 (b.setCalls + 1)
        collisions := u64 (b.collisions + 1)
        col := GoMap.store h [i, b.offset] b.col
        m := GoMap.delete h b.m } k v) := by
  have hcol : GoMap.lookup h b.col = none := by
    by_contra hne
    rw [hb.disj h hne] at hm
    cases hm
  have hget : b.kv[i]? = some (slotAt b.kv i) := hb.getElem?_of_owns (Or.inl hm)
  have hmc : bucket.set_mcheck { b with setCalls := u64 (b.setCalls + 1) } k v h =
      some (bucket.set_add
        { b with
          setCalls := u64 (b.setCalls + 1)
          collisions := u64 (b.collisions + 1)
          col := GoMap.store h [i, b.offset] b.col
          m := GoMap.delete h b.m } k v) := by
    unfold bucket.set_mcheck
    dsimp only
    rw [hm]
    dsimp only
    rw [hget]
    dsimp only
    have hk' : (slotAt b.kv i).key.data ≠ k := hk
    rw [if_pos hk']
  unfold bucket.set
  dsimp only
  by_cases hc0 : b.collisions = 0
  · rw [if_neg (not_not.2 hc0)]
    exact hmc
  · rw [if_pos hc0, hcol]
    exact hmc

/-- C28: the first-collision transition. When `set(K2, V2, h)` is applied to a reachable
bucket in which `h` is a key of the PrimaryIndex at slot `i` that stores a key other than
`K2`, the call returns, and afterwards `h` is not a key of the PrimaryIndex,
`CollisionIndex[h]` is the list `[i, c]` with `c` the append cursor before the call, slot `c`
stores `(K2, V2)`, slot `i` stores what it stored, the cursor is `c + 1`, and the collision
counter has grown by exactly 1. -/
theorem C28_first_collision (b : bucket) (hr : b.Reachable) (h i : Nat) (K2 V2 : Bytes)
    (hm : GoMap.lookup h b.m = some i) (hk : keyAt b.kv i ≠ K2) :
    ∃ b', b.set K2 V2 h = some b' ∧
      GoMap.lookup h b'.m = none ∧ h ∉ b'.m.map Prod.fst ∧
      GoMap.lookup h b'.col = some [i, b.offset] ∧
      (∃ sl, b'.kv[b.offset]? = some sl ∧ sl.key.data = K2 ∧ sl.val.data = V2) ∧
      keyAt b'.kv i = keyAt b.kv i ∧ valAt b'.kv i = valAt b.kv i ∧
      b'.offset = b.offset + 1 ∧ b'.collisions = b.collisions + 1 := by
  obtain ⟨hb, hc, ho⟩ := bucket_reachable_inv hr
  refine ⟨_, set_first_collision_eq hb V2 hm hk, ?_⟩
  have hoff : b.offset ≤ b.kv.length := hb.off
  obtain ⟨hslot, hkey, hval, hlen, hoff', _, hm', hcol', _, hcoll, _⟩ :=
    set_add_props
      { b with
        setCalls := u64 (b.setCalls + 1)
        collisions := u64 (b.collisions + 1)
        col := GoMap.store h [i, b.offset] b.col
        m := GoMap.delete h b.m } K2 V2 hoff (by show b.offset + 1 < 2 ^ 64; omega)
  have hi : i ≠ b.offset := Nat.ne_of_lt (hb.owns_lt (Or.inl hm))
  have hlk : GoMap.lookup h (GoMap.delete h b.m) = none := by
    rw [GoMap.lookup_delete]; simp
  refine ⟨?_, ?_, ?_, ?_, ?_, ?_, hoff', ?_⟩
  · rw [hm']; exact hlk
  · rw [hm', mem_keys_iff_lookup]
    exact fun hne => hne hlk
  · rw [hcol']
    show GoMap.lookup h (GoMap.store h [i, b.offset] b.col) = some [i, b.offset]
    rw [GoMap.lookup_store]; simp
  · refine ⟨_, getElem?_eq_slotAt hlen, hkey, hval⟩
  · unfold keyAt
    rw [hslot i hi]
  · unfold valAt
    rw [hslot i hi]
  · rw [hcoll]
    exact u64_of_lt (by omega)

theorem C28_first_collision_witness :
    (bucket.afterOps [Op.set [1] [2] 7, Op.set [5] [6] 8]).Reachable ∧
      GoMap.lookup 7 (bucket.afterOps [Op.set [1] [2] 7, Op.set [5] [6] 8]).m = some 0 ∧
      keyAt (bucket.afterOps [Op.set [1] [2] 7, Op.set [5] [6] 8]).kv 0 ≠ [3] ∧
      ∃ b', (bucket.afterOps [Op.set [1] [2] 7, Op.set [5] [6] 8]).set [3] [4] 7 = some b' ∧
        GoMap.lookup 7 b'.m = none ∧ 7 ∉ b'.m.map Prod.fst ∧
        GoMap.lookup 7 b'.col =
          some [0, (bucket.afterOps [Op.set [1] [2] 7, Op.set [5] [6] 8]).offset] ∧
        (∃ sl, b'.kv[(bucket.afterOps [Op.set [1] [2] 7, Op.set [5] [6] 8]).offset]? =
          some sl ∧ sl.key.data = [3] ∧ sl.val.data = [4]) ∧
        keyAt b'.kv 0 = keyAt (bucket.afterOps [Op.set [1] [2] 7, Op.set [5] [6] 8]).kv 0 ∧
        valAt b'.kv 0 = valAt (bucket.afterOps [Op.set [1] [2] 7, Op.set [5] [6] 8]).kv 0 ∧
        b'.offset = (bucket.afterOps [Op.set [1] [2] 7, Op.set [5] [6] 8]).offset + 1 ∧
        b'.collisions =
          (bucket.afterOps [Op.set [1] [2] 7, Op.set [5] [6] 8]).collisions + 1 :=
  ⟨bucket_afterOps_reachable (by decide), by decide, by decide,
    C28_first_collision _ (bucket_afterOps_reachable (by decide)) 7 0 [3] [4] (by decide)
      (by decide)⟩


/-! ## Claims C29 and C30: deletion on the collision path -/

/-- The bucket `del` produces when the key is stored in slot `idx` of the list
`CollisionIndex[h]`: the other slots `rest` of the list are stored back when there are two or
more, and a single one moves to the PrimaryIndex. -/
theorem del_col_hit {b : bucket} (hb : BInv b) {h idx : Nat} {k : Bytes} {idxs : List Nat} (hcol : GoMap.lookup h b.col = some idxs) (hi : idx ∈ idxs)
    (hk : keyAt b.kv idx = k) :
    ∃ rest, List.Perm idxs (idx :: rest) ∧
      ((2 ≤ rest.length ∧ b.del k h = some
          { bucket.del_slot { b with collisions := u64 (b.collisions + 1) } idx
              (slotAt b.kv idx) with col := GoMap.store h rest b.col }) ∨
        (∃ j, rest = [j] ∧ b.del k h = some
          { bucket.del_slot { b with collisions := u64 (b.collisions + 1) } idx
              (slotAt b.kv idx) with
            m := GoMap.store h j b.m, col := GoMap.delete h b.col })) := by
  have hc0 : b.collisions ≠ 0 := hb.latch (by
    intro e
    rw [e] at hcol
    cases hcol)
  obtain ⟨r, hr, _, hnone, hsome⟩ := scan_spec b.kv k idxs
    (fun i hi => hb.owns_lt_length (Or.inr ⟨idxs, hcol, hi⟩)) 0
  unfold bucket.del
  rw [if_pos hc0, hcol]
  dsimp only
  rw [hr]
  cases r with
  | none => exact absurd hk (hnone rfl idx hi)
  | some x =>
    obtain ⟨pos, idx', s⟩ := x
    obtain ⟨_, hp, hs, hk', _⟩ := hsome pos idx' s rfl
    have hs' : s = slotAt b.kv idx' := (slotAt_of_getElem? hs).symm
    subst hs'
    simp only [Nat.sub_zero] at hp
    have hi' : idx' ∈ idxs := List.getElem?_mem hp
    have hidx : idx' = idx :=
      hb.slot_unique (Or.inr ⟨idxs, hcol, hi'⟩) (Or.inr ⟨idxs, hcol, hi⟩)
        (show keyAt b.kv idx' = keyAt b.kv idx from hk'.trans hk.symm)
    subst hidx
    dsimp only
    cases hlast : idxs.getLast? with
    | none =>
      rw [List.getLast?_eq_none_iff] at hlast
      rw [hlast] at hp
      simp at hp
    | some last =>
      dsimp only
      have hperm := swap_remove_perm hp hlast
      have hlen2 := hb.colLen _ (GoMap.mem_of_lookup hcol)
      have hlen : ((idxs.set pos last).dropLast).length + 1 = idxs.length := by
        simpa using hperm.length_eq.symm
      refine ⟨(idxs.set pos last).dropLast, hperm, ?_⟩
      by_cases hrest : ((idxs.set pos last).dropLast).length ≥ 2
      · rw [if_pos hrest]
        exact Or.inl ⟨hrest, rfl⟩
      · rw [if_neg hrest]
        right
        generalize (idxs.set pos last).dropLast = rest at hlen hrest
        match rest, hlen, hrest with
        | [j], _, _ => exact ⟨j, rfl, rfl⟩
        | [], hlen, _ =>
          simp at hlen hlen2
          omega
        | _ :: _ :: _, _, hrest =>
          simp at hrest

/-- What `get` returns for the key stored in a slot referenced under `h`. -/
theorem get_of_owns {b : bucket} (hb : BInv b) {h j : Nat} (ho : b.owns h j)
    (dst : Option Bytes) :
    ∃ b1, b.get dst (keyAt b.kv j) h = some (b1, goAppend dst (valAt b.kv j), true) := by
  have he : b.entry h (keyAt b.kv j) = some (valAt b.kv j) :=
    (entry_eq_some_iff hb).2 ⟨j, ho, rfl, rfl⟩
  have h1 := get_eq hb dst (keyAt b.kv j) h
  rw [readOut_of_entry dst he, hasHash_of_entry he] at h1
  exact ⟨_, h1⟩

/-- After a `del` of `(h, k)` a `get` still returns the key and value of every other slot
referenced under `h`. -/
theorem get_after_del {b b' : bucket} (hb : BInv b) {h j : Nat} {k : Bytes}
    (hpost : DelPost b b' h k) (ho : b.owns h j) (hne : keyAt b.kv j ≠ k)
    (dst : Option Bytes) :
    ∃ b1, b'.get dst (keyAt b.kv j) h = some (b1, goAppend dst (valAt b.kv j), true) := by
  have he : b'.entry h (keyAt b.kv j) = some (valAt b.kv j) := by
    rw [hpost.entry, if_neg (fun e => hne e.2)]
    exact (entry_eq_some_iff hb).2 ⟨j, ho, rfl, rfl⟩
  have h1 := get_eq hpost.inv dst (keyAt b.kv j) h
  rw [readOut_of_entry dst he, hasHash_of_entry he] at h1
  exact ⟨_, h1⟩

/-- C29: the transition from a collision list to a single slot. When `del(K, h)` is applied
to a reachable bucket in which `CollisionIndex[h]` holds exactly two slots, `idx` storing `K`
and `j`, the call returns, and afterwards `h` is not a key of the CollisionIndex,
`PrimaryIndex[h]` is `j`, the slot index `idx` is the last element of the free list (the one
the next `set` of a new hash takes), both buffers of slot `idx` have length 0, and `get`
returns the key of slot `j` with its value. -/
theorem C29_multi_to_singleton (b : bucket) (hr : b.Reachable) (h idx j : Nat) (K : Bytes)
    (idxs : List Nat) (hcol : GoMap.lookup h b.col = some idxs) (hlen : idxs.length = 2)
    (hi : idx ∈ idxs) (hj : j ∈ idxs) (hne : j ≠ idx) (hk : keyAt b.kv idx = K) :
    ∃ b', b.del K h = some b' ∧
      GoMap.lookup h b'.col = none ∧ h ∉ b'.col.map Prod.fst ∧
      GoMap.lookup h b'.m = some j ∧
      b'.free = b.free ++ [idx] ∧ b'.free.getLast? = some idx ∧
      (∃ sl, b'.kv[idx]? = some sl ∧ sl.key.data.length = 0 ∧ sl.val.data.length = 0) ∧
      ∀ dst, ∃ b1, b'.get dst (keyAt b.kv j) h =
        some (b1, goAppend dst (valAt b.kv j), true) := by
  obtain ⟨hb, hc, _⟩ := bucket_reachable_inv hr
  obtain ⟨b'', hdel, hpost⟩ := del_spec hb (by omega) K h
  obtain ⟨rest, hperm, hcase⟩ := del_col_hit hb hcol hi hk
  have hrl : rest.length = 1 := by
    have := hperm.length_eq
    simp only [List.length_cons] at this
    omega
  have hoi : b.owns h idx := Or.inr ⟨idxs, hcol, hi⟩
  have hoj : b.owns h j := Or.inr ⟨idxs, hcol, hj⟩
  have hkj : keyAt b.kv j ≠ K := fun e => hne (hb.slot_unique hoj hoi (e.trans hk.symm))
  rcases hcase with ⟨h2, _⟩ | ⟨j', hrest, hdel'⟩
  · omega
  · have hjj : j' = j := by
      have hm : j ∈ idx :: rest := hperm.mem_iff.1 hj
      rw [hrest] at hm
      simp only [List.mem_cons, List.mem_singleton, List.not_mem_nil, or_false] at hm
      exact (hm.resolve_left hne).symm
    subst hjj
    have hbb : b'' = _ := Option.some.inj (hdel.symm.trans hdel')
    have hget := fun dst => get_after_del hb hpost hoj hkj dst
    rw [hbb] at hget
    have hlk : GoMap.lookup h (GoMap.delete h b.col) = none := by
      rw [GoMap.lookup_delete]; simp
    refine ⟨_, hdel', hlk, ?_, ?_, rfl, ?_, ?_, hget⟩
    · rw [mem_keys_iff_lookup]
      exact fun hne' => hne' hlk
    · show GoMap.lookup h (GoMap.store h j' b.m) = some j'
      rw [GoMap.lookup_store]; simp
    · show (b.free ++ [idx]).getLast? = some idx
      simp
    · have hlt : idx < b.kv.length := hb.owns_lt_length hoi
      refine ⟨{ key := clearBuf (slotAt b.kv idx).key, val := clearBuf (slotAt b.kv idx).val },
        ?_, rfl, rfl⟩
      show (b.kv.set idx _)[idx]? = _
      simp [hlt]

theorem C29_multi_to_singleton_witness :
    (bucket.afterOps [Op.set [1] [2] 7, Op.set [3] [4] 7]).Reachable ∧
      GoMap.lookup 7 (bucket.afterOps [Op.set [1] [2] 7, Op.set [3] [4] 7]).col =
        some [0, 1] ∧
      keyAt (bucket.afterOps [Op.set [1] [2] 7, Op.set [3] [4] 7]).kv 0 = [1] ∧
      keyAt (bucket.afterOps [Op.set [1] [2] 7, Op.set [3] [4] 7]).kv 1 = [3] ∧
      valAt (bucket.afterOps [Op.set [1] [2] 7, Op.set [3] [4] 7]).kv 1 = [4] ∧
      ∃ b', (bucket.afterOps [Op.set [1] [2] 7, Op.set [3] [4] 7]).del [1] 7 = some b' ∧
        GoMap.lookup 7 b'.col = none ∧ 7 ∉ b'.col.map Prod.fst ∧
        GoMap.lookup 7 b'.m = some 1 ∧
        b'.free = (bucket.afterOps [Op.set [1] [2] 7, Op.set [3] [4] 7]).free ++ [0] ∧
        b'.free.getLast? = some 0 ∧
        (∃ sl, b'.kv[0]? = some sl ∧ sl.key.data.length = 0 ∧ sl.val.data.length = 0) ∧
        ∀ dst, ∃ b1,
          b'.get dst (keyAt (bucket.afterOps [Op.set [1] [2] 7, Op.set [3] [4] 7]).kv 1) 7 =
            some (b1, goAppend dst
              (valAt (bucket.afterOps [Op.set [1] [2] 7, Op.set [3] [4] 7]).kv 1), true) :=
  ⟨bucket_afterOps_reachable (by decide), by decide, by decide, by decide, by decide,
    C29_multi_to_singleton _ (bucket_afterOps_reachable (by decide)) 7 0 1 [1] [0, 1]
      (by decide) (by decide) (by decide) (by decide) (by decide) (by decide)⟩

/-- C30: removal by swap with the last element keeps the other entries. When `del(K, h)` is
applied to a reachable bucket in which `CollisionIndex[h]` holds three or more slots, one of
them, `idx`, storing `K`, the call returns, and afterwards `CollisionIndex[h]` holds the
other slot indices of the list, each as often as before and in some order, `h` is not a key
of the PrimaryIndex, and `get` returns the key of every other slot of the list with its
value. -/
theorem C30_swap_remove_keeps_others (b : bucket) (hr : b.Reachable) (h idx : Nat) (K : Bytes)
    (idxs : List Nat) (hcol : GoMap.lookup h b.col = some idxs) (hlen : 3 ≤ idxs.length)
    (hi : idx ∈ idxs) (hk : keyAt b.kv idx = K) :
    ∃ b' rest, b.del K h = some b' ∧ GoMap.lookup h b'.col = some rest ∧
      List.Perm rest (idxs.erase idx) ∧ rest.length + 1 = idxs.length ∧
      GoMap.lookup h b'.m = none ∧ h ∉ b'.m.map Prod.fst ∧
      ∀ j ∈ idxs, j ≠ idx → ∀ dst, ∃ b1, b'.get dst (keyAt b.kv j) h =
        some (b1, goAppend dst (valAt b.kv j), true) := by
  obtain ⟨hb, hc, _⟩ := bucket_reachable_inv hr
  obtain ⟨b'', hdel, hpost⟩ := del_spec hb (by omega) K h
  obtain ⟨rest, hperm, hcase⟩ := del_col_hit hb hcol hi hk
  have hrl : rest.length + 1 = idxs.length := by
    have := hperm.length_eq
    simp only [List.length_cons] at this
    omega
  have hoi : b.owns h idx := Or.inr ⟨idxs, hcol, hi⟩
  have hm : GoMap.lookup h b.m = none := hb.disj h (by rw [hcol]; exact Option.some_ne_none _)
  rcases hcase with ⟨_, hdel'⟩ | ⟨j', hrest, _⟩
  · have hbb : b'' = _ := Option.some.inj (hdel.symm.trans hdel')
    have hget : ∀ j ∈ idxs, j ≠ idx → ∀ dst, ∃ b1, b''.get dst (keyAt b.kv j) h =
        some (b1, goAppend dst (valAt b.kv j), true) := by
      intro j hj hne dst
      have hoj : b.owns h j := Or.inr ⟨idxs, hcol, hj⟩
      have hkj : keyAt b.kv j ≠ K := fun e => hne (hb.slot_unique hoj hoi (e.trans hk.symm))
      exact get_after_del hb hpost hoj hkj dst
    rw [hbb] at hget
    refine ⟨_, rest, hdel', ?_, ?_, hrl, hm, ?_, hget⟩
    · show GoMap.lookup h (GoMap.store h rest b.col) = some rest
      rw [GoMap.lookup_store]; simp
    · have := hperm.erase idx
      rw [List.erase_cons_head] at this
      exact this.symm
    · show h ∉ b.m.map Prod.fst
      rw [mem_keys_iff_lookup]
      exact fun hne' => hne' hm
  · rw [hrest] at hrl
    simp only [List.length_singleton] at hrl
    omega

theorem C30_swap_remove_keeps_others_witness :
    (bucket.afterOps [Op.set [1] [2] 7, Op.set [3] [4] 7, Op.set [5] [6] 7,
        Op.set [7] [8] 7]).Reachable ∧
      GoMap.lookup 7 (bucket.afterOps [Op.set [1] [2] 7, Op.set [3] [4] 7, Op.set [5] [6] 7,
        Op.set [7] [8] 7]).col = some [0, 1, 2, 3] ∧
      keyAt (bucket.afterOps [Op.set [1] [2] 7, Op.set [3] [4] 7, Op.set [5] [6] 7,
        Op.set [7] [8] 7]).kv 1 = [3] ∧
      ∃ b' rest, (bucket.afterOps [Op.set [1] [2] 7, Op.set [3] [4] 7, Op.set [5] [6] 7,
          Op.set [7] [8] 7]).del [3] 7 = some b' ∧
        GoMap.lookup 7 b'.col = some rest ∧
        List.Perm rest ([0, 1, 2, 3].erase 1) ∧ rest.length + 1 = [0, 1, 2, 3].length ∧
        GoMap.lookup 7 b'.m = none ∧ 7 ∉ b'.m.map Prod.fst ∧
        ∀ j ∈ [0, 1, 2, 3], j ≠ 1 → ∀ dst, ∃ b1,
          b'.get dst (keyAt (bucket.afterOps [Op.set [1] [2] 7, Op.set [3] [4] 7,
            Op.set [5] [6] 7, Op.set [7] [8] 7]).kv j) 7 =
            some (b1, goAppend dst (valAt (bucket.afterOps [Op.set [1] [2] 7,
              Op.set [3] [4] 7, Op.set [5] [6] 7, Op.set [7] [8] 7]).kv j), true) :=
  ⟨bucket_afterOps_reachable (by decide), by decide, by decide,
    C30_swap_remove_keeps_others _ (bucket_afterOps_reachable (by decide)) 7 1 [3]
      [0, 1, 2, 3] (by decide) (by decide) (by decide) (by decide)⟩


/-! ## Claim C21: routing to the bucket `h % 512` -/

/-- C21: shard routing and independence. In every reachable state each of `Set`, `Get`,
`HasGet`, `Has` and `Del` on a key with hash `h` returns, the bucket number `h % 512` after
the call is the result of the bucket operation (`set`, `get`, `has`, `del`) on that bucket
before the call, and every other bucket is, with all its fields, as it was. -/
theorem C21_shard_routing (s : Storage) (hr : Reachable s) (hash : Bytes → Nat) (k v : Bytes)
    (dst : Option Bytes) :
    (bucketIdx (hash k)).val = hash k % 512 ∧
      (∃ s', Storage.Set hash s k v = some s' ∧
        (s.buckets (bucketIdx (hash k))).set k v (hash k) =
          some (s'.buckets (bucketIdx (hash k))) ∧
        ∀ j, j ≠ bucketIdx (hash k) → s'.buckets j = s.buckets j) ∧
      (∃ s' out found, Storage.Get hash s dst k = some (s', out) ∧
        (s.buckets (bucketIdx (hash k))).get dst k (hash k) =
          some (s'.buckets (bucketIdx (hash k)), out, found) ∧
        ∀ j, j ≠ bucketIdx (hash k) → s'.buckets j = s.buckets j) ∧
      (∃ s' out found, Storage.HasGet hash s dst k = some (s', out, found) ∧
        (s.buckets (bucketIdx (hash k))).get dst k (hash k) =
          some (s'.buckets (bucketIdx (hash k)), out, found) ∧
        ∀ j, j ≠ bucketIdx (hash k) → s'.buckets j = s.buckets j) ∧
      (∃ s' r, Storage.Has hash s k = some (s', r) ∧
        (s.buckets (bucketIdx (hash k))).has k (hash k) =
          some (s'.buckets (bucketIdx (hash k)), r) ∧
        ∀ j, j ≠ bucketIdx (hash k) → s'.buckets j = s.buckets j) ∧
      (∃ s', Storage.Del hash s k = some s' ∧
        (s.buckets (bucketIdx (hash k))).del k (hash k) =
          some (s'.buckets (bucketIdx (hash k))) ∧
        ∀ j, j ≠ bucketIdx (hash k) → s'.buckets j = s.buckets j) := by
  obtain ⟨n, hn, hs⟩ := hr.inv
  have hb := hs.inv (bucketIdx (hash k))
  have hget := get_eq hb dst k (hash k)
  have hhas := has_eq hb k (hash k)
  refine ⟨rfl, ?_, ?_, ?_, ?_, ?_⟩
  · obtain ⟨b', hset, hcol, _, _⟩ := colSet_spec hs (by omega) k v (hash k)
    refine ⟨_, hcol, ?_, fun j hj => put_other s _ hj⟩
    rw [put_same]; exact hset
  · have hG : Storage.Get hash s dst k = some (s.put (bucketIdx (hash k))
        ((s.buckets (bucketIdx (hash k))).afterRead (hash k) k),
        (s.buckets (bucketIdx (hash k))).readOut dst (hash k) k) := by
      simp only [Storage.Get, Storage.colGet, Storage.getAt, hget, Option.map_some']
    refine ⟨_, _, (s.buckets (bucketIdx (hash k))).hasHash (hash k), hG, ?_,
      fun j hj => put_other s _ hj⟩
    rw [put_same]; exact hget
  · have hG : Storage.HasGet hash s dst k = some (s.put (bucketIdx (hash k))
        ((s.buckets (bucketIdx (hash k))).afterRead (hash k) k),
        (s.buckets (bucketIdx (hash k))).readOut dst (hash k) k,
        (s.buckets (bucketIdx (hash k))).hasHash (hash k)) := by
      simp only [Storage.HasGet, Storage.getAt, hget, Option.map_some']
    refine ⟨_, _, _, hG, ?_, fun j hj => put_other s _ hj⟩
    rw [put_same]; exact hget
  · have hH : Storage.Has hash s k = some (s.put (bucketIdx (hash k))
        ((s.buckets (bucketIdx (hash k))).afterRead (hash k) k),
        ((s.buckets (bucketIdx (hash k))).entry (hash k) k).isSome) := by
      simp only [Storage.Has, Storage.colHas, hhas, Option.map_some']
    refine ⟨_, _, hH, ?_, fun j hj => put_other s _ hj⟩
    rw [put_same]; exact hhas
  · obtain ⟨b', hdel, hcol, _, _⟩ := colDel_spec hs (by omega) k (hash k)
    refine ⟨_, hcol, ?_, fun j hj => put_other s _ hj⟩
    rw [put_same]; exact hdel

theorem C21_shard_routing_witness :
    Reachable (afterOps [Op.set [1] [2] 7, Op.set [3] [4] 1031]) ∧
      (bucketIdx 1031).val = 7 ∧
      ∃ s', Storage.Set (fun _ => 1031) (afterOps [Op.set [1] [2] 7, Op.set [3] [4] 1031])
          [5] [6] = some s' ∧
        ((afterOps [Op.set [1] [2] 7, Op.set [3] [4] 1031]).buckets (bucketIdx 1031)).set
          [5] [6] 1031 = some (s'.buckets (bucketIdx 1031)) ∧
        ∀ j, j ≠ bucketIdx 1031 → s'.buckets j =
          (afterOps [Op.set [1] [2] 7, Op.set [3] [4] 1031]).buckets j :=
  ⟨afterOps_reachable (by decide), by decide,
    (C21_shard_routing _ (afterOps_reachable (by decide)) (fun _ => 1031) [5] [6] none).2.1⟩


/-! ## Claim C39: the test of the collision counter -/

/-- C39: the test of the collision counter is sound. In every bucket state reachable from a
fresh bucket, `get`, `has`, `set` and `del` return the same result and produce the same
bucket (indices, slab, free list, cursor, size and counters) as the variant of the operation
that ignores the collision counter and always consults the CollisionIndex first. -/
theorem C39_collision_gate_sound (b : bucket) (hr : b.Reachable) :
    (∀ dst k h, b.get dst k h = b.get_ungated dst k h) ∧
      (∀ k h, b.has k h = b.has_ungated k h) ∧
      (∀ k v h, b.set k v h = b.set_ungated k v h) ∧
      (∀ k h, b.del k h = b.del_ungated k h) := by
  obtain ⟨hb, _, _⟩ := bucket_reachable_inv hr
  refine ⟨?_, ?_, ?_, ?_⟩
  · intro dst k h
    unfold bucket.get bucket.get_ungated
    dsimp only
    by_cases hc0 : b.collisions = 0
    · rw [if_neg (not_not.2 hc0), hb.lookup_col_none hc0 h]
    · rw [if_pos hc0]
  · intro k h
    unfold bucket.has bucket.has_ungated
    dsimp only
    by_cases hc0 : b.collisions = 0
    · rw [if_neg (not_not.2 hc0), hb.lookup_col_none hc0 h]
    · rw [if_pos hc0]
  · intro k v h
    unfold bucket.set bucket.set_ungated
    dsimp only
    by_cases hc0 : b.collisions = 0
    · rw [if_neg (not_not.2 hc0), hb.lookup_col_none hc0 h]
    · rw [if_pos hc0]
  · intro k h
    unfold bucket.del bucket.del_ungated
    by_cases hc0 : b.collisions = 0
    · rw [if_neg (not_not.2 hc0), hb.lookup_col_none hc0 h]
    · rw [if_pos hc0]

theorem C39_collision_gate_sound_witness :
    (bucket.afterOps [Op.set [1] [2] 7, Op.set [3] [4] 7, Op.set [5] [6] 8]).Reachable ∧
      (bucket.afterOps [Op.set [1] [2] 7, Op.set [3] [4] 7, Op.set [5] [6] 8]).collisions
        = 1 ∧
      (∀ dst k h,
        (bucket.afterOps [Op.set [1] [2] 7, Op.set [3] [4] 7, Op.set [5] [6] 8]).get dst k h =
          (bucket.afterOps [Op.set [1] [2] 7, Op.set [3] [4] 7,
            Op.set [5] [6] 8]).get_ungated dst k h) ∧
      (∀ k h,
        (bucket.afterOps [Op.set [1] [2] 7, Op.set [3] [4] 7, Op.set [5] [6] 8]).del k h =
          (bucket.afterOps [Op.set [1] [2] 7, Op.set [3] [4] 7,
            Op.set [5] [6] 8]).del_ungated k h) :=
  ⟨bucket_afterOps_reachable (by decide), by decide,
    (C39_collision_gate_sound _ (bucket_afterOps_reachable (by decide))).1,
    (C39_collision_gate_sound _ (bucket_afterOps_reachable (by decide))).2.2.2⟩


/-! ## Claims C37 and C38: reads -/

/-- The part of `get` from label `mcheck` on changes the counters of misses and collisions
only. -/
theorem get_mcheck_frame {b : bucket} {dst : Option Bytes} {k : Bytes} {h : Nat}
    {r : bucket × Option Bytes × Bool} (hg : b.get_mcheck dst k h = some r) :
    b.sameContents r.1 ∧ r.1.setCalls = b.setCalls := by
  unfold bucket.get_mcheck at hg
  split at hg
  · split at hg
    · cases hg
    · split at hg <;> (cases hg; exact ⟨⟨rfl, rfl, rfl, rfl, rfl, rfl⟩, rfl⟩)
  · cases hg
    exact ⟨⟨rfl, rfl, rfl, rfl, rfl, rfl⟩, rfl⟩

theorem has_mcheck_frame {b : bucket} {k : Bytes} {h : Nat} {r : bucket × Bool}
    (hg : b.has_mcheck k h = some r) : b.sameContents r.1 ∧ r.1.setCalls = b.setCalls := by
  unfold bucket.has_mcheck at hg
  split at hg
  · split at hg
    · cases hg
    · split at hg <;> (cases hg; exact ⟨⟨rfl, rfl, rfl, rfl, rfl, rfl⟩, rfl⟩)
  · cases hg
    exact ⟨⟨rfl, rfl, rfl, rfl, rfl, rfl⟩, rfl⟩

/-- On every bucket, `get` changes the counters of get calls, misses and collisions only. -/
theorem get_frame {b : bucket} {dst : Option Bytes} {k : Bytes} {h : Nat}
    {r : bucket × Option Bytes × Bool} (hg : b.get dst k h = some r) :
    b.sameContents r.1 ∧ r.1.setCalls = b.setCalls := by
  unfold bucket.get at hg
  dsimp only at hg
  split at hg
  · split at hg
    · split at hg
      · cases hg
      · cases hg
        exact ⟨⟨rfl, rfl, rfl, rfl, rfl, rfl⟩, rfl⟩
      · cases hg
        exact ⟨⟨rfl, rfl, rfl, rfl, rfl, rfl⟩, rfl⟩
    · have h1 := get_mcheck_frame hg
      exact h1
  · have h1 := get_mcheck_frame hg
    exact h1

/-- On every bucket, `has` changes the counters of get calls, misses and collisions only. -/
theorem has_frame {b : bucket} {k : Bytes} {h : Nat} {r : bucket × Bool}
    (hg : b.has k h = some r) : b.sameContents r.1 ∧ r.1.setCalls = b.setCalls := by
  unfold bucket.has at hg
  dsimp only at hg
  split at hg
  · split at hg
    · split at hg
      · cases hg
      · cases hg
        exact ⟨⟨rfl, rfl, rfl, rfl, rfl, rfl⟩, rfl⟩
      · cases hg
        exact ⟨⟨rfl, rfl, rfl, rfl, rfl, rfl⟩, rfl⟩
    · have h1 := has_mcheck_frame hg
      exact h1
  · have h1 := has_mcheck_frame hg
    exact h1

/-- C37: `has` mirrors `get`. In every reachable bucket state, for every key, hash and
destination, `has` and `get` return and produce the same bucket: one more get call, one more
miss when the key is absent, one more collision under the same condition, and both indices,
the slab, the free list, the cursor, the size and the set calls as they were. -/
theorem C37_has_mirrors_get (b : bucket) (hr : b.Reachable) (dst : Option Bytes) (k : Bytes)
    (h : Nat) :
    ∃ b' out found r, b.get dst k h = some (b', out, found) ∧ b.has k h = some (b', r) ∧
      b.sameContents b' ∧ b'.setCalls = b.setCalls := by
  obtain ⟨hb, _, _⟩ := bucket_reachable_inv hr
  exact ⟨_, _, _, _, get_eq hb dst k h, has_eq hb k h, afterRead_sameContents b h k, rfl⟩

theorem C37_has_mirrors_get_witness :
    (bucket.afterOps [Op.set [1] [2] 7, Op.set [3] [4] 7, Op.set [5] [6] 8]).Reachable ∧
      ∃ b' out found r,
        (bucket.afterOps [Op.set [1] [2] 7, Op.set [3] [4] 7, Op.set [5] [6] 8]).get none
          [9] 7 = some (b', out, found) ∧
        (bucket.afterOps [Op.set [1] [2] 7, Op.set [3] [4] 7, Op.set [5] [6] 8]).has
          [9] 7 = some (b', r) ∧
        (bucket.afterOps [Op.set [1] [2] 7, Op.set [3] [4] 7,
          Op.set [5] [6] 8]).sameContents b' ∧
        b'.setCalls =
          (bucket.afterOps [Op.set [1] [2] 7, Op.set [3] [4] 7, Op.set [5] [6] 8]).setCalls :=
  ⟨bucket_afterOps_reachable (by decide),
    C37_has_mirrors_get _ (bucket_afterOps_reachable (by decide)) none [9] 7⟩

/-- C38: reads do not modify the contents. For every bucket (reachable or not), a `get` and
a `has` that return leave the PrimaryIndex, the CollisionIndex, the slab, the free list, the
append cursor, the byte size and the set calls as they were: they can change the get calls,
the misses and the collisions only. -/
theorem C38_reads_keep_contents (b : bucket) (dst : Option Bytes) (k : Bytes) (h : Nat) :
    (∀ r, b.get dst k h = some r →
        r.1.m = b.m ∧ r.1.col = b.col ∧ r.1.kv = b.kv ∧ r.1.free = b.free ∧
          r.1.offset = b.offset ∧ r.1.size = b.size ∧ r.1.setCalls = b.setCalls) ∧
      (∀ r, b.has k h = some r →
        r.1.m = b.m ∧ r.1.col = b.col ∧ r.1.kv = b.kv ∧ r.1.free = b.free ∧
          r.1.offset = b.offset ∧ r.1.size = b.size ∧ r.1.setCalls = b.setCalls) := by
  constructor
  · intro r hg
    obtain ⟨⟨h1, h2, h3, h4, h5, h6⟩, h7⟩ := get_frame hg
    exact ⟨h1, h2, h3, h4, h5, h6, h7⟩
  · intro r hg
    obtain ⟨⟨h1, h2, h3, h4, h5, h6⟩, h7⟩ := has_frame hg
    exact ⟨h1, h2, h3, h4, h5, h6, h7⟩

theorem C38_reads_keep_contents_witness :
    bucket.zero.init.get none [1] 7 = some (bucket.zero.init.afterRead 7 [1],
        bucket.zero.init.readOut none 7 [1], bucket.zero.init.hasHash 7) ∧
      (bucket.zero.init.afterRead 7 [1]).m = bucket.zero.init.m ∧
      (bucket.zero.init.afterRead 7 [1]).col = bucket.zero.init.col ∧
      (bucket.zero.init.afterRead 7 [1]).kv = bucket.zero.init.kv ∧
      (bucket.zero.init.afterRead 7 [1]).free = bucket.zero.init.free ∧
      (bucket.zero.init.afterRead 7 [1]).offset = bucket.zero.init.offset ∧
      (bucket.zero.init.afterRead 7 [1]).size = bucket.zero.init.size ∧
      (bucket.zero.init.afterRead 7 [1]).setCalls = bucket.zero.init.setCalls :=
  ⟨get_eq BInv.zero_init none [1] 7,
    (C38_reads_keep_contents bucket.zero.init none [1] 7).1 _
      (get_eq BInv.zero_init none [1] 7)⟩


/-! ## The miss counter of a reachable bucket -/

/-- One call on a bucket adds at most one miss. -/
theorem bucket_step_misses {b b' : bucket} (hb : BInv b) {op : Op}
    (hstep : b.step op = some b') : b'.misses ≤ b.misses + 1 := by
  cases op with
  | set k v h =>
    obtain ⟨_, _, h3, _⟩ := set_counters hb k v h hstep
    rw [h3]; exact Nat.le_succ _
  | get dst k h =>
    simp only [bucket.step, get_eq hb, Option.map_some', Option.some.injEq] at hstep
    rw [← hstep]
    simp only [bucket.afterRead]
    split
    · exact u64_succ_le (Nat.le_refl _)
    · exact Nat.le_succ _
  | has k h =>
    simp only [bucket.step, has_eq hb, Option.map_some', Option.some.injEq] at hstep
    rw [← hstep]
    simp only [bucket.afterRead]
    split
    · exact u64_succ_le (Nat.le_refl _)
    · exact Nat.le_succ _
  | del k h =>
    obtain ⟨_, _, h3, _⟩ := del_counters hb k h hstep
    rw [h3]
    split
    · exact u64_succ_le (Nat.le_refl _)
    · exact Nat.le_succ _
  | reset =>
    have := Option.some.inj hstep
    rw [← this]
    exact Nat.zero_le _

theorem bucket_run_misses (ops : List Op) {n : Nat} {b b' : bucket} (hb : BInv b)
    (hc : b.collisions ≤ n) (ho : b.offset ≤ n) (hm : b.misses ≤ n)
    (hn : n + ops.length < 2 ^ 64) (hrun : b.run ops = some b') :
    b'.misses ≤ n + ops.length := by
  induction ops generalizing n b with
  | nil =>
    have : b = b' := Option.some.inj hrun
    rw [← this]
    exact hm
  | cons op ops ih =>
    simp only [List.length_cons] at hn ⊢
    obtain ⟨b1, h1, hb1, hc1, ho1⟩ := bucket_step_inv hb hc ho (by omega) op
    simp only [bucket.run, h1, Option.some_bind] at hrun
    have hm1 : b1.misses ≤ n + 1 := le_trans (bucket_step_misses hb h1) (Nat.succ_le_succ hm)
    have := ih hb1 hc1 ho1 hm1 (by omega) hrun
    omega

/-- The miss counter of a reachable bucket is below `2 ^ 63`. -/
theorem bucket_reachable_misses {b : bucket} (hr : b.Reachable) : b.misses < 2 ^ 63 := by
  obtain ⟨ops, hn, hrun⟩ := hr
  have := bucket_run_misses ops BInv.zero_init (Nat.le_refl 0) (Nat.le_refl 0) (Nat.le_refl 0)
    (by omega) hrun
  omega

/-! ## Claims C32 to C34: when the collision counter grows -/

/-- C32: activity on the collision branch is counted once per operation. In every reachable
bucket state and for every hash `h` that is a key of the CollisionIndex, each `get`, `has`,
`set` and `del` called with hash `h` returns and raises the collision counter by exactly 1,
for every key, found or not. -/
theorem C32_collision_branch_counted_once (b : bucket) (hr : b.Reachable) (h : Nat)
    (hcol : h ∈ b.col.map Prod.fst) (dst : Option Bytes) (k v : Bytes) :
    (∃ r, b.get dst k h = some r ∧ r.1.collisions = b.collisions + 1) ∧
      (∃ r, b.has k h = some r ∧ r.1.collisions = b.collisions + 1) ∧
      (∃ b', b.set k v h = some b' ∧ b'.collisions = b.collisions + 1) ∧
      (∃ b', b.del k h = some b' ∧ b'.collisions = b.collisions + 1) := by
  obtain ⟨hb, hc, ho⟩ := bucket_reachable_inv hr
  have hu : u64 (b.collisions + 1) = b.collisions + 1 := u64_of_lt (by omega)
  obtain ⟨idxs, hl⟩ : ∃ idxs, GoMap.lookup h b.col = some idxs :=
    Option.ne_none_iff_exists'.1 (mem_keys_iff_lookup.1 hcol)
  have hbump := readBumps_of_col k hl
  have hread : (b.afterRead h k).collisions = b.collisions + 1 := by
    simp only [bucket.afterRead, hbump, if_true]
    exact hu
  refine ⟨⟨_, get_eq hb dst k h, hread⟩, ⟨_, has_eq hb k h, hread⟩, ?_, ?_⟩
  · obtain ⟨b', hset, _⟩ := set_spec hb (by omega) (by omega) k v h
    obtain ⟨_, _, _, h4⟩ := set_counters hb k v h hset
    refine ⟨b', hset, ?_⟩
    rw [h4, hbump, if_pos rfl]
    exact hu
  · obtain ⟨b', hdel, _⟩ := del_spec hb (by omega) k h
    obtain ⟨_, _, _, h4⟩ := del_counters hb k h hdel
    refine ⟨b', hdel, ?_⟩
    rw [h4, hbump, if_pos rfl]
    exact hu

theorem C32_collision_branch_counted_once_witness :
    (bucket.afterOps [Op.set [1] [2] 7, Op.set [3] [4] 7]).Reachable ∧
      7 ∈ (bucket.afterOps [Op.set [1] [2] 7, Op.set [3] [4] 7]).col.map Prod.fst ∧
      (∃ r, (bucket.afterOps [Op.set [1] [2] 7, Op.set [3] [4] 7]).get none [1] 7 = some r ∧
        r.1.collisions = (bucket.afterOps [Op.set [1] [2] 7, Op.set [3] [4] 7]).collisions
          + 1) ∧
      (∃ b', (bucket.afterOps [Op.set [1] [2] 7, Op.set [3] [4] 7]).del [9] 7 = some b' ∧
        b'.collisions = (bucket.afterOps [Op.set [1] [2] 7, Op.set [3] [4] 7]).collisions
          + 1) :=
  ⟨bucket_afterOps_reachable (by decide), by decide,
    (C32_collision_branch_counted_once _ (bucket_afterOps_reachable (by decide)) 7
      (by decide) none [1] [2]).1,
    (C32_collision_branch_counted_once _ (bucket_afterOps_reachable (by decide)) 7
      (by decide) none [9] [2]).2.2.2⟩

/-- C33: a successful operation on the primary path does not touch the collision counter.
In every reachable bucket state in which hash `h` is a key of the PrimaryIndex at slot `i`,
with `K` the key stored in slot `i`, the calls `get(dst, K, h)`, `has(K, h)`, `set(K, V, h)`
and `del(K, h)` return and leave the collision counter as it was, whatever its value. -/
theorem C33_primary_hit_keeps_collisions (b : bucket) (hr : b.Reachable) (h i : Nat)
    (hm : GoMap.lookup h b.m = some i) (dst : Option Bytes) (V : Bytes) :
    (∃ r, b.get dst (keyAt b.kv i) h = some r ∧ r.1.collisions = b.collisions ∧
        r.2.1 = goAppend dst (valAt b.kv i)) ∧
      (∃ r, b.has (keyAt b.kv i) h = some r ∧ r.1.collisions = b.collisions ∧ r.2 = true) ∧
      (∃ b', b.set (keyAt b.kv i) V h = some b' ∧ b'.collisions = b.collisions) ∧
      (∃ b', b.del (keyAt b.kv i) h = some b' ∧ b'.collisions = b.collisions) := by
  obtain ⟨hb, hc, ho⟩ := bucket_reachable_inv hr
  have hcol : GoMap.lookup h b.col = none := by
    by_contra hne
    rw [hb.disj h hne] at hm
    cases hm
  have hbump : b.readBumps h (keyAt b.kv i) = false := by
    rw [readBumps_of_primary _ hcol hm]
    simp
  have hread : (b.afterRead h (keyAt b.kv i)).collisions = b.collisions := by
    simp only [bucket.afterRead, hbump]
    rfl
  have he : b.entry h (keyAt b.kv i) = some (valAt b.kv i) := entry_primary hcol hm
  refine ⟨⟨_, get_eq hb dst _ h, hread, readOut_of_entry dst he⟩,
    ⟨_, has_eq hb _ h, hread, by rw [he]; rfl⟩, ?_, ?_⟩
  · obtain ⟨b', hset, _⟩ := set_spec hb (by omega) (by omega) (keyAt b.kv i) V h
    obtain ⟨_, _, _, h4⟩ := set_counters hb _ V h hset
    refine ⟨b', hset, ?_⟩
    rw [h4, hbump]
    rfl
  · obtain ⟨b', hdel, _⟩ := del_spec hb (by omega) (keyAt b.kv i) h
    obtain ⟨_, _, _, h4⟩ := del_counters hb _ h hdel
    refine ⟨b', hdel, ?_⟩
    rw [h4, hbump]
    rfl

theorem C33_primary_hit_keeps_collisions_witness :
    (bucket.afterOps [Op.set [1] [2] 7, Op.set [3] [4] 7, Op.set [5] [6] 8]).Reachable ∧
      GoMap.lookup 8 (bucket.afterOps [Op.set [1] [2] 7, Op.set [3] [4] 7,
        Op.set [5] [6] 8]).m = some 2 ∧
      keyAt (bucket.afterOps [Op.set [1] [2] 7, Op.set [3] [4] 7, Op.set [5] [6] 8]).kv 2
        = [5] ∧
      (bucket.afterOps [Op.set [1] [2] 7, Op.set [3] [4] 7, Op.set [5] [6] 8]).collisions
        = 1 ∧
      (∃ b', (bucket.afterOps [Op.set [1] [2] 7, Op.set [3] [4] 7, Op.set [5] [6] 8]).del
          (keyAt (bucket.afterOps [Op.set [1] [2] 7, Op.set [3] [4] 7,
            Op.set [5] [6] 8]).kv 2) 8 = some b' ∧
        b'.collisions =
          (bucket.afterOps [Op.set [1] [2] 7, Op.set [3] [4] 7,
            Op.set [5] [6] 8]).collisions) :=
  ⟨bucket_afterOps_reachable (by decide), by decide, by decide, by decide,
    (C33_primary_hit_keeps_collisions _ (bucket_afterOps_reachable (by decide)) 8 2
      (by decide) none [9]).2.2.2⟩

/-- The bucket `del` produces when the hash is a key of the PrimaryIndex whose slot stores
another key: one more collision and nothing else. -/
theorem del_primary_mismatch_eq {b : bucket} (hb : BInv b) {h i : Nat} {k : Bytes}
    (hm : GoMap.lookup h b.m = some i) (hk : keyAt b.kv i ≠ k) :
    b.del k h = some { b with collisions := u64 (b.collisions + 1) } := by
  have hcol : GoMap.lookup h b.col = none := by
    by_contra hne
    rw [hb.disj h hne] at hm
    cases hm
  have hget : b.kv[i]? = some (slotAt b.kv i) := hb.getElem?_of_owns (Or.inl hm)
  have hmc : b.del_mcheck k h = some { b with collisions := u64 (b.collisions + 1) } := by
    unfold bucket.del_mcheck
    rw [hm]
    dsimp only
    rw [hget]
    dsimp only
    have hk' : ¬ (slotAt b.kv i).key.data = k := hk
    rw [if_neg hk']
  unfold bucket.del
  by_cases hc0 : b.collisions = 0
  · rw [if_neg (not_not.2 hc0)]
    exact hmc
  · rw [if_pos hc0, hcol]
    exact hmc

/-- C34: a hash match with a key mismatch on the primary path. In every reachable bucket
state in which hash `h` is a key of the PrimaryIndex at a slot that stores a key other than
`K`: `del(K, h)` returns the bucket with the collision counter raised by exactly 1 and every
other field as it was; `get(dst, K, h)` and `has(K, h)` raise the collision counter by
exactly 1 and the miss counter by exactly 1, leave the contents as they were, and return
`dst` unchanged and `false`. -/
theorem C34_primary_key_mismatch (b : bucket) (hr : b.Reachable) (h i : Nat) (K : Bytes)
    (hm : GoMap.lookup h b.m = some i) (hk : keyAt b.kv i ≠ K) (dst : Option Bytes) :
    b.del K h = some { b with collisions := b.collisions + 1 } ∧
      (∃ b' found, b.get dst K h = some (b', dst, found) ∧
        b'.collisions = b.collisions + 1 ∧ b'.misses = b.misses + 1 ∧ b.sameContents b') ∧
      (∃ b', b.has K h = some (b', false) ∧
        b'.collisions = b.collisions + 1 ∧ b'.misses = b.misses + 1 ∧ b.sameContents b') := by
  obtain ⟨hb, hc, ho⟩ := bucket_reachable_inv hr
  have hmiss := bucket_reachable_misses hr
  have hu : u64 (b.collisions + 1) = b.collisions + 1 := u64_of_lt (by omega)
  have hum : u64 (b.misses + 1) = b.misses + 1 := u64_of_lt (by omega)
  have hcol : GoMap.lookup h b.col = none := by
    by_contra hne
    rw [hb.disj h hne] at hm
    cases hm
  have hbump : b.readBumps h K = true := by
    rw [readBumps_of_primary K hcol hm]
    simp [hk]
  have he : b.entry h K = none := by
    simp [bucket.entry, bucket.slotOf, hcol, hm, hk]
  have hrc : (b.afterRead h K).collisions = b.collisions + 1 := by
    simp only [bucket.afterRead, hbump, if_true]
    exact hu
  have hrm : (b.afterRead h K).misses = b.misses + 1 := by
    simp only [bucket.afterRead, he, if_true]
    exact hum
  refine ⟨?_, ?_, ?_⟩
  · rw [del_primary_mismatch_eq hb hm hk, hu]
  · have h1 := get_eq hb dst K h
    rw [readOut_of_absent dst he] at h1
    exact ⟨_, _, h1, hrc, hrm, afterRead_sameContents b h K⟩
  · have h1 := has_eq hb K h
    rw [he] at h1
    exact ⟨_, h1, hrc, hrm, afterRead_sameContents b h K⟩

theorem C34_primary_key_mismatch_witness :
    (bucket.afterOps [Op.set [1] [2] 7]).Reachable ∧
      GoMap.lookup 7 (bucket.afterOps [Op.set [1] [2] 7]).m = some 0 ∧
      keyAt (bucket.afterOps [Op.set [1] [2] 7]).kv 0 ≠ [9] ∧
      (bucket.afterOps [Op.set [1] [2] 7]).del [9] 7 =
        some { bucket.afterOps [Op.set [1] [2] 7] with
          collisions := (bucket.afterOps [Op.set [1] [2] 7]).collisions + 1 } ∧
      (∃ b' found, (bucket.afterOps [Op.set [1] [2] 7]).get none [9] 7 =
          some (b', none, found) ∧
        b'.collisions = (bucket.afterOps [Op.set [1] [2] 7]).collisions + 1 ∧
        b'.misses = (bucket.afterOps [Op.set [1] [2] 7]).misses + 1 ∧
        (bucket.afterOps [Op.set [1] [2] 7]).sameContents b') ∧
      (∃ b', (bucket.afterOps [Op.set [1] [2] 7]).has [9] 7 = some (b', false) ∧
        b'.collisions = (bucket.afterOps [Op.set [1] [2] 7]).collisions + 1 ∧
        b'.misses = (bucket.afterOps [Op.set [1] [2] 7]).misses + 1 ∧
        (bucket.afterOps [Op.set [1] [2] 7]).sameContents b') :=
  ⟨bucket_afterOps_reachable (by decide), by decide, by decide,
    C34_primary_key_mismatch _ (bucket_afterOps_reachable (by decide)) 7 0 [9] (by decide)
      (by decide) none⟩


/-! ## Claim C31: reuse of a freed slot -/

/-- The bucket `set` produces when the hash is in neither index and the free list is not
empty. -/
theorem set_free_eq {b : bucket} (hb : BInv b) {h idx : Nat} (k v : Bytes)
    (hm : GoMap.lookup h b.m = none) (hc : GoMap.lookup h b.col = none)
    (hf : b.free.getLast? = some idx) :
    b.set k v h = some
      { b with
        setCalls := u64 (b.setCalls + 1)
        size := u64 (b.size + u64 (v.length + k.length))
        kv := b.kv.set idx
          { key := writeBuf (slotAt b.kv idx).key k, val := writeBuf (slotAt b.kv idx).val v }
        free := b.free.dropLast
        m := GoMap.store h idx b.m } := by
  have hmem : idx ∈ b.free := List.mem_of_getLast?_eq_some hf
  have hlt : idx < b.kv.length := lt_of_lt_of_le (hb.free_lt hmem) hb.off
  have hget : b.kv[idx]? = some (slotAt b.kv idx) := getElem?_eq_slotAt hlt
  have hmc : bucket.set_mcheck { b with setCalls := u64 (b.setCalls + 1) } k v h = some
      { b with
        setCalls := u64 (b.setCalls + 1)
        size := u64 (b.size + u64 (v.length + k.length))
        kv := b.kv.set idx
          { key := writeBuf (slotAt b.kv idx).key k, val := writeBuf (slotAt b.kv idx).val v }
        free := b.free.dropLast
        m := GoMap.store h idx b.m } := by
    unfold bucket.set_mcheck
    dsimp only
    rw [hm]
    dsimp only
    rw [hf]
    dsimp only
    rw [hget]
  unfold bucket.set
  dsimp only
  by_cases hc0 : b.collisions = 0
  · rw [if_neg (not_not.2 hc0)]
    exact hmc
  · rw [if_pos hc0, hc]
    exact hmc

/-- C31: the reuse of a freed slot is last in, first out, and does not grow the slab. When
`set(K, V, h)` is applied to a reachable bucket in which `h` is a key of neither index and
the free list is not empty, with `idx` its last element (the slot freed most recently), the
call returns, and afterwards slot `idx` stores `(K, V)`, every other slot is as it was,
`idx` has been removed from the end of the free list and is no longer in it,
`PrimaryIndex[h]` is `idx`, and the append cursor, the length of the slab and the
CollisionIndex are as they were. -/
theorem C31_free_slot_reuse (b : bucket) (hr : b.Reachable) (h idx : Nat) (K V : Bytes)
    (hm : h ∉ b.m.map Prod.fst) (hc : h ∉ b.col.map Prod.fst)
    (hf : b.free.getLast? = some idx) :
    ∃ b', b.set K V h = some b' ∧
      (∃ sl, b'.kv[idx]? = some sl ∧ sl.key.data = K ∧ sl.val.data = V) ∧
      (∀ i, i ≠ idx → b'.kv[i]? = b.kv[i]?) ∧
      b'.free = b.free.dropLast ∧ b'.free ++ [idx] = b.free ∧ idx ∉ b'.free ∧
      GoMap.lookup h b'.m = some idx ∧
      b'.offset = b.offset ∧ b'.kv.length = b.kv.length ∧ b'.col = b.col := by
  obtain ⟨hb, _, _⟩ := bucket_reachable_inv hr
  have hm' : GoMap.lookup h b.m = none := by
    by_contra hne
    exact hm (mem_keys_iff_lookup.2 hne)
  have hc' : GoMap.lookup h b.col = none := by
    by_contra hne
    exact hc (mem_keys_iff_lookup.2 hne)
  have hmem : idx ∈ b.free := List.mem_of_getLast?_eq_some hf
  have hlt : idx < b.kv.length := lt_of_lt_of_le (hb.free_lt hmem) hb.off
  have happ : b.free.dropLast ++ [idx] = b.free := List.dropLast_append_getLast? idx hf
  refine ⟨_, set_free_eq hb K V hm' hc' hf, ?_, ?_, rfl, happ, ?_, ?_, rfl, ?_, rfl⟩
  · refine ⟨{ key := writeBuf (slotAt b.kv idx).key K, val := writeBuf (slotAt b.kv idx).val V },
      ?_, writeBuf_data _ K, writeBuf_data _ V⟩
    show (b.kv.set idx _)[idx]? = _
    simp [hlt]
  · intro i hi
    show (b.kv.set idx _)[i]? = _
    rw [List.getElem?_set_ne (Ne.symm hi)]
  · have hnd := hb.free_nodup
    rw [← happ] at hnd
    intro hin
    exact (List.disjoint_of_nodup_append hnd) hin (List.mem_singleton_self idx)
  · show GoMap.lookup h (GoMap.store h idx b.m) = some idx
    rw [GoMap.lookup_store]; simp
  · show (b.kv.set idx _).length = b.kv.length
    simp

theorem C31_free_slot_reuse_witness :
    (bucket.afterOps [Op.set [1] [2] 7, Op.set [3] [4] 8, Op.set [5] [6] 9, Op.del [1] 7,
        Op.del [5] 9]).Reachable ∧
      (bucket.afterOps [Op.set [1] [2] 7, Op.set [3] [4] 8, Op.set [5] [6] 9, Op.del [1] 7,
        Op.del [5] 9]).free = [0, 2] ∧
      7 ∉ (bucket.afterOps [Op.set [1] [2] 7, Op.set [3] [4] 8, Op.set [5] [6] 9, Op.del [1] 7,
        Op.del [5] 9]).m.map Prod.fst ∧
      7 ∉ (bucket.afterOps [Op.set [1] [2] 7, Op.set [3] [4] 8, Op.set [5] [6] 9, Op.del [1] 7,
        Op.del [5] 9]).col.map Prod.fst ∧
      ∃ b', (bucket.afterOps [Op.set [1] [2] 7, Op.set [3] [4] 8, Op.set [5] [6] 9,
          Op.del [1] 7, Op.del [5] 9]).set [7] [8] 7 = some b' ∧
        (∃ sl, b'.kv[2]? = some sl ∧ sl.key.data = [7] ∧ sl.val.data = [8]) ∧
        (∀ i, i ≠ 2 → b'.kv[i]? = (bucket.afterOps [Op.set [1] [2] 7, Op.set [3] [4] 8,
          Op.set [5] [6] 9, Op.del [1] 7, Op.del [5] 9]).kv[i]?) ∧
        b'.free = (bucket.afterOps [Op.set [1] [2] 7, Op.set [3] [4] 8, Op.set [5] [6] 9,
          Op.del [1] 7, Op.del [5] 9]).free.dropLast ∧
        b'.free ++ [2] = (bucket.afterOps [Op.set [1] [2] 7, Op.set [3] [4] 8,
          Op.set [5] [6] 9, Op.del [1] 7, Op.del [5] 9]).free ∧
        2 ∉ b'.free ∧ GoMap.lookup 7 b'.m = some 2 ∧
        b'.offset = (bucket.afterOps [Op.set [1] [2] 7, Op.set [3] [4] 8, Op.set [5] [6] 9,
          Op.del [1] 7, Op.del [5] 9]).offset ∧
        b'.kv.length = (bucket.afterOps [Op.set [1] [2] 7, Op.set [3] [4] 8,
          Op.set [5] [6] 9, Op.del [1] 7, Op.del [5] 9]).kv.length ∧
        b'.col = (bucket.afterOps [Op.set [1] [2] 7, Op.set [3] [4] 8, Op.set [5] [6] 9,
          Op.del [1] 7, Op.del [5] 9]).col :=
  ⟨bucket_afterOps_reachable (by decide), by decide, by decide, by decide,
    C31_free_slot_reuse _ (bucket_afterOps_reachable (by decide)) 7 2 [7] [8] (by decide)
      (by decide) (by decide)⟩


/-! ## Claim C35: the size after a value replacement -/

/-- C35: a value replacement adjusts the size exactly. In every reachable bucket state in
which key `K` is stored under hash `h` with value `Vold`, and whose live keys and values fit
in `2 ^ 64` bytes before and after the call, `set(K, Vnew, h)` returns and changes the byte
size from `s` to `s + len(Vnew) - len(Vold)` as an exact integer, also when `Vnew` is shorter
than `Vold`: the size before the call is at least `len(Vold)`, and the size after the call is
below `2 ^ 64` without a wrap. -/
theorem C35_value_replacement_size (b : bucket) (hr : b.Reachable) (h : Nat)
    (K Vold Vnew : Bytes) (he : b.entry h K = some Vold) (hfit : b.liveBytes < 2 ^ 64)
    (hfit' : b.liveBytes + Vnew.length < 2 ^ 64 + Vold.length) :
    ∃ b', b.set K Vnew h = some b' ∧
      b'.size + Vold.length = b.size + Vnew.length ∧
      (b'.size : Int) = (b.size : Int) + (Vnew.length : Int) - (Vold.length : Int) ∧
      Vold.length ≤ b.size ∧ b'.size = b'.liveBytes ∧ b'.entry h K = some Vnew := by
  obtain ⟨hb, hc, ho⟩ := bucket_reachable_inv hr
  obtain ⟨b', hset, hpost⟩ := set_spec hb (by omega) (by omega) K Vnew h
  have hbytes := hpost.bytes
  have heb : bucket.entryBytes { b with setCalls := u64 (b.setCalls + 1) } h K =
      K.length + Vold.length := by
    have he' : bucket.entry { b with setCalls := u64 (b.setCalls + 1) } h K = some Vold := he
    simp [bucket.entryBytes, he']
  have hlb : bucket.liveBytes { b with setCalls := u64 (b.setCalls + 1) } = b.liveBytes := rfl
  rw [heb, hlb] at hbytes
  have hs := hb.size_eq
  have hs' := hpost.inv.size_eq
  rw [Nat.mod_eq_of_lt hfit] at hs
  have hlt' : b'.liveBytes < 2 ^ 64 := by omega
  rw [Nat.mod_eq_of_lt hlt'] at hs'
  have hent : b'.entry h K = some Vnew := by
    rw [hpost.entry]; simp
  have hge : Vold.length ≤ b.size := by
    obtain ⟨b2, _, hpost2⟩ := del_spec hb (by omega) K h
    have h1 := hpost2.bytes
    have h2 : b.entryBytes h K = K.length + Vold.length := by simp [bucket.entryBytes, he]
    omega
  have hsum : b'.size + Vold.length = b.size + Vnew.length := by omega
  refine ⟨b', hset, hsum, by omega, hge, hs', hent⟩

theorem C35_value_replacement_size_witness :
    (bucket.afterOps [Op.set [1] [2, 3, 4] 7, Op.set [5] [6] 7]).Reachable ∧
      (bucket.afterOps [Op.set [1] [2, 3, 4] 7, Op.set [5] [6] 7]).entry 7 [1] =
        some [2, 3, 4] ∧
      (bucket.afterOps [Op.set [1] [2, 3, 4] 7, Op.set [5] [6] 7]).size = 6 ∧
      ∃ b', (bucket.afterOps [Op.set [1] [2, 3, 4] 7, Op.set [5] [6] 7]).set [1] [9] 7 =
          some b' ∧
        b'.size + [2, 3, 4].length =
          (bucket.afterOps [Op.set [1] [2, 3, 4] 7, Op.set [5] [6] 7]).size + [9].length ∧
        (b'.size : Int) =
          ((bucket.afterOps [Op.set [1] [2, 3, 4] 7, Op.set [5] [6] 7]).size : Int) +
            ([9].length : Int) - ([2, 3, 4].length : Int) ∧
        [2, 3, 4].length ≤ (bucket.afterOps [Op.set [1] [2, 3, 4] 7, Op.set [5] [6] 7]).size ∧
        b'.size = b'.liveBytes ∧ b'.entry 7 [1] = some [9] :=
  ⟨bucket_afterOps_reachable (by decide), by decide, by decide,
    C35_value_replacement_size _ (bucket_afterOps_reachable (by decide)) 7 [1] [2, 3, 4] [9]
      (by decide) (by decide) (by decide)⟩

/-! ## Claim C36: `reset` without `init` -/

/-- C36: `reset()` alone does not leave a well-formed empty bucket. `clear(b.free)` zeroes
the elements of the free list and keeps its length. On the reachable bucket obtained by
`set([1], [2], 7)` and `del([1], 7)`, whose free list is `[0]`, `reset()` leaves both indices
empty and the append cursor 0, but the free list `[0]`, whose index is not below the cursor;
a `set([1], [2], 7)` followed by a `set([3], [4], 8)` on that bucket stores both hashes at
slot 0, and a `get` of key `[1]` returns nothing. Followed by `init()`, as in
`Storage.Reset`, the bucket is a fresh bucket. -/
theorem C36_reset_alone_keeps_free_list :
    (bucket.afterOps [Op.set [1] [2] 7, Op.del [1] 7]).Reachable ∧
      (bucket.afterOps [Op.set [1] [2] 7, Op.del [1] 7]).free = [0] ∧
      (bucket.afterOps [Op.set [1] [2] 7, Op.del [1] 7]).reset.m = [] ∧
      (bucket.afterOps [Op.set [1] [2] 7, Op.del [1] 7]).reset.col = [] ∧
      (bucket.afterOps [Op.set [1] [2] 7, Op.del [1] 7]).reset.offset = 0 ∧
      (bucket.afterOps [Op.set [1] [2] 7, Op.del [1] 7]).reset.free = [0] ∧
      ¬ (∀ x ∈ (bucket.afterOps [Op.set [1] [2] 7, Op.del [1] 7]).reset.free,
        x < (bucket.afterOps [Op.set [1] [2] 7, Op.del [1] 7]).reset.offset) ∧
      (((bucket.afterOps [Op.set [1] [2] 7, Op.del [1] 7]).reset.set [1] [2] 7).bind
        (fun b => b.set [3] [4] 8)).map (fun b => b.m) = some [(8, 0), (7, 0)] ∧
      ((((bucket.afterOps [Op.set [1] [2] 7, Op.del [1] 7]).reset.set [1] [2] 7).bind
        (fun b => b.set [3] [4] 8)).bind (fun b => b.get none [1] 7)).map (fun r => r.2.1) =
        some none ∧
      (∀ b : bucket, b.reset.free.length = b.free.length) ∧
      (∀ b : bucket, b.reset.init = bucket.zero.init) := by
  refine ⟨bucket_afterOps_reachable (by decide), by decide, by decide, by decide, by decide,
    by decide, by decide, by decide, by decide, ?_, reset_init⟩
  intro b
  simp [bucket.reset]

end Bytestorage
